import Mathlib

/-!
# Collaborative markdown editor: document buffer, markdown primitives, commit,
command parsing, server tick and client replica

A shallow embedding of `src/source/markdown.c` (with the types of
`src/libs/document.h` and the return codes of `src/libs/markdown.h`), of
`process_command` (`src/source/helper.c`), of `sort_command_queue`
(`src/source/command_queue.c`), of the command loop of `broadcast_thread`
(`src/source/server.c`) and of `apply_broadcasts` and the initialisation of
the local document (`src/source/client.c`), and the properties proved about
them.

Modelling conventions.

* A byte is a natural number (its character code); a C string is the list of
  its bytes before the terminating NUL.
* A `chunk` is the used part `data[0 .. length)` of its 256-byte array, so
  `chunk.length` is the length of that list; the capacity is the predicate
  `chunks_wf`.
* The doubly linked chunk list is the list of its nodes from `head`; `tail`
  is its last node (every allocation site in `apply_insert` and the unlink in
  `apply_delete` keep `doc->tail` on the last node).  A chunk pointer into the
  list is a split of the list: the chunks before the pointed one, and the
  list starting at the pointed one (empty list = `NULL`).
* `size_t` and `uint64_t` values are natural numbers.  The two additions of
  the source that can leave the 64-bit range on caller-supplied values are
  reduced modulo `2^64` explicitly: the end of a deleted range
  (`e->pos + e->del_len`) and the version increment (`doc->version++`).
  All other sums are bounded by the size of the in-memory text.
* Pointers handed to the functions are non-null.
* A function that mutates the document returns the new document; the
  primitives return the pair of their `int` result and the document.
* Loops are structural recursions.  The `while (inserted < len)` loop of
  `apply_insert` takes one unit of fuel per iteration and returns `none` when
  it runs out; `apply_insert_total` shows that it never does on chunks within
  capacity.
* The server and the client are modelled on their data: the command queue is
  the list of its nodes, a broadcast block is the list of its lines as `fgets`
  returns them (each with its `'\n'`); threads, FIFOs and signals are left
  out.  The C library functions the sources call are modelled after ISO C.
-/

namespace Markdown

set_option maxRecDepth 100000

/-! ## Data model (`document.h`) -/

/-- Each chunk holds up to 256 characters of document content. -/
def CHUNK_SIZE : Nat := 256

/-- Number of values of a `size_t` / `uint64_t`. -/
def SIZE_MOD : Nat := 2 ^ 64

/-- A block of text: the bytes `data[0 .. length)` currently in use. -/
structure chunk where
  data : List Nat
  deriving DecidableEq, Repr

/-- Number of characters currently in use (`chunk.length`). -/
def chunk.length (c : chunk) : Nat := c.data.length

/-- Type of edit (insert or delete). -/
inductive edit_type where
  | EDIT_INSERT
  | EDIT_DELETE
  deriving DecidableEq, Repr

/-- A single pending edit; `text` is `[]` where the source stores `NULL`. -/
structure edit where
  type : edit_type
  pos : Nat
  text : List Nat
  del_len : Nat
  deriving DecidableEq, Repr

/-- A deleted range `[start, end)`; the field `end` of the source is `stop`. -/
structure range where
  start : Nat
  stop : Nat
  deriving DecidableEq, Repr

/-- The entire document, including content and pending edits. -/
structure document where
  version : Nat
  length : Nat
  chunks : List chunk
  pending : List edit
  deriving DecidableEq, Repr

/-- Pointer to the first chunk (`none` is `NULL`). -/
def document.head (doc : document) : Option chunk := doc.chunks.head?

/-- Pointer to the last chunk (`none` is `NULL`). -/
def document.tail (doc : document) : Option chunk := doc.chunks.getLast?

/-! ## Return codes (`markdown.h`, `markdown.c`) -/

def SUCCESS : Int := 0
def INVALID_CURSOR_POS : Int := -1
def DELETED_POSITION : Int := -2
def OUTDATED_VERSION : Int := -3
/-- Fallback error code for failed insert (`markdown.c`). -/
def INSERT_FAILED : Int := -4

def MAX_HEADING_LEVEL : Int := 3
def LIST_PREFIX_LEN : Nat := 3
def LIST_PREFIX_DOT_OFFSET : Nat := 1
def LIST_PREFIX_SPACE_OFFSET : Nat := 2
def MAX_LIST_ITEM_NUMBER : Nat := 9

/-! ## Buffer helpers -/

/-- Concatenation of the chunks' used bytes. -/
def flatten_chunks : List chunk → List Nat
  | [] => []
  | c :: cs => c.data ++ flatten_chunks cs

/-- The text `markdown_flatten` returns (without the terminating NUL): the
loop copies `c->data[0 .. c->length)` of every chunk from `head` on. -/
def markdown_flatten (doc : document) : List Nat := flatten_chunks doc.chunks

/-- Sum of the chunk lengths. -/
def chunks_length : List chunk → Nat
  | [] => 0
  | c :: cs => c.length + chunks_length cs

/-- The loop of `find_chunk`: `before` are the chunks already walked past, the
second list starts at `current`, `i` is the running byte count.  Returns the
chunks before the result, the list starting at the result (`[]` for `NULL`)
and `*local_offset` (left at 0 when the result is `NULL`, where the source
leaves it unset). -/
def find_chunk_loop (pos : Nat) :
    List chunk → List chunk → Nat → List chunk × List chunk × Nat
  | before, [], _ => (before, [], 0)
  | before, c :: next, i =>
    if i + c.length ≤ pos then find_chunk_loop pos (before ++ [c]) next (i + c.length)
    else (before, c :: next, pos - i)

/-- Finds the chunk containing a position and returns its local offset. -/
def find_chunk (doc : document) (pos : Nat) : List chunk × List chunk × Nat :=
  find_chunk_loop pos [] doc.chunks 0

/-- Initialises and returns a new, empty document. -/
def markdown_init : document :=
  { version := 0, length := 0, chunks := [], pending := [] }

/-! ## `apply_insert` -/

/-- The `while (inserted < len)` loop of `apply_insert`.  `before ++ cur` is
the chunk list with `cur` starting at the chunk `cur` points to, `text` is
the part `text + inserted` not yet copied, `length` is `doc->length`.  One
unit of fuel is one iteration; `none` means the fuel ran out. -/
def apply_insert_loop :
    Nat → List chunk → List chunk → Nat → List Nat → Nat → Option (List chunk × Nat)
  | _, before, cur, _, [], length => some (before ++ cur, length)
  | 0, _, _, _, _ :: _, _ => none
  | fuel + 1, before, cur, offset, t :: ts, length =>
    -- if (!cur) { link a new empty chunk after doc->tail; offset = 0; }
    let c : chunk := match cur with
      | [] => ⟨[]⟩
      | c :: _ => c
    let next : List chunk := cur.tail
    let offset : Nat := match cur with
      | [] => 0
      | _ :: _ => offset
    let text := t :: ts
    let space := CHUNK_SIZE - c.length
    let to_copy := if text.length < space then text.length else space
    -- memmove the data at offset to the right, memcpy the new data in
    let c1 : chunk := ⟨c.data.take offset ++ text.take to_copy ++ c.data.drop offset⟩
    if c1.length = CHUNK_SIZE then
      -- the chunk is full: move to the next one, create it if necessary
      let next1 : List chunk := match next with
        | [] => [⟨[]⟩]
        | n :: ns => n :: ns
      apply_insert_loop fuel (before ++ [c1]) next1 0 (text.drop to_copy) (length + to_copy)
    else
      apply_insert_loop fuel before (c1 :: next) (offset + to_copy) (text.drop to_copy)
        (length + to_copy)

/-- Applies an insert edit immediately to the document content. -/
def apply_insert (doc : document) (pos : Nat) (text : List Nat) : Option document :=
  let (before, cur, offset) := find_chunk doc pos
  -- If inserting at the end and no chunk exists, create one
  let cur1 : List chunk := match cur with
    | [] => if pos = doc.length then [⟨[]⟩] else []
    | c :: cs => c :: cs
  match apply_insert_loop (text.length + doc.chunks.length + 2) before cur1 offset text
      doc.length with
  | none => none
  | some (chunks, length) => some { doc with chunks := chunks, length := length }

/-! ## `apply_delete` -/

/-- The `while (cur && to_delete > 0)` loop of `apply_delete`; same state as
the insert loop, with `to_delete` the count still to remove. -/
def apply_delete_loop :
    List chunk → List chunk → Nat → Nat → Nat → List chunk × Nat
  | before, [], _, _, length => (before, length)
  | before, c :: next, offset, to_delete, length =>
    if to_delete > 0 then
      let avail := c.length - offset
      let can_delete := if avail > to_delete then to_delete else avail
      -- memmove the remaining data left over the deleted portion
      let c1 : chunk := ⟨c.data.take offset ++ c.data.drop (offset + can_delete)⟩
      if c1.length = 0 then
        -- the chunk is now empty: unlink and free it
        apply_delete_loop before next 0 (to_delete - can_delete) (length - can_delete)
      else
        apply_delete_loop (before ++ [c1]) next 0 (to_delete - can_delete)
          (length - can_delete)
    else (before ++ c :: next, length)

/-- Applies a delete operation by removing characters from the document
starting at the given position. -/
def apply_delete (doc : document) (pos : Nat) (len : Nat) : document :=
  let (before, cur, offset) := find_chunk doc pos
  let (chunks, length) := apply_delete_loop before cur offset len doc.length
  { doc with chunks := chunks, length := length }

/-! ## Editing commands -/

/-- Queues an insert edit at the given position with the specified text
(appended to the end of the pending edit queue). -/
def markdown_insert (doc : document) (version : Nat) (pos : Nat) (text : List Nat) :
    Int × document :=
  if pos > doc.length then (INVALID_CURSOR_POS, doc)
  else if version ≠ doc.version then (OUTDATED_VERSION, doc)
  else (SUCCESS,
    { doc with pending := doc.pending ++ [⟨edit_type.EDIT_INSERT, pos, text, 0⟩] })

/-- Queues a delete operation starting at the given position for the
specified length. -/
def markdown_delete (doc : document) (version : Nat) (pos : Nat) (len : Nat) :
    Int × document :=
  if pos > doc.length ∨ len = 0 then (INVALID_CURSOR_POS, doc)
  else if version ≠ doc.version then (OUTDATED_VERSION, doc)
  else (SUCCESS,
    { doc with pending := doc.pending ++ [⟨edit_type.EDIT_DELETE, pos, [], len⟩] })

/-! ## Position helpers -/

/-- The loop of `build_deleted_ranges`: every new range is put in front of
the list built so far; `r->end = e->pos + e->del_len` in `size_t`. -/
def build_deleted_ranges_loop : List edit → List range → List range
  | [], deleted => deleted
  | e :: next, deleted =>
    if e.type = edit_type.EDIT_DELETE then
      build_deleted_ranges_loop next (⟨e.pos, (e.pos + e.del_len) % SIZE_MOD⟩ :: deleted)
    else build_deleted_ranges_loop next deleted

/-- Builds a list of deleted ranges from the pending edit queue. -/
def build_deleted_ranges (pending : List edit) : List range :=
  build_deleted_ranges_loop pending []

/-- Returns true if the `[start, stop)` range is entirely within a deleted
region. -/
def is_fully_within_deleted (start stop : Nat) : List range → Bool
  | [] => false
  | r :: next =>
    if start ≥ r.start ∧ stop ≤ r.stop then true
    else is_fully_within_deleted start stop next

/-- Snap of one position against one range: inside `[r.start, r.stop)` it
moves to the closer edge, `r.start` on a tie. -/
def snap (x : Nat) (r : range) : Nat :=
  if x ≥ r.start ∧ x < r.stop then
    (if x - r.start ≤ r.stop - x then r.start else r.stop)
  else x

/-- Adjusts start/end positions if they fall within a deleted region. -/
def adjust_partially_deleted : Nat → Nat → List range → Nat × Nat
  | start, stop, [] => (start, stop)
  | start, stop, r :: next => adjust_partially_deleted (snap start r) (snap stop r) next

/-- Adjusts a single position if it falls within a deleted range: it moves
to the start of the first such range of the list. -/
def adjust_single_position_if_deleted (pos : Nat) : List range → Nat
  | [] => pos
  | r :: next =>
    if pos ≥ r.start ∧ pos < r.stop then r.start
    else adjust_single_position_if_deleted pos next

/-- The byte `text[i]` of a flattened buffer: the buffer ends with a NUL. -/
def char_at (text : List Nat) (i : Nat) : Nat := text.getD i 0

/-- The C `isdigit` on a byte. -/
def isdigit (c : Nat) : Bool := decide (48 ≤ c ∧ c ≤ 57)

/-- The test `isdigit(text[i]) && text[i + 1] == '.' && text[i + 2] == ' '`. -/
def list_prefix_at (text : List Nat) (i : Nat) : Bool :=
  isdigit (char_at text i) && char_at text (i + LIST_PREFIX_DOT_OFFSET) == 46
    && char_at text (i + LIST_PREFIX_SPACE_OFFSET) == 32

/-- Checks if the position is near an existing ordered list prefix. -/
def is_near_list_prefix (text : List Nat) (pos : Nat) (doc_length : Nat) : Bool :=
  if pos ≥ LIST_PREFIX_LEN ∧ list_prefix_at text (pos - LIST_PREFIX_LEN) = true then true
  else if pos + LIST_PREFIX_LEN - 1 < doc_length ∧ list_prefix_at text pos = true then true
  else false

/-- Returns true if the character before the given position is not a
newline. -/
def needs_preceding_newline (doc : document) (pos : Nat) : Bool :=
  if pos = 0 then false
  else decide (char_at (markdown_flatten doc) (pos - 1) ≠ 10)

/-! ## Formatting commands -/

/-- Inserts a newline at the given position, adjusting if the position is
inside a deleted range. -/
def markdown_newline (doc : document) (version : Nat) (pos : Nat) : Int × document :=
  if pos > doc.length then (INVALID_CURSOR_POS, doc)
  else if version ≠ doc.version then (OUTDATED_VERSION, doc)
  else
    let deleted := build_deleted_ranges doc.pending
    let pos := adjust_single_position_if_deleted pos deleted
    markdown_insert doc version pos [10]

/-- Inserts a Markdown heading at the specified position and level. -/
def markdown_heading (doc : document) (version : Nat) (level : Int) (pos : Nat) :
    Int × document :=
  if pos > doc.length ∨ level < 1 ∨ level > MAX_HEADING_LEVEL then (INVALID_CURSOR_POS, doc)
  else if version ≠ doc.version then (OUTDATED_VERSION, doc)
  else
    let deleted := build_deleted_ranges doc.pending
    let adjusted := adjust_single_position_if_deleted pos deleted
    let heading := List.replicate level.toNat 35 ++ [32]
    if needs_preceding_newline doc adjusted = true then
      markdown_insert doc version adjusted (10 :: heading)
    else markdown_insert doc version adjusted heading

/-- Applies bold formatting by inserting the marker around the range; the
closing tag is inserted first. -/
def markdown_bold (doc : document) (version : Nat) (start stop : Nat) : Int × document :=
  if start > stop ∨ stop > doc.length then (INVALID_CURSOR_POS, doc)
  else if version ≠ doc.version then (OUTDATED_VERSION, doc)
  else
    let deleted := build_deleted_ranges doc.pending
    if is_fully_within_deleted start stop deleted = true then (DELETED_POSITION, doc)
    else
      let (start, stop) := adjust_partially_deleted start stop deleted
      let (r1, doc1) := markdown_insert doc version stop [42, 42]
      if r1 ≠ 0 then (INSERT_FAILED, doc1)
      else
        let (r2, doc2) := markdown_insert doc1 version start [42, 42]
        if r2 ≠ 0 then (INSERT_FAILED, doc2) else (SUCCESS, doc2)

/-- Applies italic formatting by inserting the marker around the range. -/
def markdown_italic (doc : document) (version : Nat) (start stop : Nat) : Int × document :=
  if start > stop ∨ stop > doc.length then (INVALID_CURSOR_POS, doc)
  else if version ≠ doc.version then (OUTDATED_VERSION, doc)
  else
    let deleted := build_deleted_ranges doc.pending
    if is_fully_within_deleted start stop deleted = true then (DELETED_POSITION, doc)
    else
      let (start, stop) := adjust_partially_deleted start stop deleted
      let (r1, doc1) := markdown_insert doc version stop [42]
      if r1 ≠ 0 then (INSERT_FAILED, doc1)
      else
        let (r2, doc2) := markdown_insert doc1 version start [42]
        if r2 ≠ 0 then (INSERT_FAILED, doc2) else (SUCCESS, doc2)

/-- Inserts a blockquote prefix at the given position. -/
def markdown_blockquote (doc : document) (version : Nat) (pos : Nat) : Int × document :=
  if pos > doc.length then (INVALID_CURSOR_POS, doc)
  else if version ≠ doc.version then (OUTDATED_VERSION, doc)
  else
    let deleted := build_deleted_ranges doc.pending
    let adjusted := adjust_single_position_if_deleted pos deleted
    let (r, doc1) :=
      if needs_preceding_newline doc adjusted = true then
        markdown_insert doc version adjusted [10, 62, 32]
      else markdown_insert doc version adjusted [62, 32]
    if r ≠ 0 then (INSERT_FAILED, doc1) else (SUCCESS, doc1)

/-- Inserts an unordered list prefix at the given position, with newline if
needed. -/
def markdown_unordered_list (doc : document) (version : Nat) (pos : Nat) : Int × document :=
  if pos > doc.length then (INVALID_CURSOR_POS, doc)
  else if version ≠ doc.version then (OUTDATED_VERSION, doc)
  else
    let deleted := build_deleted_ranges doc.pending
    let adjusted := adjust_single_position_if_deleted pos deleted
    let flat := markdown_flatten doc
    let need_newline := decide (adjusted > 0 ∧ char_at flat (adjusted - 1) ≠ 10)
    let (r, doc1) :=
      if need_newline = true then markdown_insert doc version adjusted [10, 45, 32]
      else markdown_insert doc version adjusted [45, 32]
    if r ≠ 0 then (INSERT_FAILED, doc1) else (SUCCESS, doc1)

/-- Applies inline code formatting by wrapping the given range. -/
def markdown_code (doc : document) (version : Nat) (start stop : Nat) : Int × document :=
  if start > stop ∨ stop > doc.length then (INVALID_CURSOR_POS, doc)
  else if version ≠ doc.version then (OUTDATED_VERSION, doc)
  else
    let deleted := build_deleted_ranges doc.pending
    if is_fully_within_deleted start stop deleted = true then (DELETED_POSITION, doc)
    else
      let (start, stop) := adjust_partially_deleted start stop deleted
      let (r1, doc1) := markdown_insert doc version stop [96]
      if r1 ≠ 0 then (INSERT_FAILED, doc1)
      else
        let (r2, doc2) := markdown_insert doc1 version start [96]
        if r2 ≠ 0 then (INSERT_FAILED, doc2) else (SUCCESS, doc2)

/-- Inserts a horizontal rule at the given position, adding newlines as
needed. -/
def markdown_horizontal_rule (doc : document) (version : Nat) (pos : Nat) : Int × document :=
  if pos > doc.length then (INVALID_CURSOR_POS, doc)
  else if version ≠ doc.version then (OUTDATED_VERSION, doc)
  else
    let deleted := build_deleted_ranges doc.pending
    let adjusted := adjust_single_position_if_deleted pos deleted
    let flat := markdown_flatten doc
    let need_prefix_newline := decide (adjusted > 0 ∧ char_at flat (adjusted - 1) ≠ 10)
    let need_suffix_newline := decide (adjusted = doc.length ∨ char_at flat adjusted ≠ 10)
    let buffer : List Nat :=
      if need_prefix_newline = true ∧ need_suffix_newline = true then [10, 45, 45, 45, 10]
      else if need_prefix_newline = true then [10, 45, 45, 45]
      else if need_suffix_newline = true then [45, 45, 45, 10]
      else [45, 45, 45]
    let (r, doc1) := markdown_insert doc version adjusted buffer
    if r ≠ 0 then (INSERT_FAILED, doc1) else (SUCCESS, doc1)

/-- Wraps a text range in a markdown link using the provided URL; the
opening bracket is inserted first, then the closing string. -/
def markdown_link (doc : document) (version : Nat) (start stop : Nat) (url : List Nat) :
    Int × document :=
  if start > stop ∨ stop > doc.length then (INVALID_CURSOR_POS, doc)
  else if version ≠ doc.version then (OUTDATED_VERSION, doc)
  else
    let deleted := build_deleted_ranges doc.pending
    if is_fully_within_deleted start stop deleted = true then (DELETED_POSITION, doc)
    else
      let (start, stop) := adjust_partially_deleted start stop deleted
      let closing := [93, 40] ++ url ++ [41]
      let (r1, doc1) := markdown_insert doc version start [91]
      if r1 ≠ 0 then (INSERT_FAILED, doc1)
      else
        let (r2, doc2) := markdown_insert doc1 version stop closing
        if r2 ≠ 0 then (INSERT_FAILED, doc2) else (SUCCESS, doc2)

/-! ## Ordered list -/

/-- The loop `while (line > 0 && text[line - 1] != '\n') line--`. -/
def line_begin (text : List Nat) : Nat → Nat
  | 0 => 0
  | line + 1 => if char_at text line ≠ 10 then line_begin text line else line + 1

/-- The loop `while (line_start < length && text[line_start] != '\n')
line_start++`; the first argument is `length - line_start`. -/
def line_end (text : List Nat) : Nat → Nat → Nat
  | 0, line_start => line_start
  | left + 1, line_start =>
    if char_at text line_start ≠ 10 then line_end text left (line_start + 1) else line_start

/-- The output of `%d` for a non-negative number. -/
def format_decimal (n : Nat) : List Nat := (Nat.toDigits 10 n).map Char.toNat

/-- The upward scan for the most recent ordered list number, `number`
starting at 1.  `scan` strictly decreases from one iteration to the next, so
a fuel equal to the first `scan` is never used up before `scan` reaches 0. -/
def scan_list_number (text : List Nat) : Nat → Nat → Nat
  | 0, _ => 1
  | fuel + 1, scan =>
    if scan > 0 then
      let line := line_begin text scan
      if list_prefix_at text line = true then char_at text line - 48 + 1
      else if line = 0 then 1
      else scan_list_number text fuel (line - 1)
    else 1

/-- The forward walk that renumbers the following list items.  `renumber`
grows by one per iteration and the loop stops above 9, so a fuel of 10 is
never used up. -/
def renumber_loop : Nat → Nat → Nat → document → document
  | 0, _, _, doc => doc
  | fuel + 1, renumber, cursor, doc =>
    if renumber ≤ MAX_LIST_ITEM_NUMBER ∧ cursor < doc.length then
      let text := markdown_flatten doc
      let line_start := line_end text (doc.length - cursor) cursor
      if line_start ≥ doc.length then doc
      else
        let next_line := line_start + 1
        if next_line + LIST_PREFIX_SPACE_OFFSET ≥ doc.length then doc
        else if list_prefix_at text next_line = true then
          let (r1, doc1) := markdown_delete doc doc.version next_line LIST_PREFIX_LEN
          if r1 ≠ 0 then doc1
          else
            let new_prefix := format_decimal renumber ++ [46, 32]
            let (r2, doc2) := markdown_insert doc1 doc1.version next_line new_prefix
            if r2 ≠ 0 then doc2
            else renumber_loop fuel (renumber + 1) (next_line + new_prefix.length) doc2
        else doc
    else doc

/-- Applies ordered list formatting at the given position in the document,
with newline if needed. -/
def markdown_ordered_list (doc : document) (version : Nat) (pos : Nat) : Int × document :=
  if pos > doc.length then (INVALID_CURSOR_POS, doc)
  else if version ≠ doc.version then (OUTDATED_VERSION, doc)
  else
    let deleted := build_deleted_ranges doc.pending
    let pos := adjust_single_position_if_deleted pos deleted
    let text := markdown_flatten doc
    if is_near_list_prefix text pos doc.length = true then (-1, doc)
    else
      let line_start := line_begin text pos
      let number := scan_list_number text line_start line_start
      if number > MAX_LIST_ITEM_NUMBER then (-1, doc)
      else
        let pre : List Nat :=
          if needs_preceding_newline doc pos = true then
            10 :: (format_decimal number ++ [46, 32])
          else format_decimal number ++ [46, 32]
        let (r, doc1) := markdown_insert doc version pos pre
        if r ≠ 0 then (INSERT_FAILED, doc1)
        else
          (SUCCESS, renumber_loop (MAX_LIST_ITEM_NUMBER + 1) (number + 1) (pos + pre.length) doc1)

/-! ## Versioning -/

/-- The first loop of `markdown_increment_version`: every edit is put in
front of the list of its type. -/
def split_pending : List edit → List edit → List edit → List edit × List edit
  | [], deletes, inserts => (deletes, inserts)
  | e :: next, deletes, inserts =>
    if e.type = edit_type.EDIT_DELETE then split_pending next (e :: deletes) inserts
    else split_pending next deletes (e :: inserts)

/-- The loop `for (d = deletes; d; d = d->next) apply_delete(...)`. -/
def apply_deletes : List edit → document → document
  | [], doc => doc
  | d :: next, doc => apply_deletes next (apply_delete doc d.pos d.del_len)

/-- The inner loop of the insertion sort: the sorted part `a[0 .. j]` is
given from `a[j]` down to `a[0]`; entries with a larger position move one
place up and `key` lands below them. -/
def sort_place (key : edit) : List edit → List edit
  | [] => [key]
  | x :: below => if x.pos > key.pos then x :: sort_place key below else key :: x :: below

/-- The outer loop of the insertion sort: `done` is the sorted part from its
last entry down, the second list is `a[i ..]`. -/
def sort_loop : List edit → List edit → List edit
  | done, [] => done.reverse
  | done, key :: todo => sort_loop (sort_place key done) todo

/-- Sort inserts by position in ascending order (the loop starts at `i = 1`). -/
def sort_inserts : List edit → List edit
  | [] => []
  | a0 :: todo => sort_loop [a0] todo

/-- Apply inserts, adjusting for position shifts due to prior inserts. -/
def apply_inserts : List edit → Nat → document → Option document
  | [], _, doc => some doc
  | e :: next, offset, doc =>
    match apply_insert doc (e.pos + offset) e.text with
    | none => none
    | some doc1 => apply_inserts next (offset + e.text.length) doc1

/-- Applies all pending edits to the document and increments its version. -/
def markdown_increment_version (doc : document) : Option document :=
  let (deletes, inserts) := split_pending doc.pending [] []
  let doc1 := apply_deletes deletes doc
  match apply_inserts (sort_inserts inserts) 0 doc1 with
  | none => none
  | some doc2 => some { doc2 with pending := [], version := (doc2.version + 1) % SIZE_MOD }


/-! ## Predicates used by the statements -/

/-- Every chunk respects the capacity of its array. -/
def chunks_wf (cs : List chunk) : Prop := ∀ c ∈ cs, c.length ≤ CHUNK_SIZE

/-- Bound on the number of iterations the insert loop still needs. -/
def insert_measure (cur : List chunk) (text : List Nat) : Nat :=
  text.length + cur.length +
    (match cur with
     | [] => 2
     | c :: _ => if c.length = CHUNK_SIZE then 1 else 0)

instance (cs : List chunk) : Decidable (chunks_wf cs) := by
  unfold chunks_wf
  infer_instance

/-- The document invariant of `document.h`: every chunk within the capacity
of its array and `length` equal to the sum of the chunk lengths. -/
def doc_inv (doc : document) : Prop :=
  chunks_wf doc.chunks ∧ doc.length = chunks_length doc.chunks

instance (doc : document) : Decidable (doc_inv doc) := by
  unfold doc_inv
  infer_instance

/-- Document states reachable from `markdown_init` by `apply_insert`,
`apply_delete` and `markdown_increment_version`.  The primitives only touch
the pending list, so the list a commit finds may be any list. -/
inductive reachable : document → Prop where
  | init : reachable markdown_init
  | insert (d d1 : document) (pos : Nat) (text : List Nat) :
      reachable d → apply_insert d pos text = some d1 → reachable d1
  | delete (d : document) (pos len : Nat) :
      reachable d → reachable (apply_delete d pos len)
  | commit (d d1 : document) :
      reachable d → markdown_increment_version d = some d1 → reachable d1
  | enqueue (d : document) (pending : List edit) :
      reachable d → reachable { d with pending := pending }

/-! ## Concrete documents used in the evaluations -/

/-- The empty document after `apply_insert(doc, 0, text)` with 256 bytes
`'a'`: one full chunk and the empty chunk linked behind it. -/
def full_chunk_doc : document :=
  { version := 0, length := 256, chunks := [⟨List.replicate 256 97⟩, ⟨[]⟩], pending := [] }

/-- The empty document after `apply_insert(doc, 0, text)` with 200 bytes
`'a'`. -/
def partial_chunk_doc : document :=
  { version := 0, length := 200, chunks := [⟨List.replicate 200 97⟩], pending := [] }

/-- A document of three chunks `"abc"`, `"de"`, `"f"`. -/
def three_chunk_doc : document :=
  { version := 0, length := 6, chunks := [⟨[97, 98, 99]⟩, ⟨[100, 101]⟩, ⟨[102]⟩],
    pending := [] }

/-- The empty document after `apply_insert(doc, 0, "abc")`. -/
def abc_doc : document :=
  { version := 0, length := 3, chunks := [⟨[97, 98, 99]⟩], pending := [] }

/-! ## The twelve primitives as one call -/

/-- A call of one of the twelve primitives of `markdown.h`, with its
positional arguments in the order of the C prototype. -/
inductive primitive where
  | insert (pos : Nat) (text : List Nat)
  | delete (pos len : Nat)
  | newline (pos : Nat)
  | heading (level : Int) (pos : Nat)
  | bold (start stop : Nat)
  | italic (start stop : Nat)
  | blockquote (pos : Nat)
  | ordered_list (pos : Nat)
  | unordered_list (pos : Nat)
  | code (start stop : Nat)
  | horizontal_rule (pos : Nat)
  | link (start stop : Nat) (url : List Nat)
  deriving DecidableEq, Repr

/-- Runs the primitive on the document with the given version argument. -/
def call (doc : document) (version : Nat) : primitive → Int × document
  | .insert pos text => markdown_insert doc version pos text
  | .delete pos len => markdown_delete doc version pos len
  | .newline pos => markdown_newline doc version pos
  | .heading level pos => markdown_heading doc version level pos
  | .bold start stop => markdown_bold doc version start stop
  | .italic start stop => markdown_italic doc version start stop
  | .blockquote pos => markdown_blockquote doc version pos
  | .ordered_list pos => markdown_ordered_list doc version pos
  | .unordered_list pos => markdown_unordered_list doc version pos
  | .code start stop => markdown_code doc version start stop
  | .horizontal_rule pos => markdown_horizontal_rule doc version pos
  | .link start stop url => markdown_link doc version start stop url

/-- Specification side of the argument check: the spec's list of invalid
positional arguments (`pos > length`, `start > end`, `end > length`, heading
level outside 1..3, delete `len == 0`). -/
def spec_args_invalid (doc : document) : primitive → Prop
  | .insert pos _ => pos > doc.length
  | .delete pos len => pos > doc.length ∨ len = 0
  | .newline pos => pos > doc.length
  | .heading level pos => pos > doc.length ∨ level < 1 ∨ level > 3
  | .bold start stop => start > stop ∨ stop > doc.length
  | .italic start stop => start > stop ∨ stop > doc.length
  | .blockquote pos => pos > doc.length
  | .ordered_list pos => pos > doc.length
  | .unordered_list pos => pos > doc.length
  | .code start stop => start > stop ∨ stop > doc.length
  | .horizontal_rule pos => pos > doc.length
  | .link start stop _ => start > stop ∨ stop > doc.length

/-- The document `"abcdef"` in one chunk, version 0, nothing pending. -/
def abcdef_doc : document :=
  { version := 0, length := 6, chunks := [⟨[97, 98, 99, 100, 101, 102]⟩], pending := [] }

/-- The document `"abcdef"` after a successful `markdown_delete(doc, 0, 1, 6)`: the
pending range `[1, 7)` ends past the document end. -/
def past_end_delete_doc : document :=
  { abcdef_doc with pending := [⟨edit_type.EDIT_DELETE, 1, [], 6⟩] }

/-- The document `"abcdef"` after a successful
`markdown_delete(doc, 0, 1, SIZE_MAX)`. -/
def wrapped_delete_doc : document :=
  { abcdef_doc with pending := [⟨edit_type.EDIT_DELETE, 1, [], 18446744073709551615⟩] }

/-- The document `"abcdef"` after a successful `markdown_delete(doc, 0, 0, 3)`. -/
def prefix_delete_doc : document :=
  { abcdef_doc with pending := [⟨edit_type.EDIT_DELETE, 0, [], 3⟩] }

/-- The document with one more `Insert` at the end of the pending queue. -/
def enqueue_insert (doc : document) (pos : Nat) (text : List Nat) : document :=
  { doc with pending := doc.pending ++ [⟨edit_type.EDIT_INSERT, pos, text, 0⟩] }

/-- The document with one more `Delete` at the end of the pending queue. -/
def enqueue_delete (doc : document) (pos len : Nat) : document :=
  { doc with pending := doc.pending ++ [⟨edit_type.EDIT_DELETE, pos, [], len⟩] }

/-! ## Specification side of the commit: inserts against the frozen text -/

/-- The texts of the edits whose position is `p`. -/
def spec_texts_at : List edit → Nat → List Nat
  | [], _ => []
  | e :: es, p => if e.pos = p then e.text ++ spec_texts_at es p else spec_texts_at es p

/-- Walks the frozen text from index `p`: in front of every byte, and after
the last one, the texts of the edits placed at that index. -/
def spec_frozen_from (edits : List edit) : Nat → List Nat → List Nat
  | p, [] => spec_texts_at edits p
  | p, b :: bs => spec_texts_at edits p ++ b :: spec_frozen_from edits (p + 1) bs

/-- The text obtained by inserting every edit's text at its own position of
the frozen pre-commit text `old`. -/
def spec_insert_frozen (old : List Nat) (edits : List edit) : List Nat :=
  spec_frozen_from edits 0 old

/-- Total number of bytes the edits' texts hold. -/
def inserts_size : List edit → Nat
  | [] => 0
  | e :: es => e.text.length + inserts_size es

/-- The document `"Hello"` with four pending inserts enqueued out of
position order: `"A"` at 3, `"B"` at 1, `"C"` at 5, `"D"` at 0. -/
def hello_inserts_doc : document :=
  { version := 0, length := 5, chunks := [⟨[72, 101, 108, 108, 111]⟩],
    pending := [⟨edit_type.EDIT_INSERT, 3, [65], 0⟩, ⟨edit_type.EDIT_INSERT, 1, [66], 0⟩,
      ⟨edit_type.EDIT_INSERT, 5, [67], 0⟩, ⟨edit_type.EDIT_INSERT, 0, [68], 0⟩] }

/-! ## C library functions the sources call (`helper.c`, `server.c`, `client.c`)

The directives of `sscanf` the source uses, `snprintf` into a sized buffer,
`strstr`, `strchr`, `strncmp` against a literal and `strtoull`, after ISO C;
a value out of range is stored the way glibc stores it. -/

/-- The bytes of a string literal. -/
def bytes (s : String) : List Nat := s.toList.map Char.toNat

/-- The C `isspace` in the C locale. -/
def isspace (c : Nat) : Bool := decide (c = 32 ∨ (9 ≤ c ∧ c ≤ 13))

/-- Skips the white space at the front of the input. -/
def skip_space : List Nat → List Nat
  | [] => []
  | c :: cs => if isspace c = true then skip_space cs else c :: cs

/-- Value of a run of decimal digits, most significant first. -/
def digits_value : List Nat → Nat → Nat
  | [], acc => acc
  | c :: cs, acc => digits_value cs (acc * 10 + (c - 48))

/-- The subject sequence of `strtoul` / `strtol` in base 10: an optional
sign, then at least one digit.  Returns the sign, the digits and the rest of
the input, or `none` when no digit follows. -/
def scan_number (input : List Nat) : Option (Bool × List Nat × List Nat) :=
  let neg : Bool := decide (input.head? = some 45)
  let s : List Nat :=
    if input.head? = some 45 ∨ input.head? = some 43 then input.tail else input
  let ds := s.takeWhile (fun c => isdigit c)
  if ds = [] then none else some (neg, ds, s.drop ds.length)

/-- The value `strtoul` / `strtoull` gives a signed digit run: `ULONG_MAX`
out of range, the negation in `unsigned long` after a minus sign. -/
def strtoul_value (neg : Bool) (ds : List Nat) : Nat :=
  if digits_value ds 0 ≥ SIZE_MOD then SIZE_MOD - 1
  else if neg = true then (SIZE_MOD - digits_value ds 0) % SIZE_MOD
  else digits_value ds 0

/-- The value `strtol` gives a signed digit run, clamped to `long`. -/
def strtol_value (neg : Bool) (ds : List Nat) : Int :=
  if neg = true then max (-(digits_value ds 0 : Int)) (-(2 ^ 63))
  else min (digits_value ds 0 : Int) (2 ^ 63 - 1)

/-- Conversion of an integer value to `int` (32 bits, two's complement). -/
def to_int (x : Int) : Int := (x + 2 ^ 31) % 2 ^ 32 - 2 ^ 31

/-- The call `strtoull(s, NULL, 10)`: leading white space, the subject
sequence, 0 when there is none. -/
def strtoull (s : List Nat) : Nat :=
  match scan_number (skip_space s) with
  | none => 0
  | some (neg, ds, _) => strtoul_value neg ds

/-- A directive of a `sscanf` format. -/
inductive directive where
  | white
  | literal (c : Nat)
  | conv_zu
  | conv_d
  | conv_not_newline
  deriving DecidableEq, Repr

/-- Reads a format string: `%zu`, `%d`, `%[^\n]`, white space, and ordinary
characters.  The first argument bounds the number of directives by the
length of the format. -/
def scan_format_loop : Nat → List Nat → List directive
  | 0, _ => []
  | _ + 1, [] => []
  | fuel + 1, c :: rest =>
    if c = 37 ∧ rest.take 2 = [122, 117] then
      directive.conv_zu :: scan_format_loop fuel (rest.drop 2)
    else if c = 37 ∧ rest.take 1 = [100] then
      directive.conv_d :: scan_format_loop fuel (rest.drop 1)
    else if c = 37 ∧ rest.take 4 = [91, 94, 10, 93] then
      directive.conv_not_newline :: scan_format_loop fuel (rest.drop 4)
    else if isspace c = true then directive.white :: scan_format_loop fuel rest
    else directive.literal c :: scan_format_loop fuel rest

/-- The directives of a format string. -/
def scan_format (format : List Nat) : List directive :=
  scan_format_loop format.length format

/-- A value stored by one conversion. -/
inductive scanned where
  | size (n : Nat)
  | int (n : Int)
  | text (s : List Nat)
  deriving DecidableEq, Repr

/-- Runs the directives over the input and returns the values stored, in
order; it stops at the first directive that fails.  White space in the format
skips any white space; `%zu` and `%d` skip white space and read a signed
digit run; `%[^\n]` reads a non-empty run of bytes other than newline. -/
def sscanf_loop : List directive → List Nat → List scanned
  | [], _ => []
  | directive.white :: ds, input => sscanf_loop ds (skip_space input)
  | directive.literal c :: ds, input =>
    match input with
    | [] => []
    | x :: xs => if x = c then sscanf_loop ds xs else []
  | directive.conv_zu :: ds, input =>
    match scan_number (skip_space input) with
    | none => []
    | some (neg, dg, rest) => scanned.size (strtoul_value neg dg) :: sscanf_loop ds rest
  | directive.conv_d :: ds, input =>
    match scan_number (skip_space input) with
    | none => []
    | some (neg, dg, rest) => scanned.int (to_int (strtol_value neg dg)) :: sscanf_loop ds rest
  | directive.conv_not_newline :: ds, input =>
    if input.takeWhile (fun c => decide (c ≠ 10)) = [] then []
    else scanned.text (input.takeWhile (fun c => decide (c ≠ 10))) ::
      sscanf_loop ds (input.drop (input.takeWhile (fun c => decide (c ≠ 10))).length)

/-- The call `sscanf(str, format, ...)`: the list of the values stored, whose
length is the return value when at least one conversion was made. -/
def sscanf (str : List Nat) (format : String) : List scanned :=
  sscanf_loop (scan_format (bytes format)) str

/-- The call `snprintf(buf, size, ...)` on the fully formatted text: the
buffer keeps its first `size - 1` bytes. -/
def snprintf (size : Nat) (text : List Nat) : List Nat := text.take (size - 1)

/-- The output of `%d` for an `int`. -/
def format_int (n : Int) : List Nat :=
  if n < 0 then 45 :: format_decimal (-n).toNat else format_decimal n.toNat

/-- Offset of the first occurrence of `needle` in `hay` (`strstr`), `none`
for `NULL`. -/
def strstr : List Nat → List Nat → Option Nat
  | [], needle => if needle = [] then some 0 else none
  | c :: cs, needle =>
    if needle.isPrefixOf (c :: cs) = true then some 0
    else (strstr cs needle).map (fun i => i + 1)

/-- Offset of the first occurrence of the byte `c` in `s` (`strchr`), `none`
for `NULL`. -/
def strchr : List Nat → Nat → Option Nat
  | [], _ => none
  | x :: xs, c => if x = c then some 0 else (strchr xs c).map (fun i => i + 1)

/-! ## `helper.c`: parsing and dispatch of a command line -/

def MAX_COMMAND_SIZE : Nat := 256
def LINE_LEN : Nat := 256
/-- Fallback error code for unrecognised command (`helper.h`). -/
def UNKNOWN_COMMAND : Int := -5

/-- The stored values when `sscanf` returned 1 with a `size_t`. -/
def stored_size (l : List scanned) : Option Nat :=
  match l with
  | [scanned.size a] => some a
  | _ => none

/-- The stored values when `sscanf` returned 2 with two `size_t`. -/
def stored_size_size (l : List scanned) : Option (Nat × Nat) :=
  match l with
  | [scanned.size a, scanned.size b] => some (a, b)
  | _ => none

/-- The stored values when `sscanf` returned 2 with a `size_t` and a
string. -/
def stored_size_text (l : List scanned) : Option (Nat × List Nat) :=
  match l with
  | [scanned.size a, scanned.text t] => some (a, t)
  | _ => none

/-- The stored values when `sscanf` returned 2 with an `int` and a
`size_t`. -/
def stored_int_size (l : List scanned) : Option (Int × Nat) :=
  match l with
  | [scanned.int a, scanned.size b] => some (a, b)
  | _ => none

/-- The stored values when `sscanf` returned 3 with two `size_t` and a
string. -/
def stored_size_size_text (l : List scanned) : Option (Nat × Nat × List Nat) :=
  match l with
  | [scanned.size a, scanned.size b, scanned.text t] => some (a, b, t)
  | _ => none

/-- The chain of `sscanf` tests of `process_command`, in its order: the
primitive the matching branch calls with the values stored, `none` when no
branch matches. -/
def parse_command (command_str : List Nat) : Option primitive :=
  match stored_size_text (sscanf command_str "INSERT %zu %[^\n]") with
  | some (pos, arg) => some (primitive.insert pos arg)
  | none =>
  match stored_size_size (sscanf command_str "DEL %zu %zu") with
  | some (pos, len) => some (primitive.delete pos len)
  | none =>
  match stored_size (sscanf command_str "NEWLINE %zu") with
  | some pos => some (primitive.newline pos)
  | none =>
  match stored_int_size (sscanf command_str "HEADING %d %zu") with
  | some (level, pos) => some (primitive.heading level pos)
  | none =>
  match stored_size_size (sscanf command_str "BOLD %zu %zu") with
  | some (start, stop) => some (primitive.bold start stop)
  | none =>
  match stored_size_size (sscanf command_str "ITALIC %zu %zu") with
  | some (start, stop) => some (primitive.italic start stop)
  | none =>
  match stored_size (sscanf command_str "BLOCKQUOTE %zu") with
  | some pos => some (primitive.blockquote pos)
  | none =>
  match stored_size (sscanf command_str "ORDERED_LIST %zu") with
  | some pos => some (primitive.ordered_list pos)
  | none =>
  match stored_size (sscanf command_str "UNORDERED_LIST %zu") with
  | some pos => some (primitive.unordered_list pos)
  | none =>
  match stored_size_size (sscanf command_str "CODE %zu %zu") with
  | some (start, stop) => some (primitive.code start stop)
  | none =>
  match stored_size (sscanf command_str "HORIZONTAL_RULE %zu") with
  | some pos => some (primitive.horizontal_rule pos)
  | none =>
  match stored_size_size_text (sscanf command_str "LINK %zu %zu %[^\n]") with
  | some (start, stop, url) => some (primitive.link start stop url)
  | none => none

/-- Helper function used by server and client to parse and process
commands. -/
def process_command (doc : document) (command_str : List Nat) (client_version : Nat) :
    Int × document :=
  match parse_command command_str with
  | some p => call doc client_version p
  | none => (UNKNOWN_COMMAND, doc)

/-! ## Command queue (`command_queue.c`) -/

/-- The C `struct timespec`: seconds and nanoseconds, both signed. -/
structure timespec where
  tv_sec : Int
  tv_nsec : Int
  deriving DecidableEq, Repr

/-- The data fields of one node of the command queue; the queue is the list
of its nodes from `*head` on. -/
structure queued_command where
  username : List Nat
  role : List Nat
  command_str : List Nat
  client_version : Nat
  timestamp : timespec
  deriving DecidableEq, Repr

/-- Helper function to compare two command timestamps. -/
def compare_timestamps (a b : timespec) : Int :=
  if a.tv_sec < b.tv_sec then -1
  else if a.tv_sec > b.tv_sec then 1
  else if a.tv_nsec < b.tv_nsec then -1
  else if a.tv_nsec > b.tv_nsec then 1
  else 0

/-- The inner loop `for (j = i->next; j; j = j->next)` of
`sort_command_queue`: the first argument is the data node `i` holds, the
second the data of the nodes behind it.  When node `i` compares greater than
node `j` all data fields are swapped, so node `i` goes on with the data of
`j`.  Returns the data of node `i` and of the nodes behind it after the
loop. -/
def sort_inner (i : queued_command) :
    List queued_command → queued_command × List queued_command
  | [] => (i, [])
  | j :: rest =>
    if compare_timestamps i.timestamp j.timestamp > 0 then
      ((sort_inner j rest).1, i :: (sort_inner j rest).2)
    else ((sort_inner i rest).1, j :: (sort_inner i rest).2)

/-- The outer loop `for (i = *head; i; i = i->next)`; it runs once per node,
so a fuel equal to the number of nodes is never used up. -/
def sort_outer : Nat → List queued_command → List queued_command
  | 0, queue => queue
  | _ + 1, [] => []
  | fuel + 1, i :: rest => (sort_inner i rest).1 :: sort_outer fuel (sort_inner i rest).2

/-- Sort the queue by timestamp; a queue of fewer than two nodes is left
as it is. -/
def sort_command_queue (head : List queued_command) : List queued_command :=
  if head.length < 2 then head else sort_outer head.length head

/-- A queued command of user `"u"` with role `"write"`, the given command
text, client version 0 and the given timestamp. -/
def queued (command_str : String) (sec nsec : Int) : queued_command :=
  { username := bytes "u", role := bytes "write", command_str := bytes command_str,
    client_version := 0, timestamp := ⟨sec, nsec⟩ }

/-! ## Documents and runs used in the ordered-list evaluations -/

/-- The document holding `text` in one chunk, version 0, nothing pending:
the empty document after `apply_insert(doc, 0, text)` for a text of 1 to 255
bytes. -/
def text_doc (text : String) : document :=
  { version := 0, length := (bytes text).length, chunks := [⟨bytes text⟩], pending := [] }

/-- One round of the run "ORDERED_LIST at the end of the document, then
commit": the command is dispatched with the document's own version at
`pos = doc.length`, and `markdown_increment_version` follows. -/
def ordered_list_round (doc : document) : Option (Int × document) :=
  (markdown_increment_version (markdown_ordered_list doc doc.version doc.length).2).map
    (fun d => ((markdown_ordered_list doc doc.version doc.length).1, d))

/-- The given number of rounds one after the other: the result codes in
order and the final document. -/
def ordered_list_rounds : Nat → document → Option (List Int × document)
  | 0, doc => some ([], doc)
  | n + 1, doc =>
    match ordered_list_round doc with
    | none => none
    | some (r, d) => (ordered_list_rounds n d).map (fun x => (r :: x.1, x.2))

/-- Ascending order of `(timestamp.sec, timestamp.nsec)`: the first command
is not later than the second. -/
def spec_not_later (a b : queued_command) : Prop :=
  a.timestamp.tv_sec < b.timestamp.tv_sec ∨
    (a.timestamp.tv_sec = b.timestamp.tv_sec ∧ a.timestamp.tv_nsec ≤ b.timestamp.tv_nsec)

/-! ## `server.c`: one tick of the broadcast thread -/

/-- The branch of the result chain of `broadcast_thread` taken for one queued
command: which of the five `snprintf` calls wrote `log_line`, or none of
them. -/
inductive log_branch where
  | unauthorised
  | success
  | invalid_position
  | deleted_position
  | outdated_version
  | unwritten
  deriving DecidableEq, Repr

/-- The call `snprintf(log_line, sizeof(log_line), "EDIT %s %s <suffix>",
username, command)` into the buffer `char log_line[LINE_LEN]`. -/
def format_log_line (username command : List Nat) (suffix : String) : List Nat :=
  snprintf LINE_LEN (bytes "EDIT " ++ username ++ [32] ++ command ++ [32] ++ bytes suffix)

/-- The content of `log_line` after the result chain; `none` when no branch
wrote the buffer, which is declared without an initialiser. -/
def log_line (username command : List Nat) : log_branch → Option (List Nat)
  | log_branch.unauthorised => some (format_log_line username command "Reject UNAUTHORISED")
  | log_branch.success => some (format_log_line username command "SUCCESS")
  | log_branch.invalid_position =>
    some (format_log_line username command "Reject INVALID_POSITION")
  | log_branch.deleted_position =>
    some (format_log_line username command "Reject DELETED_POSITION")
  | log_branch.outdated_version =>
    some (format_log_line username command "Reject OUTDATED_VERSION")
  | log_branch.unwritten => none

/-- A log entry of the tick: the line `strdup(log_line)` stores, together
with the queued command it was built for and the branch taken (the last two
are kept for stating properties, the C entry holds the line only). -/
structure log_entry where
  command : queued_command
  branch : log_branch
  line : Option (List Nat)
  deriving DecidableEq, Repr

/-- The body of the loop `while (cmd_queue)` up to the log entry: a command
of role `"read"` is not dispatched; otherwise `process_command` runs and a
`SUCCESS` is committed at once. -/
def process_queued (doc : document) (cmd : queued_command) : Option (log_branch × document) :=
  if cmd.role = bytes "read" then some (log_branch.unauthorised, doc)
  else if (process_command doc cmd.command_str cmd.client_version).1 = SUCCESS then
    (markdown_increment_version (process_command doc cmd.command_str cmd.client_version).2).map
      (fun d => (log_branch.success, d))
  else if (process_command doc cmd.command_str cmd.client_version).1 = INVALID_CURSOR_POS then
    some (log_branch.invalid_position,
      (process_command doc cmd.command_str cmd.client_version).2)
  else if (process_command doc cmd.command_str cmd.client_version).1 = DELETED_POSITION then
    some (log_branch.deleted_position,
      (process_command doc cmd.command_str cmd.client_version).2)
  else if (process_command doc cmd.command_str cmd.client_version).1 = OUTDATED_VERSION then
    some (log_branch.outdated_version,
      (process_command doc cmd.command_str cmd.client_version).2)
  else some (log_branch.unwritten, (process_command doc cmd.command_str cmd.client_version).2)

/-- The loop `while (cmd_queue)`: the log entries in queue order and the
document after the last command. -/
def process_queue : List queued_command → document → Option (List log_entry × document)
  | [], doc => some ([], doc)
  | cmd :: next, doc =>
    match process_queued doc cmd with
    | none => none
    | some (b, doc1) =>
      match process_queue next doc1 with
      | none => none
      | some (entries, doc2) =>
        some (⟨cmd, b, log_line cmd.username cmd.command_str b⟩ :: entries, doc2)

/-- One tick of `broadcast_thread` on the document: the queue is sorted and
processed. -/
def broadcast_tick (doc : document) (cmd_queue : List queued_command) :
    Option (List log_entry × document) :=
  process_queue (sort_command_queue cmd_queue) doc

/-- The lines of the entries when every one of them was written. -/
def written_lines : List log_entry → Option (List (List Nat))
  | [] => some []
  | e :: es =>
    match e.line, written_lines es with
    | some l, some ls => some (l :: ls)
    | _, _ => none

/-- The block sent to every client: `"VERSION %d\n"` with
`int broadcast_version = doc->version`, every entry's line with `'\n'`, then
`"END\n"`. -/
def broadcast_block (doc : document) (lines : List (List Nat)) : List (List Nat) :=
  (bytes "VERSION " ++ format_int (to_int doc.version) ++ [10])
    :: (lines.map (fun l => l ++ [10]) ++ [bytes "END\n"])

/-! ## `client.c`: ingestion of broadcast blocks -/

/-- The body of the inner loop of `apply_broadcasts` behind the `END` test,
on one line as `fgets` returns it: when `"SUCCESS"` occurs in the line, the
text behind the second space, cut at its first `" SUCCESS"`, is dispatched
with the local version. -/
def apply_edit_line (doc : document) (edit_line : List Nat) : document :=
  if strstr edit_line (bytes "SUCCESS") = none then doc
  else
    match strchr edit_line 32 with
    | none => doc
    | some i =>
      match strchr (edit_line.drop (i + 1)) 32 with
      | none => doc
      | some j =>
        (process_command doc
          (match strstr (edit_line.drop (i + 1 + j + 1)) (bytes " SUCCESS") with
            | some e => (edit_line.drop (i + 1 + j + 1)).take e
            | none => edit_line.drop (i + 1 + j + 1))
          doc.version).2

/-- The inner loop `while (fgets(edit_line, ...))` over the lines that are
left: returns the document at the `END` line (or at the end of the input) and
the lines behind it. -/
def apply_edit_lines : List (List Nat) → document → document × List (List Nat)
  | [], doc => (doc, [])
  | edit_line :: rest, doc =>
    if edit_line.take 3 = bytes "END" then (doc, rest)
    else apply_edit_lines rest (apply_edit_line doc edit_line)

/-- The loop `while (fgets(resp, ...))` of `apply_broadcasts` on the lines
available; the local log is left out.  Every iteration consumes a line, so a
fuel equal to the number of lines is never used up; `none` only when the
commit does not return. -/
def apply_broadcasts_loop : Nat → List (List Nat) → document → Option document
  | 0, _, doc => some doc
  | _ + 1, [], doc => some doc
  | fuel + 1, resp :: rest, doc =>
    if resp.take 7 = bytes "VERSION" then
      match markdown_increment_version (apply_edit_lines rest doc).1 with
      | none => none
      | some doc1 =>
        apply_broadcasts_loop fuel (apply_edit_lines rest doc).2
          { doc1 with version := strtoull (resp.drop 8) }
    else apply_broadcasts_loop fuel rest doc

/-- Checks the server-to-client FIFO for any pending broadcasts and applies
them to the local document. -/
def apply_broadcasts (lines : List (List Nat)) (doc : document) : Option document :=
  apply_broadcasts_loop lines.length lines doc

/-- The initialisation of the local document in `main` of the client:
`doc = markdown_init(); markdown_insert(doc, 0, 0, document);
doc->version = doc_version;`. -/
def client_init (content : List Nat) (doc_version : Nat) : document :=
  { (markdown_insert markdown_init 0 0 content).2 with version := doc_version }

/-! ## Queues, documents and lines used in the evaluations of the protocol -/

/-- A queued command given by its fields. -/
def queued_by (username role command_str : String) (client_version : Nat) (sec nsec : Int) :
    queued_command :=
  { username := bytes username, role := bytes role, command_str := bytes command_str,
    client_version := client_version, timestamp := ⟨sec, nsec⟩ }

/-- The queue of one tick: `INSERT 0 AB` of alice, then `INSERT 0 CD` of bob,
both enqueued at document version 0. -/
def alice_bob_queue : List queued_command :=
  [queued_by "alice" "write" "INSERT 0 AB" 0 1 0, queued_by "bob" "write" "INSERT 0 CD" 0 1 5]

/-- The server document after the two ticks `INSERT 0 a...a` (200 bytes) and
`INSERT 200 b...b` (100 bytes): the second insert is at the end of the
document and gets a chunk of its own. -/
def server_doc_300 : document :=
  { version := 2, length := 300,
    chunks := [⟨List.replicate 200 97⟩, ⟨List.replicate 100 98⟩], pending := [] }

/-- The replica of a client that joined at version 2: the same 300 bytes,
loaded as a single insert, fill the first chunk. -/
def client_doc_300 : document :=
  { version := 2, length := 300,
    chunks := [⟨List.replicate 200 97 ++ List.replicate 56 98⟩, ⟨List.replicate 44 98⟩],
    pending := [] }

/-- A command line of 249 bytes: `INSERT 0 ` and 240 bytes `'x'`. -/
def long_insert_command : List Nat := bytes "INSERT 0 " ++ List.replicate 240 120

/-! ## Specification side of the snap, server states, documents with two
pending edits -/

/-- The snap of an endpoint `x` against the deleted range `[a, b)` in the
words of the spec: an endpoint strictly inside the range is replaced by the
closer edge, by `a` on a tie; every other endpoint stays. -/
def spec_snap (a b x : Nat) : Nat :=
  if a < x ∧ x < b then (if x - a ≤ b - x then a else b) else x

/-- The document `"ab"` after `markdown_insert(doc, 0, 1, "X")` and then
`markdown_insert(doc, 0, 1, "Y")`. -/
def two_inserts_doc : document :=
  { text_doc "ab" with
    pending := [⟨edit_type.EDIT_INSERT, 1, bytes "X", 0⟩, ⟨edit_type.EDIT_INSERT, 1, bytes "Y", 0⟩] }

/-- The document `"abcdef"` after `markdown_delete(doc, 0, 0, 2)` and then
`markdown_delete(doc, 0, 3, 1)`. -/
def two_deletes_doc : document :=
  { text_doc "abcdef" with
    pending := [⟨edit_type.EDIT_DELETE, 0, [], 2⟩, ⟨edit_type.EDIT_DELETE, 3, [], 1⟩] }

/-- The queue of one tick: `INSERT 0 AB` of alice, then the 249-byte insert
of bob, both enqueued at document version 0. -/
def alice_long_bob_queue : List queued_command :=
  [queued_by "alice" "write" "INSERT 0 AB" 0 1 0,
    ⟨bytes "bob", bytes "write", long_insert_command, 0, ⟨1, 5⟩⟩]

/-- The queue of one tick: `INSERT 0 AB` of alice, then `FOO` of bob, both
enqueued at document version 0. -/
def alice_foo_queue : List queued_command :=
  [queued_by "alice" "write" "INSERT 0 AB" 0 1 0, queued_by "bob" "write" "FOO" 0 1 5]

/-- The server document after the commit of alice's `INSERT 0 AB` on the empty
document: `"AB"` at version 1. -/
def alice_committed_doc : document :=
  { version := 1, length := 2, chunks := [⟨bytes "AB"⟩], pending := [] }

/-! # Theorems -/

/-! ## Basic facts about chunk lists -/

theorem flatten_chunks_append (a b : List chunk) :
    flatten_chunks (a ++ b) = flatten_chunks a ++ flatten_chunks b := by
  induction a with
  | nil => simp [flatten_chunks]
  | cons c cs ih => simp [flatten_chunks, ih]

theorem chunks_length_eq (cs : List chunk) :
    chunks_length cs = (flatten_chunks cs).length := by
  induction cs with
  | nil => simp [chunks_length, flatten_chunks]
  | cons c cs ih => simp [chunks_length, flatten_chunks, ih, chunk.length]

theorem chunks_length_append (a b : List chunk) :
    chunks_length (a ++ b) = chunks_length a + chunks_length b := by
  simp [chunks_length_eq, flatten_chunks_append]

/-- What `find_chunk` returns: a split of the list at the first chunk whose
cumulative range reaches beyond `pos`. -/
theorem find_chunk_loop_spec (pos : Nat) :
    ∀ (cur before : List chunk) (i : Nat), i = chunks_length before → i ≤ pos →
      ∀ b r off, find_chunk_loop pos before cur i = (b, r, off) →
        b ++ r = before ++ cur ∧
        (r = [] → off = 0 ∧ chunks_length (before ++ cur) ≤ pos) ∧
        (∀ c r1, r = c :: r1 → chunks_length b + off = pos ∧ off < c.length) := by
  intro cur
  induction cur with
  | nil =>
    intro before i hi hle b r off h
    simp [find_chunk_loop] at h
    obtain ⟨rfl, rfl, rfl⟩ := h
    simp
    omega
  | cons c next ih =>
    intro before i hi hle b r off h
    unfold find_chunk_loop at h
    split at h
    · rename_i hc
      have := ih (before ++ [c]) (i + c.length)
        (by simp [chunks_length_append, chunks_length, hi]) hc b r off h
      simpa using this
    · rename_i hc
      simp at h
      obtain ⟨rfl, rfl, rfl⟩ := h
      refine ⟨rfl, by simp, ?_⟩
      intro c1 r1 h1
      simp at h1
      obtain ⟨rfl, rfl⟩ := h1
      omega

/-- Cutting `n` bytes at `off` out of `c ++ x`, chunk by chunk. -/
theorem cut_across (c x : List Nat) (off n : Nat) (h : off ≤ c.length) :
    c.take off ++ c.drop (off + min n (c.length - off)) ++ x.drop (n - min n (c.length - off))
      = (c ++ x).take off ++ (c ++ x).drop (off + n) := by
  rw [List.take_append_of_le_length h]
  by_cases hn : n ≤ c.length - off
  · rw [Nat.min_eq_left hn]
    have h2 : off + n ≤ c.length := by omega
    rw [List.drop_append_of_le_length h2]
    simp
  · have hn1 : c.length - off ≤ n := by omega
    rw [Nat.min_eq_right hn1]
    have e1 : off + (c.length - off) = c.length := by omega
    rw [e1, List.drop_length, List.drop_append_eq_append_drop]
    have e2 : c.drop (off + n) = [] := List.drop_eq_nil_of_le (by omega)
    have e3 : off + n - c.length = n - (c.length - off) := by omega
    simp [e2, e3]

theorem apply_delete_loop_spec :
    ∀ (cur before : List chunk) (offset n len : Nat),
      (∀ c next, cur = c :: next → offset ≤ c.length) →
      flatten_chunks (apply_delete_loop before cur offset n len).1
          = flatten_chunks before ++ (flatten_chunks cur).take offset
              ++ (flatten_chunks cur).drop (offset + n) ∧
      (apply_delete_loop before cur offset n len).2
          = len - min n ((flatten_chunks cur).length - offset) ∧
      (chunks_wf (before ++ cur) → chunks_wf (apply_delete_loop before cur offset n len).1) := by
  intro cur
  induction cur with
  | nil =>
    intro before offset n len _
    simp [apply_delete_loop, flatten_chunks]
  | cons c next ih =>
    intro before offset n len hoff
    have ho : offset ≤ c.data.length := hoff c next rfl
    unfold apply_delete_loop
    by_cases hn : n > 0
    · simp only [hn, if_true]
      have hcan : (if c.length - offset > n then n else c.length - offset)
          = min n (c.data.length - offset) := by
        simp only [chunk.length]
        split <;> omega
      rw [hcan]
      have key := cut_across c.data (flatten_chunks next) offset n ho
      have wfc : chunks_wf (before ++ c :: next) →
          chunks_wf (before ++ [(⟨c.data.take offset ++
            c.data.drop (offset + min n (c.data.length - offset))⟩ : chunk)] ++ next) := by
        intro hw d hd
        simp only [List.mem_append, List.mem_singleton] at hd
        rcases hd with (hd | rfl) | hd
        · exact hw d (by simp [hd])
        · have := hw c (by simp)
          simp only [chunk.length, List.length_append, List.length_take, List.length_drop] at this ⊢
          omega
        · exact hw d (by simp [hd])
      have wfc2 : chunks_wf (before ++ c :: next) → chunks_wf (before ++ next) := by
        intro hw d hd
        simp only [List.mem_append] at hd
        rcases hd with hd | hd
        · exact hw d (by simp [hd])
        · exact hw d (by simp [hd])
      split
      · rename_i hz
        obtain ⟨h1, h2, h3⟩ := ih before 0 (n - min n (c.data.length - offset))
          (len - min n (c.data.length - offset)) (by intros; omega)
        simp only [chunk.length, List.length_eq_zero] at hz
        refine ⟨?_, ?_, fun hw => h3 (wfc2 hw)⟩
        · rw [h1]
          simp only [flatten_chunks, List.take_zero, List.append_nil, Nat.zero_add]
          rw [List.append_assoc, ← key, hz]
          simp
        · rw [h2]
          simp only [flatten_chunks, List.length_append]
          omega
      · obtain ⟨h1, h2, h3⟩ := ih (before ++ [(⟨c.data.take offset ++
            c.data.drop (offset + min n (c.data.length - offset))⟩ : chunk)]) 0
          (n - min n (c.data.length - offset))
          (len - min n (c.data.length - offset)) (by intros; omega)
        refine ⟨?_, ?_, fun hw => h3 (wfc hw)⟩
        · rw [h1]
          simp only [flatten_chunks, flatten_chunks_append, List.take_zero, List.append_nil,
            Nat.zero_add]
          rw [List.append_assoc (flatten_chunks before) (List.take _ _), ← key]
          simp
        · rw [h2]
          simp only [flatten_chunks, List.length_append]
          omega
    · have hz : n = 0 := by omega
      subst hz
      simp [flatten_chunks_append]

theorem apply_delete_spec (doc : document) (pos len : Nat) :
    markdown_flatten (apply_delete doc pos len)
        = (markdown_flatten doc).take pos ++ (markdown_flatten doc).drop (pos + len) ∧
    (apply_delete doc pos len).length
        = doc.length - min len ((markdown_flatten doc).length - pos) ∧
    (chunks_wf doc.chunks → chunks_wf (apply_delete doc pos len).chunks) ∧
    (apply_delete doc pos len).pending = doc.pending ∧
    (apply_delete doc pos len).version = doc.version := by
  unfold apply_delete find_chunk markdown_flatten
  rcases hfc : find_chunk_loop pos [] doc.chunks 0 with ⟨b, r, off⟩
  obtain ⟨hsplit, hnil, hcons⟩ :=
    find_chunk_loop_spec pos doc.chunks [] 0 (by simp [chunks_length]) (Nat.zero_le _) b r off hfc
  simp only [List.nil_append] at hsplit hnil
  have hoff : ∀ c next, r = c :: next → off ≤ c.length := fun c next h =>
    Nat.le_of_lt (hcons c next h).2
  obtain ⟨h1, h2, h3⟩ := apply_delete_loop_spec r b off len doc.length hoff
  simp only []
  rw [← hsplit, flatten_chunks_append]
  refine ⟨?_, ?_, h3, trivial, trivial⟩
  · rw [h1]
    cases r with
    | nil =>
      obtain ⟨rfl, hle⟩ := hnil rfl
      simp only [List.append_nil] at hsplit
      rw [← hsplit, chunks_length_eq] at hle
      have hle2 : (flatten_chunks b).length ≤ pos + len := by omega
      simp [flatten_chunks, List.take_of_length_le hle, List.drop_eq_nil_of_le hle2]
    | cons c r1 =>
      obtain ⟨hp, _⟩ := hcons c r1 rfl
      rw [chunks_length_eq] at hp
      have e1 : pos = (flatten_chunks b).length + off := hp.symm
      rw [e1, List.take_append, Nat.add_assoc, List.drop_append, List.append_assoc]
  · rw [h2]
    cases r with
    | nil =>
      obtain ⟨rfl, hle⟩ := hnil rfl
      simp only [List.append_nil] at hsplit
      rw [← hsplit, chunks_length_eq] at hle
      simp [flatten_chunks]
      omega
    | cons c r1 =>
      obtain ⟨hp, _⟩ := hcons c r1 rfl
      rw [chunks_length_eq] at hp
      simp only [List.length_append]
      congr 2
      omega

theorem apply_insert_loop_nil (fuel : Nat) (before cur : List chunk) (offset len : Nat) :
    apply_insert_loop fuel before cur offset [] len = some (before ++ cur, len) := by
  cases fuel <;> simp [apply_insert_loop]

/-- One iteration suffices when the text fits in the free space of the
chunk the cursor is in: the text lands at `offset` of that chunk. -/
theorem apply_insert_loop_fits (fuel : Nat) (before : List chunk) (c : chunk)
    (next : List chunk) (offset : Nat) (text : List Nat) (len : Nat)
    (hfit : text.length ≤ CHUNK_SIZE - c.length) :
    ∃ cs, apply_insert_loop (fuel + 1) before (c :: next) offset text len
        = some (cs, len + text.length) ∧
      flatten_chunks cs = flatten_chunks before ++ c.data.take offset ++ text
        ++ c.data.drop offset ++ flatten_chunks next ∧
      (chunks_wf (before ++ c :: next) → chunks_wf cs) := by
  cases text with
  | nil =>
    refine ⟨before ++ c :: next, by simp [apply_insert_loop], ?_, fun h => h⟩
    simp [flatten_chunks_append, flatten_chunks]
  | cons t ts =>
    have hcopy : (if (t :: ts).length < CHUNK_SIZE - c.length then (t :: ts).length
        else CHUNK_SIZE - c.length) = (t :: ts).length := by
      split
      · rfl
      · omega
    unfold apply_insert_loop
    simp only [hcopy, List.take_length, List.drop_length, List.tail_cons,
      apply_insert_loop_nil]
    have hlen : c.length ≤ CHUNK_SIZE →
        (c.data.take offset ++ (t :: ts) ++ c.data.drop offset).length ≤ CHUNK_SIZE := by
      intro hc
      simp only [List.length_append, List.length_take, List.length_drop, chunk.length] at hfit hc ⊢
      omega
    have wf1 : ∀ (tl : List chunk), (∀ d ∈ tl, d ∈ next ∨ d.length ≤ CHUNK_SIZE) →
        chunks_wf (before ++ c :: next) →
        chunks_wf (before ++ (⟨c.data.take offset ++ (t :: ts) ++ c.data.drop offset⟩ : chunk)
          :: tl) := by
      intro tl htl hw d hd
      simp only [List.mem_append, List.mem_cons] at hd
      rcases hd with hd | rfl | hd
      · exact hw d (by simp [hd])
      · exact hlen (hw c (by simp))
      · rcases htl d hd with h | h
        · exact hw d (by simp [h])
        · exact h
    split
    · cases next with
      | nil =>
        refine ⟨_, rfl, ?_, ?_⟩
        · simp [flatten_chunks_append, flatten_chunks]
        · intro hw
          simpa using wf1 [⟨[]⟩] (by intro d hd; right; simp at hd; subst hd; simp [chunk.length]) hw
      | cons n ns =>
        refine ⟨_, rfl, ?_, ?_⟩
        · simp [flatten_chunks_append, flatten_chunks]
        · intro hw
          simpa using wf1 (n :: ns) (by intro d hd; left; exact hd) hw
    · refine ⟨_, rfl, ?_, ?_⟩
      · simp [flatten_chunks_append, flatten_chunks]
      · intro hw
        exact wf1 next (by intro d hd; left; exact hd) hw

theorem chunks_wf_append {a b : List chunk} :
    chunks_wf (a ++ b) ↔ chunks_wf a ∧ chunks_wf b := by
  simp only [chunks_wf, List.mem_append]
  constructor
  · intro h
    exact ⟨fun c hc => h c (Or.inl hc), fun c hc => h c (Or.inr hc)⟩
  · rintro ⟨h1, h2⟩ c (hc | hc)
    · exact h1 c hc
    · exact h2 c hc

theorem chunks_wf_cons {c : chunk} {b : List chunk} :
    chunks_wf (c :: b) ↔ c.length ≤ CHUNK_SIZE ∧ chunks_wf b := by
  simp [chunks_wf]

theorem chunks_wf_nil : chunks_wf [] := by
  simp [chunks_wf]

theorem apply_insert_loop_null (fuel : Nat) (before : List chunk) (offset t : Nat)
    (ts : List Nat) (len : Nat) :
    apply_insert_loop (fuel + 1) before [] offset (t :: ts) len
      = apply_insert_loop (fuel + 1) before [⟨[]⟩] 0 (t :: ts) len := by
  simp [apply_insert_loop]

/-- On chunks within capacity the insert loop ends within the fuel
`insert_measure` and accounts for every byte of the text. -/
theorem apply_insert_loop_total :
    ∀ (fuel : Nat) (before cur : List chunk) (offset : Nat) (text : List Nat) (len : Nat),
      chunks_wf (before ++ cur) →
      (∀ c next, cur = c :: next → offset ≤ c.length) →
      insert_measure cur text ≤ fuel →
      ∃ cs, apply_insert_loop fuel before cur offset text len = some (cs, len + text.length) ∧
        chunks_wf cs ∧
        chunks_length cs = chunks_length (before ++ cur) + text.length := by
  intro fuel
  induction fuel with
  | zero =>
    intro before cur offset text len hw hoff hm
    cases text with
    | nil => exact ⟨_, by simp [apply_insert_loop], hw, by simp⟩
    | cons t ts =>
      exfalso
      cases cur <;> simp [insert_measure] at hm
  | succ f ih =>
    intro before cur offset text len hw hoff hm
    cases text with
    | nil => exact ⟨_, by simp [apply_insert_loop], hw, by simp⟩
    | cons t ts =>
      have hcons : ∀ (c : chunk) (next : List chunk) (offset : Nat),
          chunks_wf (before ++ c :: next) → offset ≤ c.data.length →
          insert_measure (c :: next) (t :: ts) ≤ f + 1 →
          ∃ cs, apply_insert_loop (f + 1) before (c :: next) offset (t :: ts) len
              = some (cs, len + (t :: ts).length) ∧ chunks_wf cs ∧
            chunks_length cs = chunks_length (before ++ c :: next) + (t :: ts).length := by
        intro c next offset hw hoc hm
        obtain ⟨hwb, hwc⟩ := chunks_wf_append.mp hw
        obtain ⟨hcw, hwn⟩ := chunks_wf_cons.mp hwc
        simp only [chunk.length] at hcw
        unfold apply_insert_loop
        simp only [List.tail_cons, chunk.length, List.length_append, List.length_take,
          List.length_drop]
        generalize hk : (if (t :: ts).length < CHUNK_SIZE - c.data.length then (t :: ts).length
          else CHUNK_SIZE - c.data.length) = k
        have hk1 : k ≤ (t :: ts).length := by rw [← hk]; split <;> omega
        have hk2 : k ≤ CHUNK_SIZE - c.data.length := by rw [← hk]; split <;> omega
        have hk3 : k = (t :: ts).length ∨ k = CHUNK_SIZE - c.data.length := by
          rw [← hk]; split
          · left; rfl
          · right; rfl
        split
        · rename_i hfull
          have hnext1 : ∀ nx : List chunk, chunks_wf nx →
              (nx.length + (match nx with
                | [] => 2
                | d :: _ => if d.length = CHUNK_SIZE then 1 else 0) ≤ next.length + 1) →
              chunks_length nx = chunks_length next →
              ∃ cs, apply_insert_loop f (before ++ [⟨c.data.take offset ++ (t :: ts).take k ++
                  c.data.drop offset⟩]) nx 0 ((t :: ts).drop k) (len + k)
                  = some (cs, len + (t :: ts).length) ∧ chunks_wf cs ∧
                chunks_length cs = chunks_length (before ++ c :: next) + (t :: ts).length := by
            intro nx hnx hms hcl
            obtain ⟨cs, h1, h2, h3⟩ := ih (before ++ [⟨c.data.take offset ++ (t :: ts).take k ++
                c.data.drop offset⟩]) nx 0 ((t :: ts).drop k) (len + k)
              (by
                rw [chunks_wf_append, chunks_wf_append]
                refine ⟨⟨hwb, ?_⟩, hnx⟩
                rw [chunks_wf_cons]
                refine ⟨?_, chunks_wf_nil⟩
                simp only [chunk.length, List.length_append, List.length_take, List.length_drop]
                omega)
              (by intros; omega)
              (by
                simp only [insert_measure, List.length_drop, List.length_cons,
                  chunk.length] at hm hms ⊢
                have hflag : (if c.data.length = CHUNK_SIZE then 1 else 0) = 1 ∨ 1 ≤ k := by
                  by_cases hcf : c.data.length = CHUNK_SIZE
                  · left; simp [hcf]
                  · right; omega
                rcases hflag with hf | hf
                · rw [hf] at hm; omega
                · omega)
            refine ⟨cs, ?_, h2, ?_⟩
            · rw [h1]
              simp only [List.length_drop]
              congr 2
              omega
            · rw [h3]
              simp only [chunks_length_append, chunks_length, chunk.length, List.length_append,
                List.length_take, List.length_drop, hcl]
              omega
          cases next with
          | nil =>
            exact hnext1 [⟨[]⟩] (by rw [chunks_wf_cons]; exact ⟨by simp [chunk.length], chunks_wf_nil⟩)
              (by simp [chunk.length, CHUNK_SIZE]) (by simp [chunks_length, chunk.length])
          | cons n ns =>
            exact hnext1 (n :: ns) hwn (by simp; split <;> omega) rfl
        · rename_i hfull
          have hkt : k = (t :: ts).length := by
            rcases hk3 with h | h
            · exact h
            · exfalso; apply hfull; omega
          rw [hkt]
          simp only [List.take_length, List.drop_length, apply_insert_loop_nil]
          refine ⟨_, rfl, ?_, ?_⟩
          · rw [chunks_wf_append]
            refine ⟨hwb, ?_⟩
            rw [chunks_wf_cons]
            refine ⟨?_, hwn⟩
            simp only [chunk.length, List.length_append, List.length_take, List.length_drop]
            omega
          · simp only [chunks_length_append, chunks_length, chunk.length, List.length_append,
              List.length_take, List.length_drop]
            omega
      cases cur with
      | nil =>
        rw [apply_insert_loop_null]
        obtain ⟨cs, h1, h2, h3⟩ := hcons ⟨[]⟩ [] 0
          (by
            rw [chunks_wf_append] at hw ⊢
            exact ⟨hw.1, by rw [chunks_wf_cons]; exact ⟨by simp [chunk.length], chunks_wf_nil⟩⟩)
          (by simp)
          (by
            simp only [insert_measure, List.length_cons, List.length_nil, chunk.length] at hm ⊢
            simp [CHUNK_SIZE]
            omega)
        refine ⟨cs, h1, h2, ?_⟩
        rw [h3]
        simp [chunks_length_append, chunks_length, chunk.length]
      | cons c next =>
        exact hcons c next offset hw (hoff c next rfl) hm

/-- Totality: `apply_insert` returns on every document whose chunks are within
capacity, and accounts for every byte of the text. -/
theorem apply_insert_total (doc : document) (pos : Nat) (text : List Nat)
    (hw : chunks_wf doc.chunks) :
    ∃ d, apply_insert doc pos text = some d ∧ chunks_wf d.chunks ∧
      d.length = doc.length + text.length ∧
      chunks_length d.chunks = chunks_length doc.chunks + text.length ∧
      d.pending = doc.pending ∧ d.version = doc.version := by
  unfold apply_insert find_chunk
  rcases hfc : find_chunk_loop pos [] doc.chunks 0 with ⟨b, r, off⟩
  obtain ⟨hsplit, hnil, hcons⟩ :=
    find_chunk_loop_spec pos doc.chunks [] 0 (by simp [chunks_length]) (Nat.zero_le _) b r off hfc
  simp only [List.nil_append] at hsplit hnil
  rw [← hsplit] at hw
  have hlen : doc.chunks.length = b.length + r.length := by rw [← hsplit]; simp
  obtain ⟨hwb, hwr⟩ := chunks_wf_append.mp hw
  have main : ∀ cur1 : List chunk, chunks_wf cur1 →
      (∀ c next, cur1 = c :: next → off ≤ c.length) →
      insert_measure cur1 text ≤ text.length + doc.chunks.length + 2 →
      chunks_length cur1 = chunks_length r →
      ∃ d, (match apply_insert_loop (text.length + doc.chunks.length + 2) b cur1 off text
              doc.length with
            | none => none
            | some (chunks, length) => some { doc with chunks := chunks, length := length })
          = some d ∧ chunks_wf d.chunks ∧
        d.length = doc.length + text.length ∧
        chunks_length d.chunks = chunks_length doc.chunks + text.length ∧
        d.pending = doc.pending ∧ d.version = doc.version := by
    intro cur1 hw1 ho1 hm1 hl1
    obtain ⟨cs, h1, h2, h3⟩ := apply_insert_loop_total _ b cur1 off text doc.length
      (chunks_wf_append.mpr ⟨hwb, hw1⟩) ho1 hm1
    rw [h1]
    refine ⟨_, rfl, h2, rfl, ?_, rfl, rfl⟩
    simp only [h3, ← hsplit, chunks_length_append, hl1]
  cases r with
  | nil =>
    obtain ⟨rfl, _⟩ := hnil rfl
    by_cases hp : pos = doc.length
    · simp only [hp, if_true]
      exact main [⟨[]⟩] (by rw [chunks_wf_cons]; exact ⟨by simp [chunk.length], chunks_wf_nil⟩)
        (by intros; omega) (by simp [insert_measure, chunk.length, CHUNK_SIZE]; omega)
        (by simp [chunks_length, chunk.length])
    · simp only [hp, if_false]
      exact main [] chunks_wf_nil (by intros; omega) (by simp [insert_measure]) rfl
  | cons c r1 =>
    simp only []
    exact main (c :: r1) hwr (fun c' n' h => by
        obtain ⟨_, h2⟩ := hcons c' n' h
        omega)
      (by
        simp only [insert_measure, hlen, List.length_cons]
        split <;> omega)
      rfl

/-- Splice: `apply_insert` puts the text in at `pos` when no chunk can overflow:
the text fits beside every chunk of the list. -/
theorem apply_insert_fits (doc : document) (pos : Nat) (text : List Nat)
    (hlen : doc.length = chunks_length doc.chunks) (hpos : pos ≤ doc.length)
    (hfit : ∀ c ∈ doc.chunks, text.length + c.length ≤ CHUNK_SIZE)
    (hfit0 : text.length ≤ CHUNK_SIZE) :
    ∃ d, apply_insert doc pos text = some d ∧
      markdown_flatten d
        = (markdown_flatten doc).take pos ++ text ++ (markdown_flatten doc).drop pos ∧
      d.length = doc.length + text.length ∧
      d.pending = doc.pending ∧ d.version = doc.version := by
  unfold apply_insert find_chunk markdown_flatten
  rcases hfc : find_chunk_loop pos [] doc.chunks 0 with ⟨b, r, off⟩
  obtain ⟨hsplit, hnil, hcons⟩ :=
    find_chunk_loop_spec pos doc.chunks [] 0 (by simp [chunks_length]) (Nat.zero_le _) b r off hfc
  simp only [List.nil_append] at hsplit hnil
  have hfuel : text.length + doc.chunks.length + 2 = (text.length + doc.chunks.length + 1) + 1 :=
    rfl
  rw [hfuel]
  cases r with
  | nil =>
    obtain ⟨rfl, hle⟩ := hnil rfl
    have hp : pos = doc.length := by omega
    simp only [hp, if_true]
    obtain ⟨cs, h1, h2, _⟩ := apply_insert_loop_fits (text.length + doc.chunks.length + 1) b
      ⟨[]⟩ [] 0 text doc.length (by simpa [chunk.length] using hfit0)
    rw [h1]
    refine ⟨_, rfl, ?_, rfl, rfl, rfl⟩
    simp only [h2]
    simp only [List.append_nil] at hsplit
    rw [hlen, chunks_length_eq, ← hsplit]
    simp [flatten_chunks]
  | cons c r1 =>
    obtain ⟨hp, hoc⟩ := hcons c r1 rfl
    simp only [chunk.length] at hoc
    simp only []
    obtain ⟨cs, h1, h2, _⟩ := apply_insert_loop_fits (text.length + doc.chunks.length + 1) b
      c r1 off text doc.length (by
        have := hfit c (by rw [← hsplit]; simp)
        omega)
    rw [h1]
    refine ⟨_, rfl, ?_, rfl, rfl, rfl⟩
    simp only [h2]
    rw [← hsplit, flatten_chunks_append, flatten_chunks]
    rw [chunks_length_eq] at hp
    rw [← hp, List.take_append, List.drop_append, List.take_append_of_le_length (by omega),
      List.drop_append_of_le_length (by omega)]
    simp

/-! ## Invariants of the buffer operations and of the commit -/

theorem flatten_length (doc : document) :
    (markdown_flatten doc).length = chunks_length doc.chunks := by
  rw [chunks_length_eq]; rfl

theorem apply_delete_keeps (doc : document) (pos len : Nat) :
    (chunks_wf doc.chunks → chunks_wf (apply_delete doc pos len).chunks) ∧
    (doc.length = chunks_length doc.chunks →
      (apply_delete doc pos len).length = chunks_length (apply_delete doc pos len).chunks) ∧
    (apply_delete doc pos len).pending = doc.pending ∧
    (apply_delete doc pos len).version = doc.version := by
  obtain ⟨h1, h2, h3, h4, h5⟩ := apply_delete_spec doc pos len
  refine ⟨h3, ?_, h4, h5⟩
  intro hinv
  rw [← flatten_length, h1, h2, flatten_length, ← hinv]
  simp only [List.length_append, List.length_take, List.length_drop, flatten_length, ← hinv]
  omega

theorem apply_deletes_keeps :
    ∀ (ds : List edit) (doc : document),
      (chunks_wf doc.chunks → chunks_wf (apply_deletes ds doc).chunks) ∧
      (doc.length = chunks_length doc.chunks →
        (apply_deletes ds doc).length = chunks_length (apply_deletes ds doc).chunks) ∧
      (apply_deletes ds doc).pending = doc.pending ∧
      (apply_deletes ds doc).version = doc.version := by
  intro ds
  induction ds with
  | nil => intro doc; simp [apply_deletes]
  | cons d next ih =>
    intro doc
    obtain ⟨a1, a2, a3, a4⟩ := apply_delete_keeps doc d.pos d.del_len
    obtain ⟨b1, b2, b3, b4⟩ := ih (apply_delete doc d.pos d.del_len)
    simp only [apply_deletes]
    exact ⟨fun h => b1 (a1 h), fun h => b2 (a2 h), b3.trans a3, b4.trans a4⟩

theorem apply_inserts_total :
    ∀ (es : List edit) (offset : Nat) (doc : document), chunks_wf doc.chunks →
      ∃ d, apply_inserts es offset doc = some d ∧ chunks_wf d.chunks ∧
        (doc.length = chunks_length doc.chunks → d.length = chunks_length d.chunks) ∧
        d.pending = doc.pending ∧ d.version = doc.version := by
  intro es
  induction es with
  | nil => intro offset doc hw; exact ⟨doc, rfl, hw, fun h => h, rfl, rfl⟩
  | cons e next ih =>
    intro offset doc hw
    obtain ⟨d1, a1, a2, a3, a4, a5, a6⟩ := apply_insert_total doc (e.pos + offset) e.text hw
    obtain ⟨d2, b1, b2, b3, b4, b5⟩ := ih (offset + e.text.length) d1 a2
    refine ⟨d2, ?_, b2, ?_, b4.trans a5, b5.trans a6⟩
    · simp only [apply_inserts, a1, b1]
    · intro h
      exact b3 (by rw [a3, a4, h])

/-- The commit returns on every document whose chunks are within capacity. -/
theorem increment_version_total (doc : document) (hw : chunks_wf doc.chunks) :
    ∃ d, markdown_increment_version doc = some d ∧ chunks_wf d.chunks ∧
      (doc.length = chunks_length doc.chunks → d.length = chunks_length d.chunks) ∧
      d.pending = [] ∧ d.version = (doc.version + 1) % SIZE_MOD := by
  unfold markdown_increment_version
  rcases hsp : split_pending doc.pending [] [] with ⟨deletes, inserts⟩
  obtain ⟨a1, a2, a3, a4⟩ := apply_deletes_keeps deletes doc
  obtain ⟨d2, b1, b2, b3, b4, b5⟩ :=
    apply_inserts_total (sort_inserts inserts) 0 (apply_deletes deletes doc) (a1 hw)
  simp only [b1]
  refine ⟨_, rfl, b2, fun h => b3 (a2 h), rfl, ?_⟩
  simp only [b5, a4]

theorem reachable_inv : ∀ d, reachable d → doc_inv d := by
  intro d h
  induction h with
  | init => exact ⟨chunks_wf_nil, rfl⟩
  | insert d d1 pos text _ hap ih =>
    obtain ⟨d2, a1, a2, a3, a4, _, _⟩ := apply_insert_total d pos text ih.1
    rw [hap] at a1
    cases a1
    exact ⟨a2, by rw [a3, a4, ih.2]⟩
  | delete d pos len _ ih =>
    obtain ⟨a1, a2, _, _⟩ := apply_delete_keeps d pos len
    exact ⟨a1 ih.1, a2 ih.2⟩
  | commit d d1 _ hc ih =>
    obtain ⟨d2, a1, a2, a3, _, _⟩ := increment_version_total d ih.1
    rw [hc] at a1
    cases a1
    exact ⟨a2, a3 ih.2⟩
  | enqueue d pending _ ih => exact ih

/-- C1 (evaluation at the failing inputs).  `apply_insert` does not splice
when the chunk containing `pos` is full or the text exceeds its free space.
Inserting `"b"` at position 1 of a document whose first chunk holds 256
bytes `'a'` puts the byte behind the full chunk (flattened: 256 `'a'` then
`'b'`), not at position 1.  Inserting 100 bytes `'b'` at position 50 of a
200-byte chunk yields 50 `'a'`, 56 `'b'`, 150 `'a'`, 44 `'b'`.  Both start
documents are what `apply_insert` itself builds from the empty document. -/
theorem C1_apply_insert_overflow_misplaces :
    apply_insert markdown_init 0 (List.replicate 256 97) = some full_chunk_doc ∧
    (apply_insert full_chunk_doc 1 [98]).map markdown_flatten
      = some (List.replicate 256 97 ++ [98]) ∧
    List.replicate 256 97 ++ [98]
      ≠ (markdown_flatten full_chunk_doc).take 1 ++ [98]
          ++ (markdown_flatten full_chunk_doc).drop 1 ∧
    apply_insert markdown_init 0 (List.replicate 200 97) = some partial_chunk_doc ∧
    (apply_insert partial_chunk_doc 50 (List.replicate 100 98)).map markdown_flatten
      = some (List.replicate 50 97 ++ List.replicate 56 98 ++ List.replicate 150 97
          ++ List.replicate 44 98) ∧
    List.replicate 50 97 ++ List.replicate 56 98 ++ List.replicate 150 97
        ++ List.replicate 44 98
      ≠ (markdown_flatten partial_chunk_doc).take 50 ++ List.replicate 100 98
          ++ (markdown_flatten partial_chunk_doc).drop 50 := by
  refine ⟨by decide, by decide, by decide, by decide, by decide, by decide⟩

/-- C2.  On a document whose `length` is the sum of its chunk lengths,
`apply_delete(doc, pos, len)` with `pos + len <= length` removes exactly the
bytes `[pos, pos + len)` of the flattened text, across chunk boundaries, and
`length` decreases by `len`. -/
theorem C2_apply_delete_removes_slice (doc : document) (pos len : Nat)
    (hinv : doc.length = chunks_length doc.chunks) (h : pos + len ≤ doc.length) :
    markdown_flatten (apply_delete doc pos len)
        = (markdown_flatten doc).take pos ++ (markdown_flatten doc).drop (pos + len) ∧
    (apply_delete doc pos len).length + len = doc.length ∧
    (apply_delete doc pos len).length = chunks_length (apply_delete doc pos len).chunks := by
  obtain ⟨h1, h2, _, _, _⟩ := apply_delete_spec doc pos len
  have hL : (markdown_flatten doc).length = doc.length := by
    rw [hinv, chunks_length_eq]; rfl
  refine ⟨h1, ?_, ?_⟩
  · rw [h2, hL]
    omega
  · have : chunks_length (apply_delete doc pos len).chunks
        = (markdown_flatten (apply_delete doc pos len)).length := by
      rw [chunks_length_eq]; rfl
    rw [this, h1, h2, hL]
    simp only [List.length_append, List.length_take, List.length_drop, hL]
    omega

/-- Witness for C2: deleting `[1, 5)` of `"abc" "de" "f"` spans all three
chunks. -/
theorem C2_apply_delete_removes_slice_witness :
    three_chunk_doc.length = chunks_length three_chunk_doc.chunks ∧
    1 + 4 ≤ three_chunk_doc.length ∧
    markdown_flatten (apply_delete three_chunk_doc 1 4) = [97, 102] ∧
    (apply_delete three_chunk_doc 1 4).length + 4 = three_chunk_doc.length :=
  ⟨by decide, by decide,
    (C2_apply_delete_removes_slice three_chunk_doc 1 4 (by decide) (by decide)).1.trans
      (by decide),
    (C2_apply_delete_removes_slice three_chunk_doc 1 4 (by decide) (by decide)).2.1⟩

/-! ## C3: inserts of one version against the frozen text -/

theorem spec_texts_at_none (edits : List edit) (p : Nat) (h : ∀ e ∈ edits, e.pos ≠ p) :
    spec_texts_at edits p = [] := by
  induction edits with
  | nil => rfl
  | cons e es ih =>
    simp only [spec_texts_at]
    rw [if_neg (h e (List.mem_cons_self _ _))]
    exact ih (fun x hx => h x (List.mem_cons_of_mem _ hx))

theorem spec_frozen_from_nil (p : Nat) (bs : List Nat) : spec_frozen_from [] p bs = bs := by
  induction bs generalizing p with
  | nil => rfl
  | cons b bs ih => simp [spec_frozen_from, spec_texts_at, ih]

/-- Bytes in front of the first edit are copied unchanged. -/
theorem spec_frozen_from_skip (edits : List edit) :
    ∀ (k p : Nat) (bs : List Nat), (∀ e ∈ edits, p + k ≤ e.pos) → k ≤ bs.length →
      spec_frozen_from edits p bs
        = bs.take k ++ spec_frozen_from edits (p + k) (bs.drop k) := by
  intro k
  induction k with
  | zero => intro p bs _ _; simp
  | succ k ih =>
    intro p bs h hk
    cases bs with
    | nil => simp at hk
    | cons b bs =>
      have h0 : spec_texts_at edits p = [] :=
        spec_texts_at_none edits p (fun e he => by have := h e he; omega)
      simp only [spec_frozen_from, h0, List.nil_append, List.take_succ_cons, List.drop_succ_cons,
        List.cons_append]
      rw [ih (p + 1) bs (fun e he => by have := h e he; omega)
        (by simpa using hk)]
      have : p + 1 + k = p + (k + 1) := by omega
      rw [this]

theorem spec_frozen_from_later (e : edit) (rest : List edit) :
    ∀ (bs : List Nat) (q : Nat), e.pos < q →
      spec_frozen_from (e :: rest) q bs = spec_frozen_from rest q bs := by
  intro bs
  induction bs with
  | nil =>
    intro q hq
    simp only [spec_frozen_from, spec_texts_at]
    rw [if_neg (by omega)]
  | cons b bs ih =>
    intro q hq
    simp only [spec_frozen_from, spec_texts_at]
    rw [if_neg (by omega), ih (q + 1) (by omega)]

/-- An edit at the current index whose successors lie further right puts
its text first. -/
theorem spec_frozen_from_head (e : edit) (rest : List edit) (bs : List Nat)
    (hrest : ∀ x ∈ rest, e.pos < x.pos) :
    spec_frozen_from (e :: rest) e.pos bs = e.text ++ spec_frozen_from rest e.pos bs := by
  have h0 : spec_texts_at rest e.pos = [] :=
    spec_texts_at_none rest e.pos (fun x hx => by have := hrest x hx; omega)
  cases bs with
  | nil => simp [spec_frozen_from, spec_texts_at]
  | cons b bs =>
    simp only [spec_frozen_from, spec_texts_at, if_true, h0, List.append_nil, List.nil_append]
    rw [spec_frozen_from_later e rest bs (e.pos + 1) (by omega)]

theorem chunk_le_chunks_length {c : chunk} {cs : List chunk} (h : c ∈ cs) :
    c.length ≤ chunks_length cs := by
  induction cs with
  | nil => simp at h
  | cons d ds ih =>
    simp only [chunks_length]
    rcases List.mem_cons.mp h with rfl | h1
    · omega
    · have := ih h1
      omega

/-- Applying position-sorted inserts with the running offset builds the
frozen-text result, as long as the document stays within one chunk. -/
theorem apply_inserts_sorted (old : List Nat) :
    ∀ (es : List edit) (doc : document) (off q : Nat) (done : List Nat),
      es.Pairwise (fun a b => a.pos < b.pos) →
      (∀ e ∈ es, q ≤ e.pos ∧ e.pos ≤ old.length) → q ≤ old.length →
      markdown_flatten doc = done ++ old.drop q → done.length = q + off →
      doc.length = chunks_length doc.chunks →
      doc.length + inserts_size es ≤ CHUNK_SIZE →
      ∃ d, apply_inserts es off doc = some d ∧
        markdown_flatten d = done ++ spec_frozen_from es q (old.drop q) ∧
        d.pending = doc.pending ∧ d.version = doc.version := by
  intro es
  induction es with
  | nil =>
    intro doc off q done _ _ _ hflat _ _ _
    exact ⟨doc, rfl, by rw [spec_frozen_from_nil, hflat], rfl, rfl⟩
  | cons e rest ih =>
    intro doc off q done hsorted hpos hq hflat hdone hlen hsize
    obtain ⟨hhead, hrest⟩ := List.pairwise_cons.mp hsorted
    obtain ⟨hqe, heo⟩ := hpos e (List.mem_cons_self _ _)
    simp only [inserts_size] at hsize
    have hL : doc.length = done.length + (old.length - q) := by
      rw [hlen, ← flatten_length, hflat]
      simp
    obtain ⟨d1, a1, a2, a3, a4, a5⟩ := apply_insert_fits doc (e.pos + off) e.text hlen
      (by omega)
      (fun c hc => by
        have := chunk_le_chunks_length hc
        omega)
      (by omega)
    have hk : e.pos + off = done.length + (e.pos - q) := by omega
    have hflat1 : markdown_flatten d1
        = (done ++ (old.drop q).take (e.pos - q) ++ e.text) ++ old.drop e.pos := by
      rw [a2, hflat, hk, List.take_append, List.drop_append, List.drop_drop]
      have : q + (e.pos - q) = e.pos := by omega
      rw [this]
    have hlen1 : d1.length = chunks_length d1.chunks := by
      rw [← flatten_length, a2, a3, hlen, ← flatten_length]
      simp only [List.length_append, List.length_take, List.length_drop]
      have : e.pos + off ≤ (markdown_flatten doc).length := by
        rw [flatten_length, ← hlen]; omega
      omega
    obtain ⟨d, b1, b2, b3, b4⟩ := ih d1 (off + e.text.length) e.pos
      (done ++ (old.drop q).take (e.pos - q) ++ e.text) hrest
      (fun x hx => ⟨Nat.le_of_lt (hhead x hx), (hpos x (List.mem_cons_of_mem _ hx)).2⟩)
      heo hflat1
      (by
        simp only [List.length_append, List.length_take, List.length_drop]
        omega)
      hlen1 (by omega)
    refine ⟨d, ?_, ?_, b3.trans a4, b4.trans a5⟩
    · simp only [apply_inserts, a1, b1]
    · rw [b2, spec_frozen_from_skip (e :: rest) (e.pos - q) q (old.drop q)
        (fun x hx => by
          rcases List.mem_cons.mp hx with rfl | hx1
          · omega
          · have := hhead x hx1
            omega)
        (by simp only [List.length_drop]; omega)]
      have hq2 : q + (e.pos - q) = e.pos := by omega
      rw [hq2, List.drop_drop, hq2, spec_frozen_from_head e rest _ hhead]
      simp

theorem sort_place_perm (key : edit) (done : List edit) :
    (sort_place key done).Perm (key :: done) := by
  induction done with
  | nil => simp [sort_place]
  | cons x below ih =>
    simp only [sort_place]
    split
    · exact (List.Perm.cons x ih).trans (List.Perm.swap key x below)
    · exact List.Perm.refl _

/-- The inner loop keeps the sorted part sorted (read from the last entry
down: positions never increase). -/
theorem sort_place_sorted (key : edit) (done : List edit)
    (h : done.Pairwise (fun a b => b.pos ≤ a.pos)) :
    (sort_place key done).Pairwise (fun a b => b.pos ≤ a.pos) := by
  induction done with
  | nil => simp [sort_place]
  | cons x below ih =>
    obtain ⟨hx, hb⟩ := List.pairwise_cons.mp h
    simp only [sort_place]
    split
    · rename_i hgt
      refine List.pairwise_cons.mpr ⟨?_, ih hb⟩
      intro y hy
      rcases List.mem_cons.mp ((sort_place_perm key below).mem_iff.mp hy) with rfl | hy1
      · omega
      · exact hx y hy1
    · rename_i hle
      refine List.pairwise_cons.mpr ⟨?_, h⟩
      intro y hy
      rcases List.mem_cons.mp hy with rfl | hy1
      · omega
      · have := hx y hy1
        omega

theorem sort_loop_spec :
    ∀ (todo done : List edit), done.Pairwise (fun a b => b.pos ≤ a.pos) →
      (sort_loop done todo).Perm (done ++ todo) ∧
      (sort_loop done todo).Pairwise (fun a b => a.pos ≤ b.pos) := by
  intro todo
  induction todo with
  | nil =>
    intro done h
    simp only [sort_loop, List.append_nil]
    exact ⟨List.reverse_perm done, List.pairwise_reverse.mpr h⟩
  | cons key todo ih =>
    intro done h
    obtain ⟨h1, h2⟩ := ih (sort_place key done) (sort_place_sorted key done h)
    simp only [sort_loop]
    refine ⟨h1.trans ?_, h2⟩
    exact ((sort_place_perm key done).append_right todo).trans
      (by simpa using (@List.perm_middle _ key done todo).symm)

/-- The insertion sort returns a permutation of its input in ascending
order of position. -/
theorem sort_inserts_spec (l : List edit) :
    (sort_inserts l).Perm l ∧ (sort_inserts l).Pairwise (fun a b => a.pos ≤ b.pos) := by
  cases l with
  | nil => simp [sort_inserts]
  | cons a0 todo =>
    simpa [sort_inserts] using sort_loop_spec todo [a0] (by simp)

theorem split_pending_inserts :
    ∀ (l deletes inserts : List edit), (∀ e ∈ l, e.type = edit_type.EDIT_INSERT) →
      split_pending l deletes inserts = (deletes, l.reverse ++ inserts) := by
  intro l
  induction l with
  | nil => intro d i _; simp [split_pending]
  | cons e next ih =>
    intro d i h
    have he : e.type ≠ edit_type.EDIT_DELETE := by
      rw [h e (List.mem_cons_self _ _)]
      decide
    simp only [split_pending, if_neg he]
    rw [ih d (e :: i) (fun x hx => h x (List.mem_cons_of_mem _ hx))]
    simp

theorem inserts_size_perm {a b : List edit} (h : a.Perm b) :
    inserts_size a = inserts_size b := by
  induction h with
  | nil => rfl
  | cons x _ ih => simp [inserts_size, ih]
  | swap x y l => simp only [inserts_size]; omega
  | trans _ _ ih1 ih2 => exact ih1.trans ih2

/-- With pairwise distinct positions the texts placed at an index do not
depend on the order of the edit list. -/
theorem spec_texts_at_perm {a b : List edit} (h : a.Perm b) (p : Nat)
    (hnd : (a.map edit.pos).Nodup) :
    spec_texts_at a p = spec_texts_at b p := by
  induction h with
  | nil => rfl
  | cons x _ ih =>
    simp only [List.map_cons, List.nodup_cons] at hnd
    simp only [spec_texts_at, ih hnd.2]
  | swap x y l =>
    simp only [List.map_cons, List.nodup_cons, List.mem_cons, not_or] at hnd
    simp only [spec_texts_at]
    by_cases hx : x.pos = p
    · by_cases hy : y.pos = p
      · exfalso
        exact hnd.1.1 (hy.trans hx.symm)
      · simp [hx, hy]
    · simp [hx]
  | trans h1 _ ih1 ih2 =>
    exact (ih1 hnd).trans (ih2 ((h1.map edit.pos).nodup_iff.mp hnd))

theorem spec_frozen_from_perm {a b : List edit} (h : a.Perm b)
    (hnd : (a.map edit.pos).Nodup) :
    ∀ (bs : List Nat) (p : Nat), spec_frozen_from a p bs = spec_frozen_from b p bs := by
  intro bs
  induction bs with
  | nil => intro p; simp only [spec_frozen_from, spec_texts_at_perm h p hnd]
  | cons c bs ih => intro p; simp only [spec_frozen_from, spec_texts_at_perm h p hnd, ih]

/-- The commit of a pending list of inserts with pairwise distinct positions
inside the document, on a document that stays within one chunk. -/
theorem commit_inserts_only (doc : document)
    (hlen : doc.length = chunks_length doc.chunks)
    (hins : ∀ e ∈ doc.pending, e.type = edit_type.EDIT_INSERT)
    (hpos : ∀ e ∈ doc.pending, e.pos ≤ doc.length)
    (hnd : (doc.pending.map edit.pos).Nodup)
    (hsize : doc.length + inserts_size doc.pending ≤ CHUNK_SIZE) :
    ∃ d, markdown_increment_version doc = some d ∧
      markdown_flatten d = spec_insert_frozen (markdown_flatten doc) doc.pending := by
  unfold markdown_increment_version
  rw [split_pending_inserts doc.pending [] [] hins]
  simp only [List.append_nil, apply_deletes]
  obtain ⟨hperm, hsorted⟩ := sort_inserts_spec doc.pending.reverse
  have hperm2 : (sort_inserts doc.pending.reverse).Perm doc.pending :=
    hperm.trans (List.reverse_perm _)
  have hnd2 : ((sort_inserts doc.pending.reverse).map edit.pos).Nodup :=
    (hperm2.map edit.pos).nodup_iff.mpr hnd
  have hstrict : (sort_inserts doc.pending.reverse).Pairwise (fun a b => a.pos < b.pos) := by
    have hne : (sort_inserts doc.pending.reverse).Pairwise (fun a b => a.pos ≠ b.pos) :=
      List.pairwise_map.mp hnd2
    exact (hsorted.and hne).imp (fun h => Nat.lt_of_le_of_ne h.1 h.2)
  have hL : (markdown_flatten doc).length = doc.length := by rw [flatten_length, hlen]
  obtain ⟨d, h1, h2, _, _⟩ := apply_inserts_sorted (markdown_flatten doc)
    (sort_inserts doc.pending.reverse) doc 0 0 [] hstrict
    (fun e he => ⟨Nat.zero_le _, by rw [hL]; exact hpos e (hperm2.mem_iff.mp he)⟩)
    (Nat.zero_le _) (by simp) (by simp) hlen
    (by rw [inserts_size_perm hperm2]; exact hsize)
  rw [h1]
  refine ⟨_, rfl, ?_⟩
  show markdown_flatten d = _
  rw [h2]
  simp only [List.nil_append, List.drop_zero, spec_insert_frozen]
  exact spec_frozen_from_perm hperm2 hnd2 _ _

/-- C3.  On a document whose `length` is the sum of its chunk lengths, with
a pending list of `Insert` edits only, at pairwise distinct positions
`<= length`, and a final size below one chunk (256 bytes),
`markdown_increment_version` returns and the flattened text is the frozen
pre-commit text with every edit's text inserted at its own position; the
result is the same for every order in which the inserts were enqueued. -/
theorem C3_commit_inserts_in_frozen_frame (doc : document)
    (hlen : doc.length = chunks_length doc.chunks)
    (hins : ∀ e ∈ doc.pending, e.type = edit_type.EDIT_INSERT)
    (hpos : ∀ e ∈ doc.pending, e.pos ≤ doc.length)
    (hnd : (doc.pending.map edit.pos).Nodup)
    (hsize : doc.length + inserts_size doc.pending < CHUNK_SIZE) :
    ∃ d, markdown_increment_version doc = some d ∧
      markdown_flatten d = spec_insert_frozen (markdown_flatten doc) doc.pending ∧
      ∀ reordered : List edit, reordered.Perm doc.pending →
        ∃ d1, markdown_increment_version { doc with pending := reordered } = some d1 ∧
          markdown_flatten d1 = markdown_flatten d := by
  obtain ⟨d, h1, h2⟩ := commit_inserts_only doc hlen hins hpos hnd (Nat.le_of_lt hsize)
  refine ⟨d, h1, h2, ?_⟩
  intro reordered hperm
  have hnd1 : (reordered.map edit.pos).Nodup := (hperm.map edit.pos).nodup_iff.mpr hnd
  obtain ⟨d1, g1, g2⟩ := commit_inserts_only { doc with pending := reordered } hlen
    (fun e he => hins e (hperm.mem_iff.mp he))
    (fun e he => hpos e (hperm.mem_iff.mp he))
    hnd1
    (by
      show doc.length + inserts_size reordered ≤ CHUNK_SIZE
      rw [inserts_size_perm hperm]
      exact Nat.le_of_lt hsize)
  refine ⟨d1, g1, ?_⟩
  rw [g2, h2]
  exact spec_frozen_from_perm hperm hnd1 _ _

/-- Witness for C3: `"Hello"` with `"A"` at 3, `"B"` at 1, `"C"` at 5 and
`"D"` at 0, enqueued in that order, commits to `"DHBelAloC"`. -/
theorem C3_commit_inserts_in_frozen_frame_witness :
    hello_inserts_doc.length = chunks_length hello_inserts_doc.chunks ∧
    (∀ e ∈ hello_inserts_doc.pending, e.type = edit_type.EDIT_INSERT) ∧
    (∀ e ∈ hello_inserts_doc.pending, e.pos ≤ hello_inserts_doc.length) ∧
    (hello_inserts_doc.pending.map edit.pos).Nodup ∧
    hello_inserts_doc.length + inserts_size hello_inserts_doc.pending < CHUNK_SIZE ∧
    (∃ d, markdown_increment_version hello_inserts_doc = some d ∧
      markdown_flatten d
        = spec_insert_frozen (markdown_flatten hello_inserts_doc) hello_inserts_doc.pending ∧
      ∀ reordered : List edit, reordered.Perm hello_inserts_doc.pending →
        ∃ d1, markdown_increment_version { hello_inserts_doc with pending := reordered }
            = some d1 ∧
          markdown_flatten d1 = markdown_flatten d) ∧
    spec_insert_frozen (markdown_flatten hello_inserts_doc) hello_inserts_doc.pending
      = [68, 72, 66, 101, 108, 65, 108, 111, 67] :=
  ⟨by decide, by decide, by decide, by decide, by decide,
    C3_commit_inserts_in_frozen_frame hello_inserts_doc (by decide) (by decide) (by decide)
      (by decide) (by decide),
    by decide⟩

/-! ## C4, C9, C10: commit bookkeeping and the buffer invariants -/

/-- C4.  On every document (chunks within the capacity of their arrays) and
every pending list, `markdown_increment_version` returns, the pending list is
then empty and the version counter is the old version plus 1 in `uint64_t`
arithmetic: exactly `old + 1` unless the counter was at `2^64 - 1`. -/
theorem C4_commit_empties_pending_and_bumps_version (doc : document)
    (hw : chunks_wf doc.chunks) :
    ∃ d, markdown_increment_version doc = some d ∧ d.pending = [] ∧
      d.version = (doc.version + 1) % SIZE_MOD ∧
      (doc.version + 1 < SIZE_MOD → d.version = doc.version + 1) := by
  obtain ⟨d, h1, _, _, h4, h5⟩ := increment_version_total doc hw
  exact ⟨d, h1, h4, h5, fun hlt => by rw [h5, Nat.mod_eq_of_lt hlt]⟩

/-- Witness for C4: a commit of `"abc"` with one pending delete and one
pending insert. -/
theorem C4_commit_empties_pending_and_bumps_version_witness :
    chunks_wf abc_doc.chunks ∧
    ∃ d, markdown_increment_version
        { abc_doc with pending := [⟨edit_type.EDIT_DELETE, 0, [], 1⟩,
          ⟨edit_type.EDIT_INSERT, 3, [100], 0⟩] } = some d ∧ d.pending = [] ∧
      d.version = (abc_doc.version + 1) % SIZE_MOD ∧
      (abc_doc.version + 1 < SIZE_MOD → d.version = abc_doc.version + 1) :=
  ⟨by decide, C4_commit_empties_pending_and_bumps_version
    { abc_doc with pending := [⟨edit_type.EDIT_DELETE, 0, [], 1⟩,
      ⟨edit_type.EDIT_INSERT, 3, [100], 0⟩] } (by decide)⟩

/-- C9.  In every document state reachable from `markdown_init` by
`apply_insert`, `apply_delete` and `markdown_increment_version`, `length` is
the sum of the chunk lengths and the number of bytes `markdown_flatten`
returns; from such a state every `apply_insert` and every commit returns. -/
theorem C9_reachable_length_is_chunk_sum (d : document) (h : reachable d) :
    d.length = chunks_length d.chunks ∧ d.length = (markdown_flatten d).length ∧
    (∀ pos text, ∃ d1, apply_insert d pos text = some d1) ∧
    (∃ d1, markdown_increment_version d = some d1) := by
  obtain ⟨hw, hl⟩ := reachable_inv d h
  refine ⟨hl, by rw [flatten_length, hl], ?_, ?_⟩
  · intro pos text
    obtain ⟨d1, h1, _⟩ := apply_insert_total d pos text hw
    exact ⟨d1, h1⟩
  · obtain ⟨d1, h1, _⟩ := increment_version_total d hw
    exact ⟨d1, h1⟩

/-- Witness for C9: the state after inserting `"abc"` into the empty
document and deleting its middle byte. -/
theorem C9_reachable_length_is_chunk_sum_witness :
    reachable (apply_delete abc_doc 1 1) ∧
    (apply_delete abc_doc 1 1).length = chunks_length (apply_delete abc_doc 1 1).chunks ∧
    (apply_delete abc_doc 1 1).length = (markdown_flatten (apply_delete abc_doc 1 1)).length :=
  ⟨reachable.delete abc_doc 1 1
      (reachable.insert markdown_init abc_doc 0 [97, 98, 99] reachable.init (by decide)),
    (C9_reachable_length_is_chunk_sum (apply_delete abc_doc 1 1)
      (reachable.delete abc_doc 1 1
        (reachable.insert markdown_init abc_doc 0 [97, 98, 99] reachable.init
          (by decide)))).1,
    (C9_reachable_length_is_chunk_sum (apply_delete abc_doc 1 1)
      (reachable.delete abc_doc 1 1
        (reachable.insert markdown_init abc_doc 0 [97, 98, 99] reachable.init
          (by decide)))).2.1⟩

theorem adjust_single_le (pos : Nat) (rs : List range) :
    adjust_single_position_if_deleted pos rs ≤ pos := by
  induction rs with
  | nil => simp [adjust_single_position_if_deleted]
  | cons r next ih =>
    simp only [adjust_single_position_if_deleted]
    split
    · rename_i h; exact h.1
    · exact ih

theorem snap_le (x : Nat) (r : range) (bound : Nat) (hx : x ≤ bound) (hr : r.stop ≤ bound) :
    snap x r ≤ bound := by
  unfold snap
  split
  · split
    · rename_i h _; omega
    · exact hr
  · exact hx

theorem adjust_partially_le (bound : Nat) :
    ∀ (rs : List range) (start stop : Nat), (∀ r ∈ rs, r.stop ≤ bound) →
      start ≤ bound → stop ≤ bound →
      (adjust_partially_deleted start stop rs).1 ≤ bound ∧
      (adjust_partially_deleted start stop rs).2 ≤ bound := by
  intro rs
  induction rs with
  | nil => intro start stop _ h1 h2; exact ⟨h1, h2⟩
  | cons r next ih =>
    intro start stop hr h1 h2
    simp only [adjust_partially_deleted]
    exact ih _ _ (fun q hq => hr q (List.mem_cons_of_mem _ hq))
      (snap_le _ _ _ h1 (hr r (List.mem_cons_self _ _)))
      (snap_le _ _ _ h2 (hr r (List.mem_cons_self _ _)))

/-- The ranges `build_deleted_ranges` returns are those of the pending
`Delete` edits, and every pending `Delete` contributes its range. -/
theorem build_deleted_ranges_loop_mem (r : range) :
    ∀ (pending : List edit) (acc : List range),
      r ∈ build_deleted_ranges_loop pending acc ↔
        r ∈ acc ∨ ∃ e ∈ pending, e.type = edit_type.EDIT_DELETE ∧
          r = ⟨e.pos, (e.pos + e.del_len) % SIZE_MOD⟩ := by
  intro pending
  induction pending with
  | nil => intro acc; simp [build_deleted_ranges_loop]
  | cons e next ih =>
    intro acc
    simp only [build_deleted_ranges_loop]
    split
    · rename_i he
      rw [ih]
      simp only [List.mem_cons, exists_eq_or_imp]
      constructor
      · rintro ((h | h) | h)
        · exact Or.inr (Or.inl ⟨he, h⟩)
        · exact Or.inl h
        · exact Or.inr (Or.inr h)
      · rintro (h | ⟨_, h⟩ | h)
        · exact Or.inl (Or.inr h)
        · exact Or.inl (Or.inl h)
        · exact Or.inr h
    · rename_i he
      rw [ih]
      simp only [List.mem_cons, exists_eq_or_imp]
      constructor
      · rintro (h | h)
        · exact Or.inl h
        · exact Or.inr (Or.inr h)
      · rintro (h | ⟨h, _⟩ | h)
        · exact Or.inl h
        · exact absurd h he
        · exact Or.inr h

theorem build_deleted_ranges_mem (r : range) (pending : List edit) :
    r ∈ build_deleted_ranges pending ↔
      ∃ e ∈ pending, e.type = edit_type.EDIT_DELETE ∧
        r = ⟨e.pos, (e.pos + e.del_len) % SIZE_MOD⟩ := by
  simp [build_deleted_ranges, build_deleted_ranges_loop_mem]

theorem ranges_within (doc : document)
    (h : ∀ e ∈ doc.pending, e.type = edit_type.EDIT_DELETE → e.pos + e.del_len ≤ doc.length) :
    ∀ r ∈ build_deleted_ranges doc.pending, r.stop ≤ doc.length := by
  intro r hr
  obtain ⟨e, he, ht, rfl⟩ := (build_deleted_ranges_mem r doc.pending).mp hr
  exact Nat.le_trans (Nat.mod_le _ _) (h e he ht)

theorem markdown_insert_eq (doc : document) (pos : Nat) (text : List Nat) :
    markdown_insert doc doc.version pos text
      = if pos > doc.length then (INVALID_CURSOR_POS, doc)
        else (SUCCESS, enqueue_insert doc pos text) := by
  simp [markdown_insert, enqueue_insert]

theorem markdown_insert_ok (doc : document) (pos : Nat) (text : List Nat)
    (h : pos ≤ doc.length) :
    markdown_insert doc doc.version pos text = (SUCCESS, enqueue_insert doc pos text) := by
  rw [markdown_insert_eq, if_neg (Nat.not_lt.mpr h)]

theorem markdown_delete_eq (doc : document) (pos len : Nat) :
    markdown_delete doc doc.version pos len
      = if pos > doc.length ∨ len = 0 then (INVALID_CURSOR_POS, doc)
        else (SUCCESS, enqueue_delete doc pos len) := by
  simp [markdown_delete, enqueue_delete]

theorem enqueue_insert_length (doc : document) (pos : Nat) (text : List Nat) :
    (enqueue_insert doc pos text).length = doc.length := rfl

theorem enqueue_insert_version (doc : document) (pos : Nat) (text : List Nat) :
    (enqueue_insert doc pos text).version = doc.version := rfl

/-- What `markdown_bold` does once its argument and version checks pass. -/
theorem markdown_bold_eq (doc : document) (start stop : Nat)
    (h1 : ¬ (start > stop ∨ stop > doc.length)) :
    markdown_bold doc doc.version start stop
      = if is_fully_within_deleted start stop (build_deleted_ranges doc.pending) = true then
          (DELETED_POSITION, doc)
        else if (adjust_partially_deleted start stop (build_deleted_ranges doc.pending)).2
            > doc.length then (INSERT_FAILED, doc)
        else if (adjust_partially_deleted start stop (build_deleted_ranges doc.pending)).1
            > doc.length then
          (INSERT_FAILED, enqueue_insert doc
            (adjust_partially_deleted start stop (build_deleted_ranges doc.pending)).2 [42, 42])
        else (SUCCESS, enqueue_insert (enqueue_insert doc
            (adjust_partially_deleted start stop (build_deleted_ranges doc.pending)).2 [42, 42])
            (adjust_partially_deleted start stop (build_deleted_ranges doc.pending)).1
            [42, 42]) := by
  unfold markdown_bold
  rw [if_neg h1, if_neg (by simp)]
  simp only []
  split
  · rfl
  · rcases adjust_partially_deleted start stop (build_deleted_ranges doc.pending) with ⟨s1, e1⟩
    simp only [markdown_insert_eq]
    by_cases he : e1 > doc.length
    · simp [he, INVALID_CURSOR_POS]
    · have hv : doc.version = (enqueue_insert doc e1 [42, 42]).version := rfl
      simp only [he, if_false, SUCCESS, ne_eq, not_true_eq_false]
      rw [hv, markdown_insert_eq, enqueue_insert_length]
      by_cases hs : s1 > doc.length
      · simp [hs, INVALID_CURSOR_POS]
      · simp [hs, SUCCESS]

/-- What `markdown_italic` does once its argument and version checks pass. -/
theorem markdown_italic_eq (doc : document) (start stop : Nat)
    (h1 : ¬ (start > stop ∨ stop > doc.length)) :
    markdown_italic doc doc.version start stop
      = if is_fully_within_deleted start stop (build_deleted_ranges doc.pending) = true then
          (DELETED_POSITION, doc)
        else if (adjust_partially_deleted start stop (build_deleted_ranges doc.pending)).2
            > doc.length then (INSERT_FAILED, doc)
        else if (adjust_partially_deleted start stop (build_deleted_ranges doc.pending)).1
            > doc.length then
          (INSERT_FAILED, enqueue_insert doc
            (adjust_partially_deleted start stop (build_deleted_ranges doc.pending)).2 [42])
        else (SUCCESS, enqueue_insert (enqueue_insert doc
            (adjust_partially_deleted start stop (build_deleted_ranges doc.pending)).2 [42])
            (adjust_partially_deleted start stop (build_deleted_ranges doc.pending)).1
            [42]) := by
  unfold markdown_italic
  rw [if_neg h1, if_neg (by simp)]
  simp only []
  split
  · rfl
  · rcases adjust_partially_deleted start stop (build_deleted_ranges doc.pending) with ⟨s1, e1⟩
    simp only [markdown_insert_eq]
    by_cases he : e1 > doc.length
    · simp [he, INVALID_CURSOR_POS]
    · have hv : doc.version = (enqueue_insert doc e1 [42]).version := rfl
      simp only [he, if_false, SUCCESS, ne_eq, not_true_eq_false]
      rw [hv, markdown_insert_eq, enqueue_insert_length]
      by_cases hs : s1 > doc.length
      · simp [hs, INVALID_CURSOR_POS]
      · simp [hs, SUCCESS]

/-- What `markdown_code` does once its argument and version checks pass. -/
theorem markdown_code_eq (doc : document) (start stop : Nat)
    (h1 : ¬ (start > stop ∨ stop > doc.length)) :
    markdown_code doc doc.version start stop
      = if is_fully_within_deleted start stop (build_deleted_ranges doc.pending) = true then
          (DELETED_POSITION, doc)
        else if (adjust_partially_deleted start stop (build_deleted_ranges doc.pending)).2
            > doc.length then (INSERT_FAILED, doc)
        else if (adjust_partially_deleted start stop (build_deleted_ranges doc.pending)).1
            > doc.length then
          (INSERT_FAILED, enqueue_insert doc
            (adjust_partially_deleted start stop (build_deleted_ranges doc.pending)).2 [96])
        else (SUCCESS, enqueue_insert (enqueue_insert doc
            (adjust_partially_deleted start stop (build_deleted_ranges doc.pending)).2 [96])
            (adjust_partially_deleted start stop (build_deleted_ranges doc.pending)).1
            [96]) := by
  unfold markdown_code
  rw [if_neg h1, if_neg (by simp)]
  simp only []
  split
  · rfl
  · rcases adjust_partially_deleted start stop (build_deleted_ranges doc.pending) with ⟨s1, e1⟩
    simp only [markdown_insert_eq]
    by_cases he : e1 > doc.length
    · simp [he, INVALID_CURSOR_POS]
    · have hv : doc.version = (enqueue_insert doc e1 [96]).version := rfl
      simp only [he, if_false, SUCCESS, ne_eq, not_true_eq_false]
      rw [hv, markdown_insert_eq, enqueue_insert_length]
      by_cases hs : s1 > doc.length
      · simp [hs, INVALID_CURSOR_POS]
      · simp [hs, SUCCESS]

/-- What `markdown_link` does once its argument and version checks pass: the
opening bracket is enqueued before the closing string is tried. -/
theorem markdown_link_eq (doc : document) (start stop : Nat) (url : List Nat)
    (h1 : ¬ (start > stop ∨ stop > doc.length)) :
    markdown_link doc doc.version start stop url
      = if is_fully_within_deleted start stop (build_deleted_ranges doc.pending) = true then
          (DELETED_POSITION, doc)
        else if (adjust_partially_deleted start stop (build_deleted_ranges doc.pending)).1
            > doc.length then (INSERT_FAILED, doc)
        else if (adjust_partially_deleted start stop (build_deleted_ranges doc.pending)).2
            > doc.length then
          (INSERT_FAILED, enqueue_insert doc
            (adjust_partially_deleted start stop (build_deleted_ranges doc.pending)).1 [91])
        else (SUCCESS, enqueue_insert (enqueue_insert doc
            (adjust_partially_deleted start stop (build_deleted_ranges doc.pending)).1 [91])
            (adjust_partially_deleted start stop (build_deleted_ranges doc.pending)).2
            ([93, 40] ++ url ++ [41])) := by
  unfold markdown_link
  rw [if_neg h1, if_neg (by simp)]
  simp only []
  split
  · rfl
  · rcases adjust_partially_deleted start stop (build_deleted_ranges doc.pending) with ⟨s1, e1⟩
    simp only [markdown_insert_eq]
    by_cases hs : s1 > doc.length
    · simp [hs, INVALID_CURSOR_POS]
    · have hv : doc.version = (enqueue_insert doc s1 [91]).version := rfl
      simp only [hs, if_false, SUCCESS, ne_eq, not_true_eq_false]
      rw [hv, markdown_insert_eq, enqueue_insert_length]
      by_cases he : e1 > doc.length
      · simp [he, INVALID_CURSOR_POS]
      · simp [he, SUCCESS]

/-- A single-position primitive enqueues at the adjusted position, which is
never past the document end. -/
theorem adjusted_insert_ok (doc : document) (pos : Nat) (text : List Nat)
    (h : pos ≤ doc.length) :
    markdown_insert doc doc.version
        (adjust_single_position_if_deleted pos (build_deleted_ranges doc.pending)) text
      = (SUCCESS, enqueue_insert doc
          (adjust_single_position_if_deleted pos (build_deleted_ranges doc.pending)) text) :=
  markdown_insert_ok doc _ text (Nat.le_trans (adjust_single_le _ _) h)

theorem markdown_newline_eq (doc : document) (pos : Nat) (h : pos ≤ doc.length) :
    markdown_newline doc doc.version pos
      = (SUCCESS, enqueue_insert doc
          (adjust_single_position_if_deleted pos (build_deleted_ranges doc.pending)) [10]) := by
  unfold markdown_newline
  rw [if_neg (Nat.not_lt.mpr h), if_neg (by simp)]
  exact adjusted_insert_ok doc pos _ h

theorem markdown_heading_eq (doc : document) (level : Int) (pos : Nat)
    (h : ¬ (pos > doc.length ∨ level < 1 ∨ level > MAX_HEADING_LEVEL)) :
    markdown_heading doc doc.version level pos
      = (SUCCESS, enqueue_insert doc
          (adjust_single_position_if_deleted pos (build_deleted_ranges doc.pending))
          (if needs_preceding_newline doc
              (adjust_single_position_if_deleted pos (build_deleted_ranges doc.pending)) = true
            then 10 :: (List.replicate level.toNat 35 ++ [32])
            else List.replicate level.toNat 35 ++ [32])) := by
  have hp : pos ≤ doc.length := by
    by_contra hc
    exact h (Or.inl (Nat.lt_of_not_le hc))
  unfold markdown_heading
  rw [if_neg h, if_neg (by simp)]
  simp only []
  split
  · exact adjusted_insert_ok doc pos _ hp
  · exact adjusted_insert_ok doc pos _ hp

theorem markdown_blockquote_eq (doc : document) (pos : Nat) (h : pos ≤ doc.length) :
    markdown_blockquote doc doc.version pos
      = (SUCCESS, enqueue_insert doc
          (adjust_single_position_if_deleted pos (build_deleted_ranges doc.pending))
          (if needs_preceding_newline doc
              (adjust_single_position_if_deleted pos (build_deleted_ranges doc.pending)) = true
            then [10, 62, 32] else [62, 32])) := by
  unfold markdown_blockquote
  rw [if_neg (Nat.not_lt.mpr h), if_neg (by simp)]
  simp only []
  split <;> simp [adjusted_insert_ok doc pos _ h, SUCCESS]

theorem markdown_unordered_list_eq (doc : document) (pos : Nat) (h : pos ≤ doc.length) :
    markdown_unordered_list doc doc.version pos
      = (SUCCESS, enqueue_insert doc
          (adjust_single_position_if_deleted pos (build_deleted_ranges doc.pending))
          (if adjust_single_position_if_deleted pos (build_deleted_ranges doc.pending) > 0 ∧
              char_at (markdown_flatten doc)
                (adjust_single_position_if_deleted pos (build_deleted_ranges doc.pending) - 1)
                ≠ 10
            then [10, 45, 32] else [45, 32])) := by
  unfold markdown_unordered_list
  rw [if_neg (Nat.not_lt.mpr h), if_neg (by simp)]
  simp only [decide_eq_true_eq]
  split <;> simp [adjusted_insert_ok doc pos _ h, SUCCESS]

theorem markdown_horizontal_rule_eq (doc : document) (pos : Nat) (h : pos ≤ doc.length) :
    markdown_horizontal_rule doc doc.version pos
      = (SUCCESS, enqueue_insert doc
          (adjust_single_position_if_deleted pos (build_deleted_ranges doc.pending))
          (if decide (adjust_single_position_if_deleted pos (build_deleted_ranges doc.pending) > 0
                ∧ char_at (markdown_flatten doc)
                  (adjust_single_position_if_deleted pos (build_deleted_ranges doc.pending) - 1)
                  ≠ 10) = true ∧
              decide (adjust_single_position_if_deleted pos (build_deleted_ranges doc.pending)
                  = doc.length ∨
                char_at (markdown_flatten doc)
                  (adjust_single_position_if_deleted pos (build_deleted_ranges doc.pending))
                  ≠ 10) = true
            then [10, 45, 45, 45, 10]
            else if decide (adjust_single_position_if_deleted pos
                  (build_deleted_ranges doc.pending) > 0
                ∧ char_at (markdown_flatten doc)
                  (adjust_single_position_if_deleted pos (build_deleted_ranges doc.pending) - 1)
                  ≠ 10) = true
            then [10, 45, 45, 45]
            else if decide (adjust_single_position_if_deleted pos
                  (build_deleted_ranges doc.pending) = doc.length ∨
                char_at (markdown_flatten doc)
                  (adjust_single_position_if_deleted pos (build_deleted_ranges doc.pending))
                  ≠ 10) = true
            then [45, 45, 45, 10]
            else [45, 45, 45])) := by
  unfold markdown_horizontal_rule
  rw [if_neg (Nat.not_lt.mpr h), if_neg (by simp)]
  simp only [adjusted_insert_ok doc pos _ h]
  rw [if_neg (by simp [SUCCESS])]

theorem markdown_ordered_list_eq (doc : document) (pos : Nat) (h : pos ≤ doc.length) :
    markdown_ordered_list doc doc.version pos = (INVALID_CURSOR_POS, doc) ∨
    ∃ d, markdown_ordered_list doc doc.version pos = (SUCCESS, d) := by
  unfold markdown_ordered_list
  rw [if_neg (Nat.not_lt.mpr h), if_neg (by simp)]
  simp only []
  split
  · left; rfl
  · split
    · left; rfl
    · right
      simp only [adjusted_insert_ok doc pos _ h]
      rw [if_neg (by simp [SUCCESS])]
      exact ⟨_, rfl⟩


/-- A rejected argument or version check leaves the document as it was. -/
theorem call_rejects (doc : document) (version : Nat) (p : primitive) :
    (spec_args_invalid doc p → call doc version p = (INVALID_CURSOR_POS, doc)) ∧
    (¬ spec_args_invalid doc p → version ≠ doc.version →
      call doc version p = (OUTDATED_VERSION, doc)) := by
  cases p <;>
    simp only [spec_args_invalid, call, markdown_insert, markdown_delete, markdown_newline,
      markdown_heading, markdown_bold, markdown_italic, markdown_blockquote,
      markdown_ordered_list, markdown_unordered_list, markdown_code,
      markdown_horizontal_rule, markdown_link, MAX_HEADING_LEVEL] <;>
    (constructor
     · intro h
       rw [if_pos h]
     · intro h hv
       rw [if_neg h, if_pos hv])

/-- The outcomes of a primitive whose argument and version checks pass:
success, an unchanged document with `INVALID_CURSOR_POS` or
`DELETED_POSITION`, or `INSERT_FAILED` with an adjusted endpoint past the
document end. -/
theorem call_accepted (doc : document) (p : primitive) (h : ¬ spec_args_invalid doc p) :
    (call doc doc.version p).1 = SUCCESS ∨
    call doc doc.version p = (INVALID_CURSOR_POS, doc) ∨
    call doc doc.version p = (DELETED_POSITION, doc) ∨
    ((call doc doc.version p).1 = INSERT_FAILED ∧
      ∃ start stop, start ≤ doc.length ∧ stop ≤ doc.length ∧
        ((adjust_partially_deleted start stop (build_deleted_ranges doc.pending)).1 > doc.length
          ∨ (adjust_partially_deleted start stop (build_deleted_ranges doc.pending)).2
            > doc.length)) := by
  cases p with
  | insert pos text =>
    simp only [spec_args_invalid, not_lt] at h
    simp [call, markdown_insert_ok doc pos text h]
  | delete pos len =>
    simp only [spec_args_invalid] at h
    simp [call, markdown_delete_eq, h]
  | newline pos =>
    simp only [spec_args_invalid, not_lt] at h
    simp [call, markdown_newline_eq doc pos h]
  | heading level pos =>
    simp only [spec_args_invalid] at h
    simp [call, markdown_heading_eq doc level pos (by simpa [MAX_HEADING_LEVEL] using h)]
  | blockquote pos =>
    simp only [spec_args_invalid, not_lt] at h
    simp [call, markdown_blockquote_eq doc pos h]
  | ordered_list pos =>
    simp only [spec_args_invalid, not_lt] at h
    rcases markdown_ordered_list_eq doc pos h with h1 | ⟨d, h1⟩
    · right; left; exact h1
    · left; simp [call, h1]
  | unordered_list pos =>
    simp only [spec_args_invalid, not_lt] at h
    simp [call, markdown_unordered_list_eq doc pos h]
  | horizontal_rule pos =>
    simp only [spec_args_invalid, not_lt] at h
    simp [call, markdown_horizontal_rule_eq doc pos h]
  | bold start stop =>
    simp only [spec_args_invalid] at h
    have hb : start ≤ doc.length ∧ stop ≤ doc.length := by omega
    simp only [call, markdown_bold_eq doc start stop h]
    split_ifs with c1 c2 c3
    · right; right; left; rfl
    · right; right; right; exact ⟨rfl, start, stop, hb.1, hb.2, Or.inr c2⟩
    · right; right; right; exact ⟨rfl, start, stop, hb.1, hb.2, Or.inl c3⟩
    · left; rfl
  | italic start stop =>
    simp only [spec_args_invalid] at h
    have hb : start ≤ doc.length ∧ stop ≤ doc.length := by omega
    simp only [call, markdown_italic_eq doc start stop h]
    split_ifs with c1 c2 c3
    · right; right; left; rfl
    · right; right; right; exact ⟨rfl, start, stop, hb.1, hb.2, Or.inr c2⟩
    · right; right; right; exact ⟨rfl, start, stop, hb.1, hb.2, Or.inl c3⟩
    · left; rfl
  | code start stop =>
    simp only [spec_args_invalid] at h
    have hb : start ≤ doc.length ∧ stop ≤ doc.length := by omega
    simp only [call, markdown_code_eq doc start stop h]
    split_ifs with c1 c2 c3
    · right; right; left; rfl
    · right; right; right; exact ⟨rfl, start, stop, hb.1, hb.2, Or.inr c2⟩
    · right; right; right; exact ⟨rfl, start, stop, hb.1, hb.2, Or.inl c3⟩
    · left; rfl
  | link start stop url =>
    simp only [spec_args_invalid] at h
    have hb : start ≤ doc.length ∧ stop ≤ doc.length := by omega
    simp only [call, markdown_link_eq doc start stop url h]
    split_ifs with c1 c2 c3
    · right; right; left; rfl
    · right; right; right; exact ⟨rfl, start, stop, hb.1, hb.2, Or.inl c2⟩
    · right; right; right; exact ⟨rfl, start, stop, hb.1, hb.2, Or.inr c3⟩
    · left; rfl

theorem is_fully_within_deleted_iff (start stop : Nat) (rs : List range) :
    is_fully_within_deleted start stop rs = true ↔
      ∃ r ∈ rs, r.start ≤ start ∧ stop ≤ r.stop := by
  induction rs with
  | nil => simp [is_fully_within_deleted]
  | cons r next ih =>
    simp only [is_fully_within_deleted, List.mem_cons, exists_eq_or_imp]
    split
    · rename_i h
      simp only [true_iff]
      exact Or.inl h
    · rename_i h
      rw [ih]
      constructor
      · exact Or.inr
      · rintro (h1 | h1)
        · exact absurd h1 h
        · exact h1

/-! ## C5 to C8: checks and rejections of the primitives -/

/-- C5.  Each of the twelve primitives checks its positional arguments
before the version: with an invalid argument the result is
`INVALID_CURSOR_POS` whatever the version, and with valid arguments and
`version != doc->version` it is `OUTDATED_VERSION`. -/
theorem C5_argument_check_precedes_version_check (doc : document) (version : Nat)
    (p : primitive) :
    (spec_args_invalid doc p → (call doc version p).1 = INVALID_CURSOR_POS) ∧
    (¬ spec_args_invalid doc p → version ≠ doc.version →
      (call doc version p).1 = OUTDATED_VERSION) := by
  cases p <;>
    simp only [spec_args_invalid, call, markdown_insert, markdown_delete, markdown_newline,
      markdown_heading, markdown_bold, markdown_italic, markdown_blockquote,
      markdown_ordered_list, markdown_unordered_list, markdown_code,
      markdown_horizontal_rule, markdown_link, MAX_HEADING_LEVEL] <;>
    (constructor
     · intro h
       rw [if_pos h]
     · intro h hv
       rw [if_neg h, if_pos hv])

/-- Witness for C5 on `"abcdef"` (version 0) called with version 7: a
delete of length 0 and an inverted bold range are `INVALID_CURSOR_POS`, a
valid bold range is `OUTDATED_VERSION`. -/
theorem C5_argument_check_precedes_version_check_witness :
    (call abcdef_doc 7 (.delete 0 0)).1 = INVALID_CURSOR_POS ∧
    (call abcdef_doc 7 (.bold 3 2)).1 = INVALID_CURSOR_POS ∧
    (call abcdef_doc 7 (.bold 1 2)).1 = OUTDATED_VERSION :=
  ⟨(C5_argument_check_precedes_version_check abcdef_doc 7 (.delete 0 0)).1
      (by simp [spec_args_invalid]),
    (C5_argument_check_precedes_version_check abcdef_doc 7 (.bold 3 2)).1
      (by simp [spec_args_invalid]),
    (C5_argument_check_precedes_version_check abcdef_doc 7 (.bold 1 2)).2
      (by simp [spec_args_invalid, abcdef_doc]) (by simp [abcdef_doc])⟩

/-- C6 (evaluation at the failing input).  On `"abcdef"` with the pending
delete `[1, 7)` left by `markdown_delete(doc, 0, 1, 6)`,
`markdown_link(doc, 0, 0, 5, "u")` enqueues the opening bracket at 0, then
fails on the closing string at the snapped end 7 and returns
`INSERT_FAILED`: the pending list has grown although the result is not
`SUCCESS`. -/
theorem C6_link_fails_after_enqueueing :
    markdown_delete abcdef_doc 0 1 6 = (SUCCESS, past_end_delete_doc) ∧
    markdown_link past_end_delete_doc 0 0 5 [117]
      = (INSERT_FAILED, enqueue_insert past_end_delete_doc 0 [91]) ∧
    (markdown_link past_end_delete_doc 0 0 5 [117]).1 ≠ SUCCESS ∧
    (markdown_link past_end_delete_doc 0 0 5 [117]).2.pending ≠ past_end_delete_doc.pending := by
  refine ⟨by decide, by decide, by decide, by decide⟩

/-- C7 (counterexample).  On `"abcdef"` with the pending delete `[1, 7)`
left by `markdown_delete(doc, 0, 1, 6)`, `markdown_bold(doc, 0, 0, 5)` snaps
its end to 7, the insert at 7 fails and the result is `INSERT_FAILED` (-4),
which is none of the four codes. -/
theorem C7_bold_returns_insert_failed :
    markdown_delete abcdef_doc 0 1 6 = (SUCCESS, past_end_delete_doc) ∧
    markdown_bold past_end_delete_doc 0 0 5 = (-4, past_end_delete_doc) ∧
    (markdown_bold past_end_delete_doc 0 0 5).1 ≠ SUCCESS ∧
    (markdown_bold past_end_delete_doc 0 0 5).1 ≠ INVALID_CURSOR_POS ∧
    (markdown_bold past_end_delete_doc 0 0 5).1 ≠ DELETED_POSITION ∧
    (markdown_bold past_end_delete_doc 0 0 5).1 ≠ OUTDATED_VERSION := by
  refine ⟨by decide, by decide, by decide, by decide, by decide, by decide⟩

/-- C7 (amended).  Every primitive returns one of five codes: `SUCCESS`
(0), `INVALID_CURSOR_POS` (-1), `DELETED_POSITION` (-2), `OUTDATED_VERSION`
(-3) or `INSERT_FAILED` (-4); when no pending `Delete` reaches past the
document end (`pos + len <= length` for each) it is one of the first four. -/
theorem C7_primitives_return_five_codes (doc : document) (version : Nat) (p : primitive) :
    ((call doc version p).1 = SUCCESS ∨ (call doc version p).1 = INVALID_CURSOR_POS ∨
      (call doc version p).1 = DELETED_POSITION ∨ (call doc version p).1 = OUTDATED_VERSION ∨
      (call doc version p).1 = INSERT_FAILED) ∧
    ((∀ e ∈ doc.pending, e.type = edit_type.EDIT_DELETE → e.pos + e.del_len ≤ doc.length) →
      ((call doc version p).1 = SUCCESS ∨ (call doc version p).1 = INVALID_CURSOR_POS ∨
        (call doc version p).1 = DELETED_POSITION ∨
        (call doc version p).1 = OUTDATED_VERSION)) := by
  obtain ⟨r1, r2⟩ := call_rejects doc version p
  by_cases hi : spec_args_invalid doc p
  · simp [r1 hi]
  · by_cases hv : version = doc.version
    · subst hv
      rcases call_accepted doc p hi with h | h | h | ⟨h, s, e, hs, he, hov⟩
      · simp [h]
      · simp [h]
      · simp [h]
      · refine ⟨by simp [h], fun hall => ?_⟩
        exfalso
        have := adjust_partially_le doc.length (build_deleted_ranges doc.pending) s e
          (ranges_within doc hall) hs he
        omega
    · simp [r2 hi hv]

/-- Witness for C7 (amended): `markdown_bold(doc, 0, 1, 2)` on `"abcdef"`
with the pending delete `[0, 3)`, which ends inside the document. -/
theorem C7_primitives_return_five_codes_witness :
    (∀ e ∈ prefix_delete_doc.pending,
      e.type = edit_type.EDIT_DELETE → e.pos + e.del_len ≤ prefix_delete_doc.length) ∧
    ((call prefix_delete_doc 0 (.bold 1 2)).1 = SUCCESS ∨
      (call prefix_delete_doc 0 (.bold 1 2)).1 = INVALID_CURSOR_POS ∨
      (call prefix_delete_doc 0 (.bold 1 2)).1 = DELETED_POSITION ∨
      (call prefix_delete_doc 0 (.bold 1 2)).1 = OUTDATED_VERSION) :=
  ⟨by decide,
    (C7_primitives_return_five_codes prefix_delete_doc 0 (.bold 1 2)).2 (by decide)⟩

/-- C8 (evaluation at the failing input).  After
`markdown_delete(doc, 0, 1, 18446744073709551615)` on `"abcdef"` the end of
the deleted range, `1 + (2^64 - 1)`, wraps to 0 in `size_t`; the range
`[1, 2)` lies inside the pending delete (`1 <= 1`, `2 <= 1 + len`), yet
`markdown_bold(doc, 0, 1, 2)` returns `SUCCESS` and enqueues both markers.
The spec's own scenario behaves as stated: after `markdown_delete(0, 3)`,
`markdown_bold(1, 2)` is rejected `DELETED_POSITION`, nothing is enqueued and
the commit leaves `"def"`. -/
theorem C8_wrapped_delete_range_not_rejected :
    markdown_delete abcdef_doc 0 1 18446744073709551615 = (SUCCESS, wrapped_delete_doc) ∧
    build_deleted_ranges wrapped_delete_doc.pending = [⟨1, 0⟩] ∧
    markdown_bold wrapped_delete_doc 0 1 2
      = (SUCCESS, enqueue_insert (enqueue_insert wrapped_delete_doc 2 [42, 42]) 1 [42, 42]) ∧
    markdown_delete abcdef_doc 0 0 3 = (SUCCESS, prefix_delete_doc) ∧
    markdown_bold prefix_delete_doc 0 1 2 = (DELETED_POSITION, prefix_delete_doc) ∧
    (markdown_increment_version prefix_delete_doc).map markdown_flatten
      = some [100, 101, 102] := by
  refine ⟨by decide, by decide, by decide, by decide, by decide, by decide⟩

/-! ## Further properties of the primitives -/

/-- While no pending `Delete` reaches past the document end, a primitive
that returns anything other than `SUCCESS` leaves the document, its pending
list included, exactly as it was. -/
theorem failure_enqueues_nothing (doc : document) (version : Nat) (p : primitive)
    (hall : ∀ e ∈ doc.pending, e.type = edit_type.EDIT_DELETE →
      e.pos + e.del_len ≤ doc.length)
    (hfail : (call doc version p).1 ≠ SUCCESS) :
    (call doc version p).2 = doc := by
  obtain ⟨r1, r2⟩ := call_rejects doc version p
  by_cases hi : spec_args_invalid doc p
  · rw [r1 hi]
  · by_cases hv : version = doc.version
    · subst hv
      rcases call_accepted doc p hi with h | h | h | ⟨_, s, e, hs, he, hov⟩
      · exact absurd h hfail
      · rw [h]
      · rw [h]
      · exfalso
        have := adjust_partially_le doc.length (build_deleted_ranges doc.pending) s e
          (ranges_within doc hall) hs he
        omega
    · rw [r2 hi hv]

/-- Witness: on `"abcdef"` with the pending delete `[0, 3)` the rejected
`markdown_bold(doc, 0, 1, 2)` leaves the document as it was. -/
theorem failure_enqueues_nothing_witness :
    (∀ e ∈ prefix_delete_doc.pending,
      e.type = edit_type.EDIT_DELETE → e.pos + e.del_len ≤ prefix_delete_doc.length) ∧
    (call prefix_delete_doc 0 (.bold 1 2)).1 ≠ SUCCESS ∧
    (call prefix_delete_doc 0 (.bold 1 2)).2 = prefix_delete_doc :=
  ⟨by decide, by decide,
    failure_enqueues_nothing prefix_delete_doc 0 (.bold 1 2) (by decide) (by decide)⟩

/-- A range `[start, stop)` with `stop <= length` that lies inside the range
`[pos, pos + len)` of a pending `Delete` whose end does not leave the
`size_t` range is rejected by bold, italic, code and link with
`DELETED_POSITION`, and the document is left as it was. -/
theorem range_inside_pending_delete_rejected (doc : document) (e : edit)
    (he : e ∈ doc.pending) (ht : e.type = edit_type.EDIT_DELETE)
    (hno : e.pos + e.del_len < SIZE_MOD) (start stop : Nat) (url : List Nat)
    (h1 : e.pos ≤ start) (h2 : start ≤ stop) (h3 : stop ≤ doc.length)
    (h4 : stop ≤ e.pos + e.del_len) :
    markdown_bold doc doc.version start stop = (DELETED_POSITION, doc) ∧
    markdown_italic doc doc.version start stop = (DELETED_POSITION, doc) ∧
    markdown_code doc doc.version start stop = (DELETED_POSITION, doc) ∧
    markdown_link doc doc.version start stop url = (DELETED_POSITION, doc) := by
  have hin : is_fully_within_deleted start stop (build_deleted_ranges doc.pending) = true := by
    rw [is_fully_within_deleted_iff]
    refine ⟨⟨e.pos, (e.pos + e.del_len) % SIZE_MOD⟩, ?_, h1, ?_⟩
    · exact (build_deleted_ranges_mem _ _).mpr ⟨e, he, ht, rfl⟩
    · show stop ≤ (e.pos + e.del_len) % SIZE_MOD
      rw [Nat.mod_eq_of_lt hno]
      exact h4
  have hargs : ¬ (start > stop ∨ stop > doc.length) := by omega
  refine ⟨?_, ?_, ?_, ?_⟩
  · rw [markdown_bold_eq doc start stop hargs, if_pos hin]
  · rw [markdown_italic_eq doc start stop hargs, if_pos hin]
  · rw [markdown_code_eq doc start stop hargs, if_pos hin]
  · rw [markdown_link_eq doc start stop url hargs, if_pos hin]

/-- Witness: the spec's scenario, `BOLD 1 2` after `DEL 0 3` on
`"abcdef"`. -/
theorem range_inside_pending_delete_rejected_witness :
    (⟨edit_type.EDIT_DELETE, 0, [], 3⟩ : edit) ∈ prefix_delete_doc.pending ∧
    markdown_bold prefix_delete_doc prefix_delete_doc.version 1 2
      = (DELETED_POSITION, prefix_delete_doc) :=
  ⟨by decide,
    (range_inside_pending_delete_rejected prefix_delete_doc ⟨edit_type.EDIT_DELETE, 0, [], 3⟩
      (by decide) rfl (by decide) 1 2 [] (by decide) (by decide) (by decide) (by decide)).1⟩

/-! ## Server and client on concrete ticks -/

/-- C11. The server document `server_doc_300` (chunks of 200 and 100 bytes) is
what two ticks build; a client that joins then holds `client_doc_300`: no
pending edits, the same flattened text and version, chunks of 256 and 44
bytes.  In the tick with alice's `INSERT 10 X` the server puts `X` at
position 10; the client, ingesting the block, puts it at position 256, and
the two texts differ at version 3. -/
theorem C11_replica_diverges_on_full_chunk :
    ((broadcast_tick markdown_init
        [⟨bytes "alice", bytes "write", bytes "INSERT 0 " ++ List.replicate 200 97, 0, ⟨1, 0⟩⟩]).bind
      (fun r => broadcast_tick r.2
        [⟨bytes "alice", bytes "write", bytes "INSERT 200 " ++ List.replicate 100 98, 1,
          ⟨2, 0⟩⟩])).map (fun r => r.2) = some server_doc_300 ∧
    apply_broadcasts (broadcast_block server_doc_300 [])
        (client_init (markdown_flatten server_doc_300) server_doc_300.version)
      = some client_doc_300 ∧
    client_doc_300.pending = [] ∧
    markdown_flatten client_doc_300 = markdown_flatten server_doc_300 ∧
    client_doc_300.version = server_doc_300.version ∧
    (broadcast_tick server_doc_300 [queued_by "alice" "write" "INSERT 10 X" 2 3 0]).map
        (fun r => (r.1.map (fun e => e.line), markdown_flatten r.2, r.2.version))
      = some ([some (bytes "EDIT alice INSERT 10 X SUCCESS")],
          List.replicate 10 97 ++ 88 :: (List.replicate 190 97 ++ List.replicate 100 98), 3) ∧
    (broadcast_tick server_doc_300 [queued_by "alice" "write" "INSERT 10 X" 2 3 0]).bind
        (fun r => (written_lines r.1).map (broadcast_block r.2))
      = some [bytes "VERSION 3\n", bytes "EDIT alice INSERT 10 X SUCCESS\n", bytes "END\n"] ∧
    (apply_broadcasts
        [bytes "VERSION 3\n", bytes "EDIT alice INSERT 10 X SUCCESS\n", bytes "END\n"]
        client_doc_300).map (fun d => (markdown_flatten d, d.version, d.pending))
      = some (List.replicate 200 97 ++ List.replicate 56 98 ++ 88 :: List.replicate 44 98,
          3, []) := by
  decide

/-! ## Sorting the command queue -/

theorem compare_timestamps_pos_iff (a b : queued_command) :
    compare_timestamps a.timestamp b.timestamp > 0 ↔ ¬ spec_not_later a b := by
  unfold compare_timestamps spec_not_later
  split_ifs <;> constructor <;> intro h <;> omega

theorem spec_not_later_trans {a b c : queued_command} (h1 : spec_not_later a b)
    (h2 : spec_not_later b c) : spec_not_later a c := by
  unfold spec_not_later at *
  omega

theorem spec_not_later_of_not {a b : queued_command} (h : ¬ spec_not_later a b) :
    spec_not_later b a := by
  unfold spec_not_later at *
  omega

/-- One run of the inner loop leaves in node `i` a command that is not later
than any other, and only moves commands around. -/
theorem sort_inner_spec (rest : List queued_command) :
    ∀ i : queued_command,
      ((sort_inner i rest).1 :: (sort_inner i rest).2).Perm (i :: rest) ∧
      spec_not_later (sort_inner i rest).1 i ∧
      ∀ x ∈ (sort_inner i rest).2, spec_not_later (sort_inner i rest).1 x := by
  induction rest with
  | nil =>
    intro i
    simp [sort_inner, spec_not_later]
  | cons j rest ih =>
    intro i
    by_cases hc : compare_timestamps i.timestamp j.timestamp > 0
    · obtain ⟨hp, hle, hall⟩ := ih j
      have hji : spec_not_later j i :=
        spec_not_later_of_not ((compare_timestamps_pos_iff i j).mp hc)
      simp only [sort_inner, if_pos hc]
      refine ⟨?_, spec_not_later_trans hle hji, ?_⟩
      · exact (List.Perm.swap i _ _).trans (hp.cons i)
      · intro x hx
        rcases List.mem_cons.mp hx with rfl | hx
        · exact spec_not_later_trans hle hji
        · exact hall x hx
    · obtain ⟨hp, hle, hall⟩ := ih i
      have hij : spec_not_later i j := by
        by_contra hn
        exact hc ((compare_timestamps_pos_iff i j).mpr hn)
      simp only [sort_inner, if_neg hc]
      refine ⟨?_, hle, ?_⟩
      · exact (List.Perm.swap j _ _).trans ((hp.cons j).trans (List.Perm.swap i j rest))
      · intro x hx
        rcases List.mem_cons.mp hx with rfl | hx
        · exact spec_not_later_trans hle hij
        · exact hall x hx

theorem sort_outer_spec :
    ∀ (fuel : Nat) (queue : List queued_command), queue.length ≤ fuel →
      (sort_outer fuel queue).Perm queue ∧
      (sort_outer fuel queue).Pairwise spec_not_later := by
  intro fuel
  induction fuel with
  | zero =>
    intro queue h
    have hq : queue = [] := List.eq_nil_of_length_eq_zero (by omega)
    subst hq
    simp [sort_outer]
  | succ f ih =>
    intro queue h
    cases queue with
    | nil => simp [sort_outer]
    | cons i rest =>
      obtain ⟨hp, _, hall⟩ := sort_inner_spec rest i
      have hlen : (sort_inner i rest).2.length ≤ f := by
        have := hp.length_eq
        simp only [List.length_cons] at this h
        omega
      obtain ⟨hp2, hs2⟩ := ih (sort_inner i rest).2 hlen
      simp only [sort_outer]
      refine ⟨(hp2.cons _).trans hp, List.pairwise_cons.mpr ⟨?_, hs2⟩⟩
      intro x hx
      exact hall x (hp2.subset hx)

theorem sort_inner_sorted (rest : List queued_command) :
    ∀ i : queued_command, (∀ x ∈ rest, spec_not_later i x) → sort_inner i rest = (i, rest) := by
  induction rest with
  | nil =>
    intro i _
    rfl
  | cons j rest ih =>
    intro i h
    have hc : ¬ compare_timestamps i.timestamp j.timestamp > 0 := by
      intro hc
      exact (compare_timestamps_pos_iff i j).mp hc (h j (by simp))
    simp only [sort_inner, if_neg hc, ih i (fun x hx => h x (by simp [hx]))]

theorem sort_outer_sorted :
    ∀ (fuel : Nat) (queue : List queued_command), queue.Pairwise spec_not_later →
      sort_outer fuel queue = queue := by
  intro fuel
  induction fuel with
  | zero =>
    intro queue _
    cases queue <;> rfl
  | succ f ih =>
    intro queue h
    cases queue with
    | nil => rfl
    | cons i rest =>
      obtain ⟨h1, h2⟩ := List.pairwise_cons.mp h
      simp only [sort_outer, sort_inner_sorted rest i h1, ih rest h2]


/-! ## The primitives only touch the pending queue -/

theorem markdown_insert_frame (doc : document) (version pos : Nat) (text : List Nat) :
    (markdown_insert doc version pos text).2.chunks = doc.chunks ∧
    (markdown_insert doc version pos text).2.version = doc.version ∧
    (markdown_insert doc version pos text).2.length = doc.length := by
  unfold markdown_insert
  split_ifs <;> exact ⟨rfl, rfl, rfl⟩

theorem markdown_delete_frame (doc : document) (version pos len : Nat) :
    (markdown_delete doc version pos len).2.chunks = doc.chunks ∧
    (markdown_delete doc version pos len).2.version = doc.version ∧
    (markdown_delete doc version pos len).2.length = doc.length := by
  unfold markdown_delete
  split_ifs <;> exact ⟨rfl, rfl, rfl⟩

theorem renumber_loop_frame :
    ∀ (fuel renumber cursor : Nat) (doc : document),
      (renumber_loop fuel renumber cursor doc).chunks = doc.chunks ∧
      (renumber_loop fuel renumber cursor doc).version = doc.version ∧
      (renumber_loop fuel renumber cursor doc).length = doc.length := by
  intro fuel
  induction fuel with
  | zero =>
    intro renumber cursor doc
    exact ⟨rfl, rfl, rfl⟩
  | succ f ih =>
    intro renumber cursor doc
    unfold renumber_loop
    split
    · simp only []
      generalize line_end (markdown_flatten doc) (doc.length - cursor) cursor = ls
      split
      · exact ⟨rfl, rfl, rfl⟩
      · split
        · exact ⟨rfl, rfl, rfl⟩
        · split
          · have hd := markdown_delete_frame doc doc.version (ls + 1) LIST_PREFIX_LEN
            generalize markdown_delete doc doc.version (ls + 1) LIST_PREFIX_LEN = rd at hd ⊢
            rcases rd with ⟨r1, doc1⟩
            simp only [] at hd ⊢
            split
            · exact hd
            · have hi := markdown_insert_frame doc1 doc1.version (ls + 1)
                (format_decimal renumber ++ [46, 32])
              generalize markdown_insert doc1 doc1.version (ls + 1)
                (format_decimal renumber ++ [46, 32]) = ri at hi ⊢
              rcases ri with ⟨r2, doc2⟩
              simp only [] at hi ⊢
              split
              · exact ⟨hi.1.trans hd.1, hi.2.1.trans hd.2.1, hi.2.2.trans hd.2.2⟩
              · obtain ⟨a1, a2, a3⟩ := ih (renumber + 1)
                  (ls + 1 + (format_decimal renumber ++ [46, 32]).length) doc2
                exact ⟨a1.trans (hi.1.trans hd.1), a2.trans (hi.2.1.trans hd.2.1),
                  a3.trans (hi.2.2.trans hd.2.2)⟩
          · exact ⟨rfl, rfl, rfl⟩
    · exact ⟨rfl, rfl, rfl⟩

theorem markdown_ordered_list_frame (doc : document) (version pos : Nat) :
    (markdown_ordered_list doc version pos).2.chunks = doc.chunks ∧
    (markdown_ordered_list doc version pos).2.version = doc.version ∧
    (markdown_ordered_list doc version pos).2.length = doc.length := by
  unfold markdown_ordered_list
  split
  · exact ⟨rfl, rfl, rfl⟩
  · split
    · exact ⟨rfl, rfl, rfl⟩
    · simp only []
      split
      · exact ⟨rfl, rfl, rfl⟩
      · split
        · exact ⟨rfl, rfl, rfl⟩
        · generalize hpre : (if needs_preceding_newline doc
              (adjust_single_position_if_deleted pos (build_deleted_ranges doc.pending)) = true
            then 10 :: (format_decimal (scan_list_number (markdown_flatten doc)
                (line_begin (markdown_flatten doc)
                  (adjust_single_position_if_deleted pos (build_deleted_ranges doc.pending)))
                (line_begin (markdown_flatten doc)
                  (adjust_single_position_if_deleted pos (build_deleted_ranges doc.pending))))
                ++ [46, 32])
            else format_decimal (scan_list_number (markdown_flatten doc)
                (line_begin (markdown_flatten doc)
                  (adjust_single_position_if_deleted pos (build_deleted_ranges doc.pending)))
                (line_begin (markdown_flatten doc)
                  (adjust_single_position_if_deleted pos (build_deleted_ranges doc.pending))))
                ++ [46, 32]) = pre
          have hi := markdown_insert_frame doc version
            (adjust_single_position_if_deleted pos (build_deleted_ranges doc.pending)) pre
          generalize markdown_insert doc version
            (adjust_single_position_if_deleted pos (build_deleted_ranges doc.pending)) pre
            = ri at hi ⊢
          rcases ri with ⟨r, doc1⟩
          simp only [] at hi ⊢
          split
          · exact hi
          · obtain ⟨a1, a2, a3⟩ := renumber_loop_frame (MAX_LIST_ITEM_NUMBER + 1)
              (scan_list_number (markdown_flatten doc)
                (line_begin (markdown_flatten doc)
                  (adjust_single_position_if_deleted pos (build_deleted_ranges doc.pending)))
                (line_begin (markdown_flatten doc)
                  (adjust_single_position_if_deleted pos (build_deleted_ranges doc.pending)))
                + 1)
              (adjust_single_position_if_deleted pos (build_deleted_ranges doc.pending)
                + pre.length) doc1
            exact ⟨a1.trans hi.1, a2.trans hi.2.1, a3.trans hi.2.2⟩

/-- A primitive changes neither the chunks, nor the version, nor the length
of the document: whatever it does, it does to the pending queue. -/
theorem call_frame (doc : document) (version : Nat) (p : primitive) :
    (call doc version p).2.chunks = doc.chunks ∧
    (call doc version p).2.version = doc.version ∧
    (call doc version p).2.length = doc.length := by
  obtain ⟨r1, r2⟩ := call_rejects doc version p
  by_cases hi : spec_args_invalid doc p
  · rw [r1 hi]
    exact ⟨rfl, rfl, rfl⟩
  · by_cases hv : version = doc.version
    · subst hv
      cases p with
      | insert pos text => exact markdown_insert_frame doc doc.version pos text
      | delete pos len => exact markdown_delete_frame doc doc.version pos len
      | newline pos =>
        simp only [spec_args_invalid, not_lt] at hi
        simp only [call, markdown_newline_eq doc pos hi]
        exact ⟨rfl, rfl, rfl⟩
      | heading level pos =>
        simp only [spec_args_invalid] at hi
        simp only [call, markdown_heading_eq doc level pos (by simpa [MAX_HEADING_LEVEL] using hi)]
        exact ⟨rfl, rfl, rfl⟩
      | blockquote pos =>
        simp only [spec_args_invalid, not_lt] at hi
        simp only [call, markdown_blockquote_eq doc pos hi]
        exact ⟨rfl, rfl, rfl⟩
      | ordered_list pos => exact markdown_ordered_list_frame doc doc.version pos
      | unordered_list pos =>
        simp only [spec_args_invalid, not_lt] at hi
        simp only [call, markdown_unordered_list_eq doc pos hi]
        exact ⟨rfl, rfl, rfl⟩
      | horizontal_rule pos =>
        simp only [spec_args_invalid, not_lt] at hi
        simp only [call, markdown_horizontal_rule_eq doc pos hi]
        exact ⟨rfl, rfl, rfl⟩
      | bold start stop =>
        simp only [spec_args_invalid] at hi
        simp only [call, markdown_bold_eq doc start stop hi]
        split_ifs <;> exact ⟨rfl, rfl, rfl⟩
      | italic start stop =>
        simp only [spec_args_invalid] at hi
        simp only [call, markdown_italic_eq doc start stop hi]
        split_ifs <;> exact ⟨rfl, rfl, rfl⟩
      | code start stop =>
        simp only [spec_args_invalid] at hi
        simp only [call, markdown_code_eq doc start stop hi]
        split_ifs <;> exact ⟨rfl, rfl, rfl⟩
      | link start stop url =>
        simp only [spec_args_invalid] at hi
        simp only [call, markdown_link_eq doc start stop url hi]
        split_ifs <;> exact ⟨rfl, rfl, rfl⟩
    · rw [r2 hi hv]
      exact ⟨rfl, rfl, rfl⟩

theorem process_command_frame (doc : document) (command_str : List Nat) (version : Nat) :
    (process_command doc command_str version).2.chunks = doc.chunks ∧
    (process_command doc command_str version).2.version = doc.version ∧
    (process_command doc command_str version).2.length = doc.length := by
  unfold process_command
  cases parse_command command_str with
  | none => exact ⟨rfl, rfl, rfl⟩
  | some p => exact call_frame doc version p
/-! ## One tick of the broadcast thread -/

theorem sort_command_queue_perm (queue : List queued_command) :
    (sort_command_queue queue).Perm queue := by
  unfold sort_command_queue
  split
  · exact List.Perm.refl _
  · exact (sort_outer_spec _ queue (Nat.le_refl _)).1

/-- A command is a success only when it carries the document's version. -/
theorem process_command_success_version (doc : document) (command_str : List Nat)
    (version : Nat) (h : (process_command doc command_str version).1 = SUCCESS) :
    version = doc.version := by
  unfold process_command at h
  cases hp : parse_command command_str with
  | none =>
    rw [hp] at h
    simp [UNKNOWN_COMMAND, SUCCESS] at h
  | some p =>
    rw [hp] at h
    simp only [] at h
    obtain ⟨r1, r2⟩ := call_rejects doc version p
    by_contra hv
    by_cases hi : spec_args_invalid doc p
    · rw [r1 hi] at h
      simp [INVALID_CURSOR_POS, SUCCESS] at h
    · rw [r2 hi hv] at h
      simp [OUTDATED_VERSION, SUCCESS] at h

/-- The line `Reject OUTDATED_VERSION` fits the buffer of 256 bytes while user
name and command together have at most 225 bytes. -/
theorem format_log_line_outdated (username command : List Nat)
    (h : username.length + command.length ≤ 225) :
    format_log_line username command "Reject OUTDATED_VERSION"
      = bytes "EDIT " ++ username ++ [32] ++ command ++ bytes " Reject OUTDATED_VERSION" := by
  have h24 : (bytes " Reject OUTDATED_VERSION").length = 24 := by decide
  have h5 : (bytes "EDIT ").length = 5 := by decide
  have hsplit : bytes "EDIT " ++ username ++ [32] ++ command ++ [32]
      ++ bytes "Reject OUTDATED_VERSION"
      = bytes "EDIT " ++ username ++ [32] ++ command ++ bytes " Reject OUTDATED_VERSION" := by
    have : bytes " Reject OUTDATED_VERSION" = [32] ++ bytes "Reject OUTDATED_VERSION" := by
      decide
    rw [this]
    simp only [List.append_assoc]
  simp only [format_log_line, snprintf, hsplit, LINE_LEN]
  rw [List.take_of_length_le]
  simp only [List.length_append, h24, h5, List.length_singleton]
  omega

/-- A command that carries another version than the document's leaves the
document as it is, and the line of its entry is: `Reject UNAUTHORISED` for the
role `"read"`; otherwise nothing written for a command of none of the twelve
forms, `Reject INVALID_POSITION` for invalid arguments and
`Reject OUTDATED_VERSION` for valid ones. -/
theorem process_queued_stale (doc : document) (x : queued_command)
    (h : x.client_version ≠ doc.version) :
    ∃ b, process_queued doc x = some (b, doc) ∧
      (x.role = bytes "read" →
        log_line x.username x.command_str b = some (format_log_line x.username x.command_str "Reject UNAUTHORISED")) ∧
      (x.role ≠ bytes "read" →
        (process_command doc x.command_str x.client_version).1 ≠ SUCCESS ∧
        (process_command doc x.command_str x.client_version).2 = doc ∧
        (parse_command x.command_str = none → log_line x.username x.command_str b = none) ∧
        ∀ p, parse_command x.command_str = some p →
          (spec_args_invalid doc p →
            log_line x.username x.command_str b = some (format_log_line x.username x.command_str "Reject INVALID_POSITION")) ∧
          (¬ spec_args_invalid doc p →
            (process_command doc x.command_str x.client_version).1 = OUTDATED_VERSION ∧
            log_line x.username x.command_str b = some (format_log_line x.username x.command_str "Reject OUTDATED_VERSION") ∧
            (x.username.length + x.command_str.length ≤ 225 →
              log_line x.username x.command_str b = some (bytes "EDIT " ++ x.username ++ [32] ++ x.command_str
                ++ bytes " Reject OUTDATED_VERSION")))) := by
  unfold process_queued
  by_cases hr : x.role = bytes "read"
  · rw [if_pos hr]
    exact ⟨_, rfl, fun _ => rfl, fun hc => absurd hr hc⟩
  · rw [if_neg hr]
    cases hp : parse_command x.command_str with
    | none =>
      have hpc : process_command doc x.command_str x.client_version
          = (UNKNOWN_COMMAND, doc) := by
        simp only [process_command, hp]
      rw [hpc]
      refine ⟨log_branch.unwritten,
        by simp [UNKNOWN_COMMAND, SUCCESS, INVALID_CURSOR_POS, DELETED_POSITION, OUTDATED_VERSION],
        fun hc => absurd hc hr, fun _ => ⟨by simp [UNKNOWN_COMMAND, SUCCESS], rfl,
          fun _ => rfl, ?_⟩⟩
      intro p hp2
      exact absurd hp2 (by simp)
    | some p =>
      have hpc : process_command doc x.command_str x.client_version
          = call doc x.client_version p := by
        simp only [process_command, hp]
      rw [hpc]
      obtain ⟨r1, r2⟩ := call_rejects doc x.client_version p
      by_cases hi : spec_args_invalid doc p
      · rw [r1 hi]
        refine ⟨log_branch.invalid_position,
          by simp [UNKNOWN_COMMAND, SUCCESS, INVALID_CURSOR_POS, DELETED_POSITION, OUTDATED_VERSION],
          fun hc => absurd hc hr, fun _ => ⟨by simp [INVALID_CURSOR_POS, SUCCESS], rfl,
            fun hn => absurd hn (by simp), ?_⟩⟩
        intro q hq
        simp only [Option.some.injEq] at hq
        subst hq
        exact ⟨fun _ => rfl, fun hn => absurd hi hn⟩
      · rw [r2 hi h]
        refine ⟨log_branch.outdated_version,
          by simp [UNKNOWN_COMMAND, SUCCESS, INVALID_CURSOR_POS, DELETED_POSITION, OUTDATED_VERSION],
          fun hc => absurd hc hr, fun _ => ⟨by simp [OUTDATED_VERSION, SUCCESS], rfl,
            fun hn => absurd hn (by simp), ?_⟩⟩
        intro q hq
        simp only [Option.some.injEq] at hq
        subst hq
        refine ⟨fun hy => absurd hy hi, fun _ => ⟨rfl, rfl, fun hlen => ?_⟩⟩
        simp only [log_line, format_log_line_outdated x.username x.command_str hlen]

/-- The commands behind a commit: the document stays as it is, and entry by
entry the lines are those of rejections. -/
theorem process_queue_stale :
    ∀ (rest : List queued_command) (doc : document),
      (∀ c ∈ rest, c.client_version ≠ doc.version) →
      ∃ entries, process_queue rest doc = some (entries, doc) ∧
        List.Forall₂ (fun x e =>
          (x.role = bytes "read" →
            e.line = some (format_log_line x.username x.command_str "Reject UNAUTHORISED")) ∧
          (x.role ≠ bytes "read" →
            (process_command doc x.command_str x.client_version).1 ≠ SUCCESS ∧
            (process_command doc x.command_str x.client_version).2 = doc ∧
            (parse_command x.command_str = none → e.line = none) ∧
            ∀ p, parse_command x.command_str = some p →
              (spec_args_invalid doc p →
                e.line = some (format_log_line x.username x.command_str "Reject INVALID_POSITION")) ∧
              (¬ spec_args_invalid doc p →
                (process_command doc x.command_str x.client_version).1 = OUTDATED_VERSION ∧
                e.line = some (format_log_line x.username x.command_str "Reject OUTDATED_VERSION") ∧
                (x.username.length + x.command_str.length ≤ 225 →
                  e.line = some (bytes "EDIT " ++ x.username ++ [32] ++ x.command_str
                    ++ bytes " Reject OUTDATED_VERSION")))))
          rest entries := by
  intro rest
  induction rest with
  | nil =>
    intro doc _
    exact ⟨[], rfl, List.Forall₂.nil⟩
  | cons c rest ih =>
    intro doc h
    obtain ⟨b, hb, h1, h2⟩ := process_queued_stale doc c (h c (by simp))
    obtain ⟨es, hes, hall⟩ := ih doc (fun x hx => h x (by simp [hx]))
    refine ⟨⟨c, b, log_line c.username c.command_str b⟩ :: es, ?_,
      List.Forall₂.cons ⟨h1, h2⟩ hall⟩
    simp only [process_queue, hb, hes]

/-- One queued command: either it succeeds and is committed, or the version
stays; the chunks stay within capacity. -/
theorem process_queued_cases (doc : document) (cmd : queued_command)
    (hw : chunks_wf doc.chunks) :
    ∃ b d1, process_queued doc cmd = some (b, d1) ∧ chunks_wf d1.chunks ∧
      ((b = log_branch.success ∧ d1.version = (doc.version + 1) % SIZE_MOD) ∨
        (b ≠ log_branch.success ∧ d1.version = doc.version)) := by
  unfold process_queued
  by_cases hr : cmd.role = bytes "read"
  · rw [if_pos hr]
    exact ⟨_, _, rfl, hw, Or.inr ⟨by decide, rfl⟩⟩
  · rw [if_neg hr]
    obtain ⟨f1, f2, _⟩ := process_command_frame doc cmd.command_str cmd.client_version
    generalize process_command doc cmd.command_str cmd.client_version = r at f1 f2 ⊢
    have hw1 : chunks_wf r.2.chunks := by rw [f1]; exact hw
    by_cases h0 : r.1 = SUCCESS
    · rw [if_pos h0]
      obtain ⟨d, a1, a2, _, _, a5⟩ := increment_version_total r.2 hw1
      rw [a1]
      exact ⟨_, _, rfl, a2, Or.inl ⟨rfl, by rw [a5, f2]⟩⟩
    · rw [if_neg h0]
      split_ifs <;> exact ⟨_, _, rfl, hw1, Or.inr ⟨by decide, f2⟩⟩

/-- The loop over a queue passes through the document the loop over a front
part of the queue ends with. -/
theorem process_queue_append :
    ∀ (pre post : List queued_command) (doc dm d1 : document) (es rest : List log_entry),
      process_queue pre doc = some (es, dm) → process_queue post dm = some (rest, d1) →
      process_queue (pre ++ post) doc = some (es ++ rest, d1) := by
  intro pre
  induction pre with
  | nil =>
    intro post doc dm d1 es rest h1 h2
    simp only [process_queue, Option.some.injEq, Prod.mk.injEq] at h1
    obtain ⟨rfl, rfl⟩ := h1
    simpa using h2
  | cons c pre1 ih =>
    intro post doc dm d1 es rest h1 h2
    simp only [List.cons_append, process_queue] at h1 ⊢
    cases hq : process_queued doc c with
    | none => rw [hq] at h1; simp at h1
    | some r =>
      obtain ⟨b, dd⟩ := r
      rw [hq] at h1
      simp only [] at h1 ⊢
      cases hr : process_queue pre1 dd with
      | none => rw [hr] at h1; simp at h1
      | some r2 =>
        obtain ⟨es1, dm1⟩ := r2
        rw [hr] at h1
        simp only [Option.some.injEq, Prod.mk.injEq] at h1
        obtain ⟨rfl, rfl⟩ := h1
        have hi := ih post dd dm1 d1 es1 rest hr h2
        simp only [List.append_eq, hi, List.cons_append]

/-- A tick on commands that all carry the document's version returns, and the
version stays or grows by one. -/
theorem process_queue_fresh :
    ∀ (queue : List queued_command) (doc : document),
      chunks_wf doc.chunks → doc.version < SIZE_MOD →
      (∀ c ∈ queue, c.client_version = doc.version) →
      ∃ entries d, process_queue queue doc = some (entries, d) ∧ chunks_wf d.chunks ∧
        (d.version = doc.version ∨ d.version = (doc.version + 1) % SIZE_MOD) := by
  intro queue
  induction queue with
  | nil =>
    intro doc hw _ _
    exact ⟨[], doc, rfl, hw, Or.inl rfl⟩
  | cons c rest ih =>
    intro doc hw hv hq
    obtain ⟨b, d1, hb, hw1, hcase⟩ := process_queued_cases doc c hw
    rcases hcase with ⟨_, hver⟩ | ⟨_, hver⟩
    · have hne : (doc.version + 1) % SIZE_MOD ≠ doc.version := by
        simp only [SIZE_MOD] at hv ⊢
        omega
      obtain ⟨es, hes, _⟩ := process_queue_stale rest d1 (by
        intro x hx
        rw [hq x (by simp [hx]), hver]
        exact fun hc => hne hc.symm)
      refine ⟨⟨c, b, log_line c.username c.command_str b⟩ :: es, d1, ?_, hw1, Or.inr hver⟩
      simp only [process_queue, hb, hes]
    · obtain ⟨es, d, hes, hwd, hd⟩ := ih d1 hw1 (by rw [hver]; exact hv) (by
        intro x hx
        rw [hq x (by simp [hx]), hver])
      rw [hver] at hd
      refine ⟨⟨c, b, log_line c.username c.command_str b⟩ :: es, d, ?_, hwd, hd⟩
      simp only [process_queue, hb, hes]

/-- In one tick whose queued commands all carry the document version at the
start of the tick, on a document whose chunks are within capacity: the tick
returns and the document version stays or becomes `(version + 1) mod 2^64`.
When a command of the sorted queue is dispatched and `process_command`
returns `SUCCESS` for it, the commit that follows gives the document the tick
ends with; for every command behind it, dispatched on that document,
`process_command` does not return `SUCCESS` and changes nothing, and the line
of its entry is `Reject UNAUTHORISED` for the role `"read"`, not written for a
command of none of the twelve forms, `Reject INVALID_POSITION` for invalid
arguments and `Reject OUTDATED_VERSION` for valid ones, as `snprintf` leaves
it in the buffer of 256 bytes: in full when user name and command together
have at most 225 bytes. -/
theorem tick_commits_after_first_success (doc : document) (cmd_queue : List queued_command)
    (hw : chunks_wf doc.chunks) (hv : doc.version < SIZE_MOD)
    (hq : ∀ c ∈ cmd_queue, c.client_version = doc.version) :
    ∃ entries d, broadcast_tick doc cmd_queue = some (entries, d) ∧
      (d.version = doc.version ∨ d.version = (doc.version + 1) % SIZE_MOD) ∧
      ∀ pre cmd post, sort_command_queue cmd_queue = pre ++ cmd :: post →
        ∃ es dm, process_queue pre doc = some (es, dm) ∧
          (cmd.role ≠ bytes "read" →
            (process_command dm cmd.command_str cmd.client_version).1 = SUCCESS →
            dm.version = doc.version ∧
            markdown_increment_version
              (process_command dm cmd.command_str cmd.client_version).2 = some d ∧
            d.version = (doc.version + 1) % SIZE_MOD ∧
            ∃ rest, process_queue post d = some (rest, d) ∧
              entries = es ++ ⟨cmd, log_branch.success,
                some (format_log_line cmd.username cmd.command_str "SUCCESS")⟩ :: rest ∧
              List.Forall₂ (fun x e =>
                (x.role = bytes "read" →
                  e.line = some (format_log_line x.username x.command_str "Reject UNAUTHORISED")) ∧
                (x.role ≠ bytes "read" →
                  (process_command d x.command_str x.client_version).1 ≠ SUCCESS ∧
                  (process_command d x.command_str x.client_version).2 = d ∧
                  (parse_command x.command_str = none → e.line = none) ∧
                  ∀ p, parse_command x.command_str = some p →
                    (spec_args_invalid d p →
                      e.line = some (format_log_line x.username x.command_str "Reject INVALID_POSITION")) ∧
                    (¬ spec_args_invalid d p →
                      (process_command d x.command_str x.client_version).1 = OUTDATED_VERSION ∧
                      e.line = some (format_log_line x.username x.command_str "Reject OUTDATED_VERSION") ∧
                      (x.username.length + x.command_str.length ≤ 225 →
                        e.line = some (bytes "EDIT " ++ x.username ++ [32] ++ x.command_str
                          ++ bytes " Reject OUTDATED_VERSION")))))
                post rest) := by
  have hq1 : ∀ c ∈ sort_command_queue cmd_queue, c.client_version = doc.version :=
    fun c hc => hq c ((sort_command_queue_perm cmd_queue).subset hc)
  obtain ⟨entries, d, a1, _, a3⟩ := process_queue_fresh (sort_command_queue cmd_queue) doc hw hv hq1
  refine ⟨entries, d, a1, a3, ?_⟩
  intro pre cmd post hsplit
  have hq2 : ∀ c ∈ pre ++ cmd :: post, c.client_version = doc.version := by
    rw [← hsplit]
    exact hq1
  obtain ⟨es, dm, b1, b2, _⟩ := process_queue_fresh pre doc hw hv
    (fun c hc => hq2 c (by simp [hc]))
  refine ⟨es, dm, b1, ?_⟩
  intro hr hs
  have hvm : cmd.client_version = dm.version :=
    process_command_success_version dm cmd.command_str cmd.client_version hs
  have hdm : dm.version = doc.version := by
    rw [← hvm]
    exact hq2 cmd (by simp)
  obtain ⟨f1, f2, _⟩ := process_command_frame dm cmd.command_str cmd.client_version
  obtain ⟨d2, c1, _, _, _, c5⟩ := increment_version_total
    (process_command dm cmd.command_str cmd.client_version).2 (by rw [f1]; exact b2)
  have hd2 : d2.version = (doc.version + 1) % SIZE_MOD := by
    rw [c5, f2, hdm]
  have hne : (doc.version + 1) % SIZE_MOD ≠ doc.version := by
    simp only [SIZE_MOD] at hv ⊢
    omega
  obtain ⟨rest, e1, e2⟩ := process_queue_stale post d2 (by
    intro x hx
    rw [hq2 x (by simp [hx]), hd2]
    exact fun hc => hne hc.symm)
  have hstep : process_queue (cmd :: post) dm
      = some (⟨cmd, log_branch.success,
          some (format_log_line cmd.username cmd.command_str "SUCCESS")⟩ :: rest, d2) := by
    simp only [process_queue, process_queued, if_neg hr, if_pos hs, c1, Option.map_some', e1,
      log_line]
  have hall := process_queue_append pre (cmd :: post) doc dm d2 es _ b1 hstep
  rw [← hsplit] at hall
  have a1b : process_queue (sort_command_queue cmd_queue) doc = some (entries, d) := a1
  rw [hall] at a1b
  simp only [Option.some.injEq, Prod.mk.injEq] at a1b
  obtain ⟨hent, rfl⟩ := a1b
  exact ⟨hdm, c1, hd2, rest, e1, hent.symm, e2⟩

/-- Witness: alice's `INSERT 0 AB` and bob's `INSERT 0 CD` in one tick on the
empty document: alice is logged `SUCCESS`, bob `Reject OUTDATED_VERSION`, and
the document is `"AB"` at version 1. -/
theorem tick_commits_after_first_success_witness :
    chunks_wf markdown_init.chunks ∧ markdown_init.version < SIZE_MOD ∧
    (∀ c ∈ alice_bob_queue, c.client_version = markdown_init.version) ∧
    (∃ entries d, broadcast_tick markdown_init alice_bob_queue = some (entries, d) ∧
      (d.version = markdown_init.version ∨
        d.version = (markdown_init.version + 1) % SIZE_MOD)) ∧
    (broadcast_tick markdown_init alice_bob_queue).map
        (fun r => (r.1.map (fun e => e.line), markdown_flatten r.2, r.2.version))
      = some ([some (bytes "EDIT alice INSERT 0 AB SUCCESS"),
          some (bytes "EDIT bob INSERT 0 CD Reject OUTDATED_VERSION")], bytes "AB", 1) := by
  refine ⟨by decide, by decide, by decide, ?_, by decide⟩
  obtain ⟨entries, d, h1, h2, _⟩ :=
    tick_commits_after_first_success markdown_init alice_bob_queue (by decide) (by decide)
      (by decide)
  exact ⟨entries, d, h1, h2⟩

/-- C12 (evaluation at the failing input).  In the tick of alice's
`INSERT 0 AB` and bob's insert of 249 bytes, both carrying version 0, alice
is committed and bob's command, a write with valid arguments, gets
`OUTDATED_VERSION` from `process_command`; its line has 282 bytes and the
buffer of 256 keeps 255 of them, so the line logged ends inside the command
text and carries no `Reject OUTDATED_VERSION`.  In the tick of alice's
`INSERT 0 AB` and bob's `FOO` no branch writes the line of bob's entry: the
entry is built from the buffer, declared without an initialiser, as it is.
With alice's `INSERT 0 AB` and bob's `INSERT 0 CD` the lines are `SUCCESS` and
`Reject OUTDATED_VERSION` in full. -/
theorem C12_later_line_lacks_its_outcome :
    (∀ c ∈ alice_long_bob_queue, c.client_version = markdown_init.version) ∧
    (broadcast_tick markdown_init [queued_by "alice" "write" "INSERT 0 AB" 0 1 0]).map
        (fun r => r.2) = some alice_committed_doc ∧
    alice_committed_doc.length = 2 ∧
    process_command alice_committed_doc long_insert_command 0
      = (OUTDATED_VERSION, alice_committed_doc) ∧
    (bytes "EDIT bob " ++ long_insert_command ++ bytes " Reject OUTDATED_VERSION").length
      = 282 ∧
    (broadcast_tick markdown_init alice_long_bob_queue).map
        (fun r => (r.1.map (fun e => (e.branch, e.line)), r.2))
      = some ([(log_branch.success, some (bytes "EDIT alice INSERT 0 AB SUCCESS")),
          (log_branch.outdated_version,
            some (bytes "EDIT bob INSERT 0 " ++ List.replicate 237 120))],
          alice_committed_doc) ∧
    (broadcast_tick markdown_init alice_foo_queue).map
        (fun r => (r.1.map (fun e => (e.branch, e.line)), r.2))
      = some ([(log_branch.success, some (bytes "EDIT alice INSERT 0 AB SUCCESS")),
          (log_branch.unwritten, none)], alice_committed_doc) ∧
    (broadcast_tick markdown_init alice_bob_queue).map
        (fun r => (r.1.map (fun e => (e.branch, e.line)), r.2))
      = some ([(log_branch.success, some (bytes "EDIT alice INSERT 0 AB SUCCESS")),
          (log_branch.outdated_version,
            some (bytes "EDIT bob INSERT 0 CD Reject OUTDATED_VERSION"))],
          alice_committed_doc) := by
  refine ⟨by decide, by decide, by decide, by decide, by decide, by decide, by decide,
    by decide⟩

/-- C13. A command of role `"read"` is not dispatched and the short line is
logged in full; for the command line of 249 bytes the buffer of 256 bytes
keeps 255 bytes of the 280 the line has: the logged line ends inside the
command text and carries no `Reject UNAUTHORISED`. -/
theorem C13_unauthorised_line_is_truncated :
    (broadcast_tick abc_doc [queued_by "carol" "read" "INSERT 0 x" 0 1 0]).map
        (fun r => (r.1.map (fun e => e.line), r.2))
      = some ([some (bytes "EDIT carol INSERT 0 x Reject UNAUTHORISED")], abc_doc) ∧
    (bytes "EDIT carol " ++ long_insert_command ++ bytes " Reject UNAUTHORISED").length = 280 ∧
    (broadcast_tick abc_doc
        [⟨bytes "carol", bytes "read", long_insert_command, 0, ⟨1, 0⟩⟩]).map
        (fun r => (r.1.map (fun e => e.line), r.2))
      = some ([some (bytes "EDIT carol INSERT 0 " ++ List.replicate 235 120)], abc_doc) := by
  decide

/-- C14. For the write-role command `FOO`, which has none of the twelve forms,
`process_command` returns `UNKNOWN_COMMAND` and no branch of the result chain
writes `log_line`: the entry is built from the buffer as it was. -/
theorem C14_unknown_command_writes_no_line :
    process_command abc_doc (bytes "FOO") 0 = (UNKNOWN_COMMAND, abc_doc) ∧
    broadcast_tick abc_doc [queued_by "dave" "write" "FOO" 0 1 0]
      = some ([⟨queued_by "dave" "write" "FOO" 0 1 0, log_branch.unwritten, none⟩],
          abc_doc) := by
  decide

/-- C15. For the user `alice` and the accepted command line of 249 bytes the
outcome line has 268 bytes; the buffer keeps 255 of them: the logged line
ends inside the command text and carries no `SUCCESS`. -/
theorem C15_outcome_line_is_truncated :
    long_insert_command.length = 249 ∧
    (bytes "EDIT alice " ++ long_insert_command ++ bytes " SUCCESS").length = 268 ∧
    (broadcast_tick markdown_init
        [⟨bytes "alice", bytes "write", long_insert_command, 0, ⟨1, 0⟩⟩]).map
        (fun r => (r.1.map (fun e => (e.branch, e.line)), markdown_flatten r.2))
      = some ([(log_branch.success,
            some (bytes "EDIT alice INSERT 0 " ++ List.replicate 235 120))],
          List.replicate 240 120) := by
  decide

/-- C16. The server logs bob's successful `INSERT 0 A SUCCESS B` as
`EDIT bob INSERT 0 A SUCCESS B SUCCESS`; from that line the client dispatches
`INSERT 0 A`, the text in front of the first `" SUCCESS"`: it enqueues `"A"`
where the command enqueues `"A SUCCESS B"`. -/
theorem C16_command_cut_at_first_success :
    format_log_line (bytes "bob") (bytes "INSERT 0 A SUCCESS B") "SUCCESS"
      = bytes "EDIT bob INSERT 0 A SUCCESS B SUCCESS" ∧
    apply_edit_line abc_doc (bytes "EDIT bob INSERT 0 A SUCCESS B SUCCESS\n")
      = enqueue_insert abc_doc 0 (bytes "A") ∧
    (process_command abc_doc (bytes "INSERT 0 A SUCCESS B") abc_doc.version).2
      = enqueue_insert abc_doc 0 (bytes "A SUCCESS B") := by
  decide

/-- C17. A rejection line whose command contains the word `SUCCESS` is
dispatched: from `EDIT bob INSERT 0 x SUCCESS Reject OUTDATED_VERSION` the
client enqueues the insert of `"x"` at 0; a rejection line without the word
enqueues nothing. -/
theorem C17_reject_line_with_success_is_dispatched :
    format_log_line (bytes "bob") (bytes "INSERT 0 x SUCCESS") "Reject OUTDATED_VERSION"
      = bytes "EDIT bob INSERT 0 x SUCCESS Reject OUTDATED_VERSION" ∧
    apply_edit_line abc_doc (bytes "EDIT bob INSERT 0 x SUCCESS Reject OUTDATED_VERSION\n")
      = enqueue_insert abc_doc 0 (bytes "x") ∧
    apply_edit_line abc_doc (bytes "EDIT bob INSERT 0 x Reject OUTDATED_VERSION\n")
      = abc_doc := by
  decide

/-- C18. After the initialisation with the snapshot `"abc"` at version 7 the
text is only pending: the flattened document is empty and `length` is 0.  A
first block with `INSERT 3 x` is therefore validated against length 0 and
dropped, and the commit at `END` leaves `"abc"`. -/
theorem C18_snapshot_is_only_pending :
    client_init (bytes "abc") 7
      = { version := 7, length := 0, chunks := [],
          pending := [⟨edit_type.EDIT_INSERT, 0, bytes "abc", 0⟩] } ∧
    markdown_flatten (client_init (bytes "abc") 7) = [] ∧
    (process_command (client_init (bytes "abc") 7) (bytes "INSERT 3 x") 7).1
      = INVALID_CURSOR_POS ∧
    (apply_broadcasts
        [bytes "VERSION 8\n", bytes "EDIT alice INSERT 3 x SUCCESS\n", bytes "END\n"]
        (client_init (bytes "abc") 7)).map (fun d => (markdown_flatten d, d.length, d.version))
      = some (bytes "abc", 3, 8) := by
  decide


/-! ## Size of the text after a commit of inserts -/

theorem apply_inserts_size :
    ∀ (es : List edit) (offset : Nat) (doc : document), chunks_wf doc.chunks →
      ∃ d, apply_inserts es offset doc = some d ∧
        chunks_length d.chunks = chunks_length doc.chunks + inserts_size es := by
  intro es
  induction es with
  | nil =>
    intro offset doc _
    exact ⟨doc, rfl, by simp [inserts_size]⟩
  | cons e next ih =>
    intro offset doc hw
    obtain ⟨d1, a1, a2, _, a4, _, _⟩ := apply_insert_total doc (e.pos + offset) e.text hw
    obtain ⟨d2, b1, b2⟩ := ih (offset + e.text.length) d1 a2
    refine ⟨d2, ?_, ?_⟩
    · simp only [apply_inserts, a1, b1]
    · rw [b2, a4]
      simp only [inserts_size]
      omega

/-- A commit of a pending queue of inserts only, on chunks within capacity:
it returns, and the flattened text grows by the total size of the texts. -/
theorem commit_inserts_size (doc : document) (hw : chunks_wf doc.chunks)
    (hins : ∀ e ∈ doc.pending, e.type = edit_type.EDIT_INSERT) :
    ∃ d, markdown_increment_version doc = some d ∧
      (markdown_flatten d).length = (markdown_flatten doc).length + inserts_size doc.pending := by
  unfold markdown_increment_version
  rw [split_pending_inserts doc.pending [] [] hins]
  simp only [apply_deletes, List.append_nil]
  obtain ⟨d2, b1, b2⟩ := apply_inserts_size (sort_inserts doc.pending.reverse) 0 doc hw
  rw [b1]
  refine ⟨_, rfl, ?_⟩
  rw [flatten_length, flatten_length]
  simp only [b2]
  rw [inserts_size_perm (sort_inserts_spec doc.pending.reverse).1,
    inserts_size_perm (List.reverse_perm doc.pending)]

/-- Two markers of the same text enqueued on a document with nothing
pending, then the commit: the flattened text grows by twice the marker. -/
theorem commit_two_markers (doc : document) (a b : Nat) (m : List Nat)
    (hp : doc.pending = []) (hw : chunks_wf doc.chunks) :
    ∃ d, markdown_increment_version (enqueue_insert (enqueue_insert doc b m) a m) = some d ∧
      (markdown_flatten d).length = (markdown_flatten doc).length + 2 * m.length := by
  obtain ⟨d, h1, h2⟩ := commit_inserts_size (enqueue_insert (enqueue_insert doc b m) a m) hw
    (by
      intro e he
      simp only [enqueue_insert, hp, List.nil_append, List.cons_append, List.mem_cons,
        List.mem_singleton, List.not_mem_nil, or_false] at he
      rcases he with rfl | rfl <;> rfl)
  refine ⟨d, h1, ?_⟩
  rw [h2]
  simp only [enqueue_insert, hp, List.nil_append, List.cons_append, inserts_size, markdown_flatten]
  omega

/-- C19. On a document with nothing pending whose chunks are within capacity
(any chunk layout), for `s <= e <= length` and the document's own version:
bold, italic and code return `SUCCESS`, the commit that follows returns, and
the flattened text is 4, 2 and 2 bytes longer than before. -/
theorem C19_markers_add_twice_their_length (doc : document) (s e : Nat)
    (hp : doc.pending = []) (hw : chunks_wf doc.chunks) (hse : s ≤ e) (hel : e ≤ doc.length) :
    (∃ d1 d2, markdown_bold doc doc.version s e = (SUCCESS, d1) ∧
      markdown_increment_version d1 = some d2 ∧
      (markdown_flatten d2).length = (markdown_flatten doc).length + 4) ∧
    (∃ d1 d2, markdown_italic doc doc.version s e = (SUCCESS, d1) ∧
      markdown_increment_version d1 = some d2 ∧
      (markdown_flatten d2).length = (markdown_flatten doc).length + 2) ∧
    (∃ d1 d2, markdown_code doc doc.version s e = (SUCCESS, d1) ∧
      markdown_increment_version d1 = some d2 ∧
      (markdown_flatten d2).length = (markdown_flatten doc).length + 2) := by
  have hargs : ¬ (s > e ∨ e > doc.length) := by omega
  have hnot : is_fully_within_deleted s e (build_deleted_ranges doc.pending) = false := by
    rw [hp]
    rfl
  have hadj : adjust_partially_deleted s e (build_deleted_ranges doc.pending) = (s, e) := by
    rw [hp]
    rfl
  have h1 : ¬ e > doc.length := by omega
  have h2 : ¬ s > doc.length := by omega
  refine ⟨?_, ?_, ?_⟩
  · obtain ⟨d, c1, c2⟩ := commit_two_markers doc s e [42, 42] hp hw
    refine ⟨_, d, ?_, c1, c2⟩
    rw [markdown_bold_eq doc s e hargs, hnot, hadj]
    simp only [if_neg h1, if_neg h2]
    rfl
  · obtain ⟨d, c1, c2⟩ := commit_two_markers doc s e [42] hp hw
    refine ⟨_, d, ?_, c1, c2⟩
    rw [markdown_italic_eq doc s e hargs, hnot, hadj]
    simp only [if_neg h1, if_neg h2]
    rfl
  · obtain ⟨d, c1, c2⟩ := commit_two_markers doc s e [96] hp hw
    refine ⟨_, d, ?_, c1, c2⟩
    rw [markdown_code_eq doc s e hargs, hnot, hadj]
    simp only [if_neg h1, if_neg h2]
    rfl

/-- Witness: `"abc"`, the range `[1, 2)`. -/
theorem C19_markers_add_twice_their_length_witness :
    abc_doc.pending = [] ∧ chunks_wf abc_doc.chunks ∧ 1 ≤ 2 ∧ 2 ≤ abc_doc.length ∧
    (∃ d1 d2, markdown_bold abc_doc abc_doc.version 1 2 = (SUCCESS, d1) ∧
      markdown_increment_version d1 = some d2 ∧
      (markdown_flatten d2).length = (markdown_flatten abc_doc).length + 4) :=
  ⟨by decide, by decide, by decide, by decide,
    (C19_markers_add_twice_their_length abc_doc 1 2 (by decide) (by decide) (by decide)
      (by decide)).1⟩

/-- C20. On `"ab"` the link on the empty range `[1, 1)` with the url `"u"`
commits to `"a](u)[b"`: the closing string comes in front of the opening
bracket.  On the range `[0, 1)` the commit gives `"[a](u)b"`. -/
theorem C20_empty_range_link_is_reversed :
    markdown_link (text_doc "ab") 0 1 1 (bytes "u")
      = (SUCCESS, enqueue_insert (enqueue_insert (text_doc "ab") 1 (bytes "[")) 1 (bytes "](u)")) ∧
    (markdown_increment_version (markdown_link (text_doc "ab") 0 1 1 (bytes "u")).2).map
        markdown_flatten = some (bytes "a](u)[b") ∧
    (markdown_increment_version (markdown_link (text_doc "ab") 0 0 1 (bytes "u")).2).map
        markdown_flatten = some (bytes "[a](u)b") := by
  decide

/-! ## Block-level prefixes -/

theorem build_deleted_ranges_loop_no_delete (pending : List edit)
    (h : ∀ e ∈ pending, e.type ≠ edit_type.EDIT_DELETE) (deleted : List range) :
    build_deleted_ranges_loop pending deleted = deleted := by
  induction pending generalizing deleted with
  | nil => rfl
  | cons e next ih =>
    unfold build_deleted_ranges_loop
    rw [if_neg (h e (by simp))]
    exact ih (fun x hx => h x (by simp [hx])) deleted

/-- Without a pending `Delete` no position is adjusted. -/
theorem adjust_single_no_delete (doc : document) (pos : Nat)
    (h : ∀ e ∈ doc.pending, e.type ≠ edit_type.EDIT_DELETE) :
    adjust_single_position_if_deleted pos (build_deleted_ranges doc.pending) = pos := by
  unfold build_deleted_ranges
  rw [build_deleted_ranges_loop_no_delete doc.pending h]
  rfl

theorem needs_preceding_newline_iff (doc : document) (pos : Nat) :
    needs_preceding_newline doc pos = true ↔
      0 < pos ∧ char_at (markdown_flatten doc) (pos - 1) ≠ 10 := by
  unfold needs_preceding_newline
  by_cases hp : pos = 0
  · simp [hp]
  · simp [hp]
    omega

/-- C21. Start-of-line rule: with `pos <= length`, a level from 1 to 3, the
document's own version and no pending `Delete`, `markdown_heading` returns
`SUCCESS` and enqueues exactly one `Insert` at `pos` whose text is `level`
bytes `'#'` and one space, with `'\n'` in front if and only if `pos > 0` and
the flattened byte at `pos - 1` is not `'\n'`; `markdown_blockquote` and
`markdown_unordered_list` do the same with `"> "` and `"- "`. -/
theorem C21_start_of_line_rule (doc : document) (level : Int) (pos : Nat)
    (hpos : pos ≤ doc.length) (hlevel : 1 ≤ level ∧ level ≤ 3)
    (hdel : ∀ e ∈ doc.pending, e.type ≠ edit_type.EDIT_DELETE) :
    markdown_heading doc doc.version level pos
      = (SUCCESS, enqueue_insert doc pos
          ((if 0 < pos ∧ char_at (markdown_flatten doc) (pos - 1) ≠ 10 then [10] else [])
            ++ (List.replicate level.toNat 35 ++ [32]))) ∧
    markdown_blockquote doc doc.version pos
      = (SUCCESS, enqueue_insert doc pos
          ((if 0 < pos ∧ char_at (markdown_flatten doc) (pos - 1) ≠ 10 then [10] else [])
            ++ [62, 32])) ∧
    markdown_unordered_list doc doc.version pos
      = (SUCCESS, enqueue_insert doc pos
          ((if 0 < pos ∧ char_at (markdown_flatten doc) (pos - 1) ≠ 10 then [10] else [])
            ++ [45, 32])) := by
  refine ⟨?_, ?_, ?_⟩
  · rw [markdown_heading_eq doc level pos (by simp only [MAX_HEADING_LEVEL]; omega),
      adjust_single_no_delete doc pos hdel]
    by_cases hn : 0 < pos ∧ char_at (markdown_flatten doc) (pos - 1) ≠ 10
    · rw [if_pos ((needs_preceding_newline_iff doc pos).mpr hn), if_pos hn]
      rfl
    · rw [if_neg (fun hc => hn ((needs_preceding_newline_iff doc pos).mp hc)), if_neg hn]
      rfl
  · rw [markdown_blockquote_eq doc pos hpos, adjust_single_no_delete doc pos hdel]
    by_cases hn : 0 < pos ∧ char_at (markdown_flatten doc) (pos - 1) ≠ 10
    · rw [if_pos ((needs_preceding_newline_iff doc pos).mpr hn), if_pos hn]
      rfl
    · rw [if_neg (fun hc => hn ((needs_preceding_newline_iff doc pos).mp hc)), if_neg hn]
      rfl
  · rw [markdown_unordered_list_eq doc pos hpos, adjust_single_no_delete doc pos hdel]
    by_cases hn : 0 < pos ∧ char_at (markdown_flatten doc) (pos - 1) ≠ 10
    · rw [if_pos hn, if_pos hn]
      rfl
    · rw [if_neg hn, if_neg hn]
      rfl

/-- Witness: `"abc"`, level 2, `pos = 3` (the byte before is `'c'`). -/
theorem C21_start_of_line_rule_witness :
    (3 : Nat) ≤ abc_doc.length ∧ ((1 : Int) ≤ 2 ∧ (2 : Int) ≤ 3) ∧
    (∀ e ∈ abc_doc.pending, e.type ≠ edit_type.EDIT_DELETE) ∧
    (markdown_heading abc_doc abc_doc.version 2 3
      = (SUCCESS, enqueue_insert abc_doc 3
          ((if 0 < 3 ∧ char_at (markdown_flatten abc_doc) (3 - 1) ≠ 10 then [10] else [])
            ++ (List.replicate (2 : Int).toNat 35 ++ [32]))) ∧
    markdown_blockquote abc_doc abc_doc.version 3
      = (SUCCESS, enqueue_insert abc_doc 3
          ((if 0 < 3 ∧ char_at (markdown_flatten abc_doc) (3 - 1) ≠ 10 then [10] else [])
            ++ [62, 32])) ∧
    markdown_unordered_list abc_doc abc_doc.version 3
      = (SUCCESS, enqueue_insert abc_doc 3
          ((if 0 < 3 ∧ char_at (markdown_flatten abc_doc) (3 - 1) ≠ 10 then [10] else [])
            ++ [45, 32]))) :=
  ⟨by decide, by decide, by decide,
    C21_start_of_line_rule abc_doc 2 3 (by decide) (by decide) (by decide)⟩

/-- C22 (counterexample). In the document `"ab"` a horizontal rule at
`pos = 2 = length` is enqueued as `"\n---\n"`: the trailing `'\n'` is added at
the end of the document. -/
theorem C22_rule_at_end_gets_trailing_newline :
    (text_doc "ab").length = 2 ∧
    markdown_horizontal_rule (text_doc "ab") 0 2
      = (SUCCESS, enqueue_insert (text_doc "ab") 2 [10, 45, 45, 45, 10]) := by
  decide

/-- C22 (amended). With `pos <= length`, the document's own version and no
pending `Delete`, `markdown_horizontal_rule` returns `SUCCESS` and enqueues
one `Insert` at `pos` whose text is `"---"`, preceded by `'\n'` unless `pos`
is at start-of-line (`pos == 0` or the byte before `pos` is `'\n'`), and
followed by `'\n'` when `pos == length` or the byte at `pos` is not `'\n'`:
the trailing `'\n'` is left out only in front of a `'\n'` of the text. -/
theorem C22_horizontal_rule_text (doc : document) (pos : Nat)
    (hpos : pos ≤ doc.length)
    (hdel : ∀ e ∈ doc.pending, e.type ≠ edit_type.EDIT_DELETE) :
    markdown_horizontal_rule doc doc.version pos
      = (SUCCESS, enqueue_insert doc pos
          ((if 0 < pos ∧ char_at (markdown_flatten doc) (pos - 1) ≠ 10 then [10] else [])
            ++ [45, 45, 45]
            ++ (if pos = doc.length ∨ char_at (markdown_flatten doc) pos ≠ 10 then [10]
                else []))) := by
  rw [markdown_horizontal_rule_eq doc pos hpos, adjust_single_no_delete doc pos hdel]
  by_cases h1 : 0 < pos ∧ char_at (markdown_flatten doc) (pos - 1) ≠ 10 <;>
    by_cases h2 : pos = doc.length ∨ char_at (markdown_flatten doc) pos ≠ 10 <;>
    simp [h1, h2]

/-- Witness: `"abc"`, `pos = 3`, the end of the document. -/
theorem C22_horizontal_rule_text_witness :
    (3 : Nat) ≤ abc_doc.length ∧
    (∀ e ∈ abc_doc.pending, e.type ≠ edit_type.EDIT_DELETE) ∧
    markdown_horizontal_rule abc_doc abc_doc.version 3
      = (SUCCESS, enqueue_insert abc_doc 3
          ((if 0 < 3 ∧ char_at (markdown_flatten abc_doc) (3 - 1) ≠ 10 then [10] else [])
            ++ [45, 45, 45]
            ++ (if 3 = abc_doc.length ∨ char_at (markdown_flatten abc_doc) 3 ≠ 10 then [10]
                else []))) :=
  ⟨by decide, by decide, C22_horizontal_rule_text abc_doc 3 (by decide) (by decide)⟩

/-! ## Ordered lists -/

/-- C23. The upward scan is skipped when `pos` lies on the first line: in
`"1. a"` with `pos = 4` (not adjacent to the prefix) the new item gets the
number 1, not 2; one line further down, in `"x\n1. a"` with `pos = 6`, the
same list line gives the number 2. -/
theorem C23_first_line_is_not_scanned :
    is_near_list_prefix (markdown_flatten (text_doc "1. a")) 4 (text_doc "1. a").length = false ∧
    markdown_ordered_list (text_doc "1. a") 0 4
      = (SUCCESS, enqueue_insert (text_doc "1. a") 4 (bytes "\n1. ")) ∧
    markdown_ordered_list (text_doc "x\n1. a") 0 6
      = (SUCCESS, enqueue_insert (text_doc "x\n1. a") 6 (bytes "\n2. ")) := by
  decide

/-- C24. In `"9. a"` with `pos = 4` the nearest list line at or before the line
of `pos` begins with `"9. "`, yet `markdown_ordered_list` returns `SUCCESS`
and enqueues `"\n1. "`; one line further down, in `"x\n9. a"` with `pos = 6`,
the call is rejected and nothing is enqueued. -/
theorem C24_nine_on_first_line_not_rejected :
    markdown_ordered_list (text_doc "9. a") 0 4
      = (SUCCESS, enqueue_insert (text_doc "9. a") 4 (bytes "\n1. ")) ∧
    markdown_ordered_list (text_doc "x\n9. a") 0 6
      = (INVALID_CURSOR_POS, text_doc "x\n9. a") := by
  decide

/-- C26. With one following list line: in `"x\n1. a"` at `pos = 1` the call
enqueues only `"\n1. "` and the commit gives `"x\n1. \n1. a"`, the following
line keeps its number 1.  With two following list lines: in
`"xxxxxx\n1. a\n1. b"` at `pos = 1` the commit gives
`"x\n1. xxxxx\n2. a\nb3. "`, the second new prefix lands three bytes too far
to the right. -/
theorem C26_following_lines_misnumbered :
    markdown_ordered_list (text_doc "x\n1. a") 0 1
      = (SUCCESS, enqueue_insert (text_doc "x\n1. a") 1 (bytes "\n1. ")) ∧
    (markdown_increment_version (markdown_ordered_list (text_doc "x\n1. a") 0 1).2).map
        markdown_flatten = some (bytes "x\n1. \n1. a") ∧
    (markdown_ordered_list (text_doc "xxxxxx\n1. a\n1. b") 0 1).1 = SUCCESS ∧
    (markdown_increment_version (markdown_ordered_list (text_doc "xxxxxx\n1. a\n1. b") 0 1).2).map
        markdown_flatten = some (bytes "x\n1. xxxxx\n2. a\nb3. ") := by
  decide

/-- C27 (counterexample). From the empty document at version 0 the first
round succeeds and leaves `"1. "`; the second round, at `pos = 3` right
behind that prefix, is rejected with `INVALID_CURSOR_POS`. -/
theorem C27_second_ordered_list_rejected :
    ordered_list_rounds 2 markdown_init
      = some ([SUCCESS, INVALID_CURSOR_POS],
          { version := 2, length := 3, chunks := [⟨bytes "1. "⟩], pending := [] }) := by
  decide

/-- C27 (amended). From the empty document at version 0, of ten rounds
"ORDERED_LIST at the end of the document, then commit" only the first
succeeds; each of the other nine is rejected with `INVALID_CURSOR_POS`, and
the document is `"1. "` at the end. -/
theorem C27_only_first_ordered_list_succeeds :
    ordered_list_rounds 10 markdown_init
      = some (SUCCESS :: List.replicate 9 INVALID_CURSOR_POS,
          { version := 10, length := 3, chunks := [⟨bytes "1. "⟩], pending := [] }) := by
  decide

/-- C28 (counterexample). Two commands with the same timestamp in front of an
earlier one: the sort brings them out in the opposite order. -/
theorem C28_sort_is_not_stable :
    sort_command_queue [queued "a" 2 0, queued "b" 2 0, queued "c" 1 0]
      = [queued "c" 1 0, queued "b" 2 0, queued "a" 2 0] := by
  decide

/-- C28 (amended). For every command queue `sort_command_queue` leaves a
permutation of the queued commands (each command's fields kept together) in
ascending order of `(timestamp.sec, timestamp.nsec)`; a queue that already is
in ascending order is left exactly as it is, commands with equal timestamps
included. -/
theorem C28_sort_orders_queue (queue : List queued_command) :
    (sort_command_queue queue).Perm queue ∧
    (sort_command_queue queue).Pairwise spec_not_later ∧
    (queue.Pairwise spec_not_later → sort_command_queue queue = queue) := by
  unfold sort_command_queue
  by_cases h : queue.length < 2
  · rw [if_pos h]
    refine ⟨List.Perm.refl _, ?_, fun _ => rfl⟩
    match queue, h with
    | [], _ => exact List.Pairwise.nil
    | [a], _ => exact List.pairwise_singleton _ _
    | _ :: _ :: _, h =>
      exfalso
      simp only [List.length_cons] at h
      omega
  · rw [if_neg h]
    exact ⟨(sort_outer_spec _ queue (Nat.le_refl _)).1, (sort_outer_spec _ queue (Nat.le_refl _)).2,
      sort_outer_sorted _ queue⟩

/-! ## Parsing of a command line -/

theorem skip_space_of_not_space (t : Nat) (ts : List Nat) (h : isspace t = false) :
    skip_space (t :: ts) = t :: ts := by
  simp [skip_space, h]

theorem takeWhile_not_newline (text : List Nat) (h : ∀ c ∈ text, c ≠ 10) :
    text.takeWhile (fun c => decide (c ≠ 10)) = text := by
  rw [List.takeWhile_eq_self_iff]
  intro c hc
  simpa using h c hc


/-! ## Decimal numerals: `%zu` and `%d` read back what `format_decimal` writes -/

theorem digitChar_toNat (d : Nat) (h : d < 10) : (Nat.digitChar d).toNat = d + 48 := by
  interval_cases d <;> rfl

theorem toDigitsCore_value :
    ∀ (fuel n : Nat) (ds : List Char), n < fuel →
      digits_value ((Nat.toDigitsCore 10 fuel n ds).map Char.toNat) 0
        = digits_value (ds.map Char.toNat) n := by
  intro fuel
  induction fuel with
  | zero =>
    intro n ds h
    omega
  | succ f ih =>
    intro n ds h
    unfold Nat.toDigitsCore
    simp only []
    split
    · rename_i h0
      simp only [List.map_cons, digits_value, digitChar_toNat (n % 10) (Nat.mod_lt _ (by omega))]
      congr 1
      omega
    · rename_i h0
      rw [ih (n / 10) _ (by omega)]
      simp only [List.map_cons, digits_value, digitChar_toNat (n % 10) (Nat.mod_lt _ (by omega))]
      congr 1
      omega

theorem toDigitsCore_isdigit :
    ∀ (fuel n : Nat) (ds : List Char), (∀ c ∈ ds, isdigit c.toNat = true) →
      ∀ c ∈ Nat.toDigitsCore 10 fuel n ds, isdigit c.toNat = true := by
  intro fuel
  induction fuel with
  | zero =>
    intro n ds h
    simpa [Nat.toDigitsCore] using h
  | succ f ih =>
    intro n ds h
    have hd : isdigit (Nat.digitChar (n % 10)).toNat = true := by
      rw [digitChar_toNat (n % 10) (Nat.mod_lt _ (by omega))]
      simp only [isdigit, decide_eq_true_eq]
      have := Nat.mod_lt n (show 10 > 0 by omega)
      omega
    have hall : ∀ c ∈ Nat.digitChar (n % 10) :: ds, isdigit c.toNat = true := by
      intro c hc
      rcases List.mem_cons.mp hc with rfl | hc
      · exact hd
      · exact h c hc
    unfold Nat.toDigitsCore
    simp only []
    split
    · exact hall
    · exact ih (n / 10) _ hall

theorem toDigitsCore_ne_nil :
    ∀ (fuel n : Nat) (ds : List Char), ds ≠ [] ∨ 0 < fuel → Nat.toDigitsCore 10 fuel n ds ≠ [] := by
  intro fuel
  induction fuel with
  | zero =>
    intro n ds h
    rcases h with h | h
    · simpa [Nat.toDigitsCore] using h
    · omega
  | succ f ih =>
    intro n ds _
    unfold Nat.toDigitsCore
    simp only []
    split
    · simp
    · exact ih (n / 10) _ (Or.inl (by simp))

theorem format_decimal_value (n : Nat) : digits_value (format_decimal n) 0 = n := by
  unfold format_decimal Nat.toDigits
  rw [toDigitsCore_value (n + 1) n [] (by omega)]
  rfl

theorem format_decimal_isdigit (n : Nat) : ∀ c ∈ format_decimal n, isdigit c = true := by
  intro c hc
  unfold format_decimal Nat.toDigits at hc
  obtain ⟨x, hx, rfl⟩ := List.mem_map.mp hc
  exact toDigitsCore_isdigit (n + 1) n [] (by simp) x hx

theorem format_decimal_ne_nil (n : Nat) : format_decimal n ≠ [] := by
  unfold format_decimal Nat.toDigits
  intro h
  exact toDigitsCore_ne_nil (n + 1) n [] (Or.inr (by omega)) (List.map_eq_nil_iff.mp h)

theorem takeWhile_digits (fd rest : List Nat) (hd : ∀ c ∈ fd, isdigit c = true)
    (hrest : ∀ c r, rest = c :: r → isdigit c = false) :
    (fd ++ rest).takeWhile (fun c => isdigit c) = fd := by
  induction fd with
  | nil =>
    cases rest with
    | nil => rfl
    | cons c r => simp [List.takeWhile, hrest c r rfl]
  | cons x xs ih =>
    rw [List.cons_append, List.takeWhile_cons_of_pos (hd x (by simp)),
      ih (fun c hc => hd c (by simp [hc]))]

/-- The subject sequence of a decimal numeral followed by a non-digit (or
by the end of the input) is the numeral. -/
theorem scan_number_decimal (n : Nat) (rest : List Nat)
    (hrest : ∀ c r, rest = c :: r → isdigit c = false) :
    scan_number (skip_space (format_decimal n ++ rest))
      = some (false, format_decimal n, rest) := by
  have hne := format_decimal_ne_nil n
  have hd := format_decimal_isdigit n
  generalize format_decimal n = fd at hne hd
  cases fd with
  | nil => exact absurd rfl hne
  | cons x xs =>
    have hx : isdigit x = true := hd x (by simp)
    have hx2 : 48 ≤ x ∧ x ≤ 57 := by simpa [isdigit] using hx
    have hsp : isspace x = false := by
      simp only [isspace, decide_eq_false_iff_not]
      omega
    have hskip : skip_space (x :: xs ++ rest) = x :: xs ++ rest := by
      simp [skip_space, hsp]
    rw [hskip]
    unfold scan_number
    have h45 : (x :: xs ++ rest).head? ≠ some 45 := by
      simp only [List.cons_append, List.head?_cons, ne_eq, Option.some.injEq]
      omega
    have h43 : (x :: xs ++ rest).head? ≠ some 43 := by
      simp only [List.cons_append, List.head?_cons, ne_eq, Option.some.injEq]
      omega
    simp only [h45, h43, or_self, if_false, decide_False]
    rw [takeWhile_digits (x :: xs) rest hd hrest]
    simp

theorem white_zu_step (ds : List directive) (n : Nat) (rest : List Nat) (hn : n < SIZE_MOD)
    (hrest : ∀ c r, rest = c :: r → isdigit c = false) :
    sscanf_loop (directive.white :: directive.conv_zu :: ds) (32 :: (format_decimal n ++ rest))
      = scanned.size n :: sscanf_loop ds rest := by
  have h1 : skip_space (skip_space (32 :: (format_decimal n ++ rest)))
      = skip_space (skip_space (format_decimal n ++ rest)) := rfl
  have h2 := scan_number_decimal n rest hrest
  have h3 : skip_space (format_decimal n ++ rest) = format_decimal n ++ rest := by
    have hne := format_decimal_ne_nil n
    have hd := format_decimal_isdigit n
    generalize format_decimal n = fd at hne hd
    cases fd with
    | nil => exact absurd rfl hne
    | cons x xs =>
      have hx2 : 48 ≤ x ∧ x ≤ 57 := by simpa [isdigit] using hd x (by simp)
      have hsp : isspace x = false := by
        simp only [isspace, decide_eq_false_iff_not]
        omega
      simp [skip_space, hsp]
  have h2b : scan_number (format_decimal n ++ rest) = some (false, format_decimal n, rest) := by
    rw [h3] at h2
    exact h2
  have hn2 : ¬ n ≥ SIZE_MOD := by omega
  simp only [sscanf_loop, h1, h3, h2b, strtoul_value, format_decimal_value, if_neg hn2]
  simp

theorem white_d_step (ds : List directive) (n : Nat) (rest : List Nat) (hn : n < 2 ^ 31)
    (hrest : ∀ c r, rest = c :: r → isdigit c = false) :
    sscanf_loop (directive.white :: directive.conv_d :: ds) (32 :: (format_decimal n ++ rest))
      = scanned.int (n : Int) :: sscanf_loop ds rest := by
  have h1 : skip_space (skip_space (32 :: (format_decimal n ++ rest)))
      = skip_space (skip_space (format_decimal n ++ rest)) := rfl
  have h2 := scan_number_decimal n rest hrest
  have h3 : skip_space (format_decimal n ++ rest) = format_decimal n ++ rest := by
    have hne := format_decimal_ne_nil n
    have hd := format_decimal_isdigit n
    generalize format_decimal n = fd at hne hd
    cases fd with
    | nil => exact absurd rfl hne
    | cons x xs =>
      have hx2 : 48 ≤ x ∧ x ≤ 57 := by simpa [isdigit] using hd x (by simp)
      have hsp : isspace x = false := by
        simp only [isspace, decide_eq_false_iff_not]
        omega
      simp [skip_space, hsp]
  have h2b : scan_number (format_decimal n ++ rest) = some (false, format_decimal n, rest) := by
    rw [h3] at h2
    exact h2
  have hn2 : (n : Int) < 2 ^ 31 := by exact_mod_cast hn
  have e1 : min (n : Int) (2 ^ 63 - 1) = n := by
    apply min_eq_left
    omega
  have e2 : to_int (n : Int) = n := by
    unfold to_int
    omega
  have e3 : strtol_value false (format_decimal n) = n := by
    simp only [strtol_value, format_decimal_value, Bool.false_eq_true, if_false, e1]
  simp only [sscanf_loop, h1, h3, h2b, e3, e2]

theorem white_text_step (t : Nat) (ts : List Nat) (ht : isspace t = false)
    (hnl : ∀ c ∈ t :: ts, c ≠ 10) :
    sscanf_loop [directive.white, directive.conv_not_newline] (32 :: t :: ts)
      = [scanned.text (t :: ts)] := by
  have h3 : skip_space (32 :: t :: ts) = t :: ts :=
    (rfl : skip_space (32 :: t :: ts) = skip_space (t :: ts)).trans
      (skip_space_of_not_space t ts ht)
  simp only [sscanf_loop, h3, takeWhile_not_newline (t :: ts) hnl]
  simp

/-! ## The twelve line forms are dispatched -/

theorem parse_insert_line (pos : Nat) (hpos : pos < SIZE_MOD) (t : Nat) (ts : List Nat)
    (ht : isspace t = false) (hnl : ∀ c ∈ t :: ts, c ≠ 10) :
    parse_command (bytes "INSERT " ++ (format_decimal pos ++ 32 :: t :: ts))
      = some (primitive.insert pos (t :: ts)) := by
  have hs : sscanf (bytes "INSERT " ++ (format_decimal pos ++ 32 :: t :: ts))
      "INSERT %zu %[^\n]" = [scanned.size pos, scanned.text (t :: ts)] := by
    have e : sscanf (bytes "INSERT " ++ (format_decimal pos ++ 32 :: t :: ts))
        "INSERT %zu %[^\n]"
        = sscanf_loop [directive.white, directive.conv_zu, directive.white,
            directive.conv_not_newline]
          (32 :: (format_decimal pos ++ 32 :: t :: ts)) := rfl
    rw [e, white_zu_step _ pos _ hpos
        (by intro c r h; simp only [List.cons.injEq] at h; rw [← h.1]; decide),
      white_text_step t ts ht hnl]
  simp only [parse_command, hs, stored_size_text]

theorem parse_delete_line (pos len : Nat) (hpos : pos < SIZE_MOD) (hlen : len < SIZE_MOD) :
    parse_command (bytes "DEL " ++ (format_decimal pos ++ 32 :: format_decimal len))
      = some (primitive.delete pos len) := by
  have hs : sscanf (bytes "DEL " ++ (format_decimal pos ++ 32 :: format_decimal len))
      "DEL %zu %zu" = [scanned.size pos, scanned.size len] := by
    have e : sscanf (bytes "DEL " ++ (format_decimal pos ++ 32 :: format_decimal len))
        "DEL %zu %zu"
        = sscanf_loop [directive.white, directive.conv_zu, directive.white, directive.conv_zu]
          (32 :: (format_decimal pos ++ 32 :: format_decimal len)) := rfl
    have h2 := white_zu_step [] len [] hlen (by simp)
    rw [List.append_nil] at h2
    rw [e, white_zu_step _ pos _ hpos
        (by intro c r h; simp only [List.cons.injEq] at h; rw [← h.1]; decide),
      h2]
    rfl
  have f0 : sscanf (bytes "DEL " ++ (format_decimal pos ++ 32 :: format_decimal len))
      "INSERT %zu %[^\n]" = [] := rfl
  simp only [parse_command, f0, hs, stored_size_size, stored_size_text]

theorem parse_newline_line (pos : Nat) (hpos : pos < SIZE_MOD) :
    parse_command (bytes "NEWLINE " ++ format_decimal pos)
      = some (primitive.newline pos) := by
  have hs : sscanf (bytes "NEWLINE " ++ format_decimal pos)
      "NEWLINE %zu" = [scanned.size pos] := by
    have e : sscanf (bytes "NEWLINE " ++ format_decimal pos)
        "NEWLINE %zu"
        = sscanf_loop [directive.white, directive.conv_zu]
          (32 :: (format_decimal pos)) := rfl
    have h1 := white_zu_step [] pos [] hpos (by simp)
    rw [List.append_nil] at h1
    rw [e, h1]
    rfl
  have f0 : sscanf (bytes "NEWLINE " ++ format_decimal pos)
      "INSERT %zu %[^\n]" = [] := rfl
  have f1 : sscanf (bytes "NEWLINE " ++ format_decimal pos)
      "DEL %zu %zu" = [] := rfl
  simp only [parse_command, f0, f1, hs, stored_size, stored_size_size, stored_size_text]

theorem parse_heading_line (level pos : Nat) (hlevel : level < 2 ^ 31) (hpos : pos < SIZE_MOD) :
    parse_command (bytes "HEADING " ++ (format_decimal level ++ 32 :: format_decimal pos))
      = some (primitive.heading (level : Int) pos) := by
  have hs : sscanf (bytes "HEADING " ++ (format_decimal level ++ 32 :: format_decimal pos))
      "HEADING %d %zu" = [scanned.int (level : Int), scanned.size pos] := by
    have e : sscanf (bytes "HEADING " ++ (format_decimal level ++ 32 :: format_decimal pos))
        "HEADING %d %zu"
        = sscanf_loop [directive.white, directive.conv_d, directive.white, directive.conv_zu]
          (32 :: (format_decimal level ++ 32 :: format_decimal pos)) := rfl
    have h2 := white_zu_step [] pos [] hpos (by simp)
    rw [List.append_nil] at h2
    rw [e, white_d_step _ level _ hlevel
        (by intro c r h; simp only [List.cons.injEq] at h; rw [← h.1]; decide),
      h2]
    rfl
  have f0 : sscanf (bytes "HEADING " ++ (format_decimal level ++ 32 :: format_decimal pos))
      "INSERT %zu %[^\n]" = [] := rfl
  have f1 : sscanf (bytes "HEADING " ++ (format_decimal level ++ 32 :: format_decimal pos))
      "DEL %zu %zu" = [] := rfl
  have f2 : sscanf (bytes "HEADING " ++ (format_decimal level ++ 32 :: format_decimal pos))
      "NEWLINE %zu" = [] := rfl
  simp only [parse_command, f0, f1, f2, hs, stored_int_size, stored_size, stored_size_size,
    stored_size_text]

theorem parse_bold_line (start stop : Nat) (hstart : start < SIZE_MOD) (hstop : stop < SIZE_MOD) :
    parse_command (bytes "BOLD " ++ (format_decimal start ++ 32 :: format_decimal stop))
      = some (primitive.bold start stop) := by
  have hs : sscanf (bytes "BOLD " ++ (format_decimal start ++ 32 :: format_decimal stop))
      "BOLD %zu %zu" = [scanned.size start, scanned.size stop] := by
    have e : sscanf (bytes "BOLD " ++ (format_decimal start ++ 32 :: format_decimal stop))
        "BOLD %zu %zu"
        = sscanf_loop [directive.white, directive.conv_zu, directive.white, directive.conv_zu]
          (32 :: (format_decimal start ++ 32 :: format_decimal stop)) := rfl
    have h2 := white_zu_step [] stop [] hstop (by simp)
    rw [List.append_nil] at h2
    rw [e, white_zu_step _ start _ hstart
        (by intro c r h; simp only [List.cons.injEq] at h; rw [← h.1]; decide),
      h2]
    rfl
  have f0 : sscanf (bytes "BOLD " ++ (format_decimal start ++ 32 :: format_decimal stop))
      "INSERT %zu %[^\n]" = [] := rfl
  have f1 : sscanf (bytes "BOLD " ++ (format_decimal start ++ 32 :: format_decimal stop))
      "DEL %zu %zu" = [] := rfl
  have f2 : sscanf (bytes "BOLD " ++ (format_decimal start ++ 32 :: format_decimal stop))
      "NEWLINE %zu" = [] := rfl
  have f3 : sscanf (bytes "BOLD " ++ (format_decimal start ++ 32 :: format_decimal stop))
      "HEADING %d %zu" = [] := rfl
  simp only [parse_command, f0, f1, f2, f3, hs, stored_int_size, stored_size, stored_size_size,
    stored_size_text]

theorem parse_italic_line (start stop : Nat) (hstart : start < SIZE_MOD) (hstop : stop < SIZE_MOD) :
    parse_command (bytes "ITALIC " ++ (format_decimal start ++ 32 :: format_decimal stop))
      = some (primitive.italic start stop) := by
  have hs : sscanf (bytes "ITALIC " ++ (format_decimal start ++ 32 :: format_decimal stop))
      "ITALIC %zu %zu" = [scanned.size start, scanned.size stop] := by
    have e : sscanf (bytes "ITALIC " ++ (format_decimal start ++ 32 :: format_decimal stop))
        "ITALIC %zu %zu"
        = sscanf_loop [directive.white, directive.conv_zu, directive.white, directive.conv_zu]
          (32 :: (format_decimal start ++ 32 :: format_decimal stop)) := rfl
    have h2 := white_zu_step [] stop [] hstop (by simp)
    rw [List.append_nil] at h2
    rw [e, white_zu_step _ start _ hstart
        (by intro c r h; simp only [List.cons.injEq] at h; rw [← h.1]; decide),
      h2]
    rfl
  have f0 : sscanf (bytes "ITALIC " ++ (format_decimal start ++ 32 :: format_decimal stop))
      "INSERT %zu %[^\n]" = [] := rfl
  have f1 : sscanf (bytes "ITALIC " ++ (format_decimal start ++ 32 :: format_decimal stop))
      "DEL %zu %zu" = [] := rfl
  have f2 : sscanf (bytes "ITALIC " ++ (format_decimal start ++ 32 :: format_decimal stop))
      "NEWLINE %zu" = [] := rfl
  have f3 : sscanf (bytes "ITALIC " ++ (format_decimal start ++ 32 :: format_decimal stop))
      "HEADING %d %zu" = [] := rfl
  have f4 : sscanf (bytes "ITALIC " ++ (format_decimal start ++ 32 :: format_decimal stop))
      "BOLD %zu %zu" = [] := rfl
  simp only [parse_command, f0, f1, f2, f3, f4, hs, stored_int_size, stored_size,
    stored_size_size, stored_size_text]

theorem parse_blockquote_line (pos : Nat) (hpos : pos < SIZE_MOD) :
    parse_command (bytes "BLOCKQUOTE " ++ format_decimal pos)
      = some (primitive.blockquote pos) := by
  have hs : sscanf (bytes "BLOCKQUOTE " ++ format_decimal pos)
      "BLOCKQUOTE %zu" = [scanned.size pos] := by
    have e : sscanf (bytes "BLOCKQUOTE " ++ format_decimal pos)
        "BLOCKQUOTE %zu"
        = sscanf_loop [directive.white, directive.conv_zu]
          (32 :: (format_decimal pos)) := rfl
    have h1 := white_zu_step [] pos [] hpos (by simp)
    rw [List.append_nil] at h1
    rw [e, h1]
    rfl
  have f0 : sscanf (bytes "BLOCKQUOTE " ++ format_decimal pos)
      "INSERT %zu %[^\n]" = [] := rfl
  have f1 : sscanf (bytes "BLOCKQUOTE " ++ format_decimal pos)
      "DEL %zu %zu" = [] := rfl
  have f2 : sscanf (bytes "BLOCKQUOTE " ++ format_decimal pos)
      "NEWLINE %zu" = [] := rfl
  have f3 : sscanf (bytes "BLOCKQUOTE " ++ format_decimal pos)
      "HEADING %d %zu" = [] := rfl
  have f4 : sscanf (bytes "BLOCKQUOTE " ++ format_decimal pos)
      "BOLD %zu %zu" = [] := rfl
  have f5 : sscanf (bytes "BLOCKQUOTE " ++ format_decimal pos)
      "ITALIC %zu %zu" = [] := rfl
  simp only [parse_command, f0, f1, f2, f3, f4, f5, hs, stored_int_size, stored_size,
    stored_size_size, stored_size_text]

theorem parse_ordered_list_line (pos : Nat) (hpos : pos < SIZE_MOD) :
    parse_command (bytes "ORDERED_LIST " ++ format_decimal pos)
      = some (primitive.ordered_list pos) := by
  have hs : sscanf (bytes "ORDERED_LIST " ++ format_decimal pos)
      "ORDERED_LIST %zu" = [scanned.size pos] := by
    have e : sscanf (bytes "ORDERED_LIST " ++ format_decimal pos)
        "ORDERED_LIST %zu"
        = sscanf_loop [directive.white, directive.conv_zu]
          (32 :: (format_decimal pos)) := rfl
    have h1 := white_zu_step [] pos [] hpos (by simp)
    rw [List.append_nil] at h1
    rw [e, h1]
    rfl
  have f0 : sscanf (bytes "ORDERED_LIST " ++ format_decimal pos)
      "INSERT %zu %[^\n]" = [] := rfl
  have f1 : sscanf (bytes "ORDERED_LIST " ++ format_decimal pos)
      "DEL %zu %zu" = [] := rfl
  have f2 : sscanf (bytes "ORDERED_LIST " ++ format_decimal pos)
      "NEWLINE %zu" = [] := rfl
  have f3 : sscanf (bytes "ORDERED_LIST " ++ format_decimal pos)
      "HEADING %d %zu" = [] := rfl
  have f4 : sscanf (bytes "ORDERED_LIST " ++ format_decimal pos)
      "BOLD %zu %zu" = [] := rfl
  have f5 : sscanf (bytes "ORDERED_LIST " ++ format_decimal pos)
      "ITALIC %zu %zu" = [] := rfl
  have f6 : sscanf (bytes "ORDERED_LIST " ++ format_decimal pos)
      "BLOCKQUOTE %zu" = [] := rfl
  simp only [parse_command, f0, f1, f2, f3, f4, f5, f6, hs, stored_int_size, stored_size,
    stored_size_size, stored_size_text]

theorem parse_unordered_list_line (pos : Nat) (hpos : pos < SIZE_MOD) :
    parse_command (bytes "UNORDERED_LIST " ++ format_decimal pos)
      = some (primitive.unordered_list pos) := by
  have hs : sscanf (bytes "UNORDERED_LIST " ++ format_decimal pos)
      "UNORDERED_LIST %zu" = [scanned.size pos] := by
    have e : sscanf (bytes "UNORDERED_LIST " ++ format_decimal pos)
        "UNORDERED_LIST %zu"
        = sscanf_loop [directive.white, directive.conv_zu]
          (32 :: (format_decimal pos)) := rfl
    have h1 := white_zu_step [] pos [] hpos (by simp)
    rw [List.append_nil] at h1
    rw [e, h1]
    rfl
  have f0 : sscanf (bytes "UNORDERED_LIST " ++ format_decimal pos)
      "INSERT %zu %[^\n]" = [] := rfl
  have f1 : sscanf (bytes "UNORDERED_LIST " ++ format_decimal pos)
      "DEL %zu %zu" = [] := rfl
  have f2 : sscanf (bytes "UNORDERED_LIST " ++ format_decimal pos)
      "NEWLINE %zu" = [] := rfl
  have f3 : sscanf (bytes "UNORDERED_LIST " ++ format_decimal pos)
      "HEADING %d %zu" = [] := rfl
  have f4 : sscanf (bytes "UNORDERED_LIST " ++ format_decimal pos)
      "BOLD %zu %zu" = [] := rfl
  have f5 : sscanf (bytes "UNORDERED_LIST " ++ format_decimal pos)
      "ITALIC %zu %zu" = [] := rfl
  have f6 : sscanf (bytes "UNORDERED_LIST " ++ format_decimal pos)
      "BLOCKQUOTE %zu" = [] := rfl
  have f7 : sscanf (bytes "UNORDERED_LIST " ++ format_decimal pos)
      "ORDERED_LIST %zu" = [] := rfl
  simp only [parse_command, f0, f1, f2, f3, f4, f5, f6, f7, hs, stored_int_size, stored_size,
    stored_size_size, stored_size_text]

theorem parse_code_line (start stop : Nat) (hstart : start < SIZE_MOD) (hstop : stop < SIZE_MOD) :
    parse_command (bytes "CODE " ++ (format_decimal start ++ 32 :: format_decimal stop))
      = some (primitive.code start stop) := by
  have hs : sscanf (bytes "CODE " ++ (format_decimal start ++ 32 :: format_decimal stop))
      "CODE %zu %zu" = [scanned.size start, scanned.size stop] := by
    have e : sscanf (bytes "CODE " ++ (format_decimal start ++ 32 :: format_decimal stop))
        "CODE %zu %zu"
        = sscanf_loop [directive.white, directive.conv_zu, directive.white, directive.conv_zu]
          (32 :: (format_decimal start ++ 32 :: format_decimal stop)) := rfl
    have h2 := white_zu_step [] stop [] hstop (by simp)
    rw [List.append_nil] at h2
    rw [e, white_zu_step _ start _ hstart
        (by intro c r h; simp only [List.cons.injEq] at h; rw [← h.1]; decide),
      h2]
    rfl
  have f0 : sscanf (bytes "CODE " ++ (format_decimal start ++ 32 :: format_decimal stop))
      "INSERT %zu %[^\n]" = [] := rfl
  have f1 : sscanf (bytes "CODE " ++ (format_decimal start ++ 32 :: format_decimal stop))
      "DEL %zu %zu" = [] := rfl
  have f2 : sscanf (bytes "CODE " ++ (format_decimal start ++ 32 :: format_decimal stop))
      "NEWLINE %zu" = [] := rfl
  have f3 : sscanf (bytes "CODE " ++ (format_decimal start ++ 32 :: format_decimal stop))
      "HEADING %d %zu" = [] := rfl
  have f4 : sscanf (bytes "CODE " ++ (format_decimal start ++ 32 :: format_decimal stop))
      "BOLD %zu %zu" = [] := rfl
  have f5 : sscanf (bytes "CODE " ++ (format_decimal start ++ 32 :: format_decimal stop))
      "ITALIC %zu %zu" = [] := rfl
  have f6 : sscanf (bytes "CODE " ++ (format_decimal start ++ 32 :: format_decimal stop))
      "BLOCKQUOTE %zu" = [] := rfl
  have f7 : sscanf (bytes "CODE " ++ (format_decimal start ++ 32 :: format_decimal stop))
      "ORDERED_LIST %zu" = [] := rfl
  have f8 : sscanf (bytes "CODE " ++ (format_decimal start ++ 32 :: format_decimal stop))
      "UNORDERED_LIST %zu" = [] := rfl
  simp only [parse_command, f0, f1, f2, f3, f4, f5, f6, f7, f8, hs, stored_int_size, stored_size,
    stored_size_size, stored_size_text]

theorem parse_horizontal_rule_line (pos : Nat) (hpos : pos < SIZE_MOD) :
    parse_command (bytes "HORIZONTAL_RULE " ++ format_decimal pos)
      = some (primitive.horizontal_rule pos) := by
  have hs : sscanf (bytes "HORIZONTAL_RULE " ++ format_decimal pos)
      "HORIZONTAL_RULE %zu" = [scanned.size pos] := by
    have e : sscanf (bytes "HORIZONTAL_RULE " ++ format_decimal pos)
        "HORIZONTAL_RULE %zu"
        = sscanf_loop [directive.white, directive.conv_zu]
          (32 :: (format_decimal pos)) := rfl
    have h1 := white_zu_step [] pos [] hpos (by simp)
    rw [List.append_nil] at h1
    rw [e, h1]
    rfl
  have f0 : sscanf (bytes "HORIZONTAL_RULE " ++ format_decimal pos)
      "INSERT %zu %[^\n]" = [] := rfl
  have f1 : sscanf (bytes "HORIZONTAL_RULE " ++ format_decimal pos)
      "DEL %zu %zu" = [] := rfl
  have f2 : sscanf (bytes "HORIZONTAL_RULE " ++ format_decimal pos)
      "NEWLINE %zu" = [] := rfl
  have f3 : sscanf (bytes "HORIZONTAL_RULE " ++ format_decimal pos)
      "HEADING %d %zu" = [] := rfl
  have f4 : sscanf (bytes "HORIZONTAL_RULE " ++ format_decimal pos)
      "BOLD %zu %zu" = [] := rfl
  have f5 : sscanf (bytes "HORIZONTAL_RULE " ++ format_decimal pos)
      "ITALIC %zu %zu" = [] := rfl
  have f6 : sscanf (bytes "HORIZONTAL_RULE " ++ format_decimal pos)
      "BLOCKQUOTE %zu" = [] := rfl
  have f7 : sscanf (bytes "HORIZONTAL_RULE " ++ format_decimal pos)
      "ORDERED_LIST %zu" = [] := rfl
  have f8 : sscanf (bytes "HORIZONTAL_RULE " ++ format_decimal pos)
      "UNORDERED_LIST %zu" = [] := rfl
  have f9 : sscanf (bytes "HORIZONTAL_RULE " ++ format_decimal pos)
      "CODE %zu %zu" = [] := rfl
  simp only [parse_command, f0, f1, f2, f3, f4, f5, f6, f7, f8, f9, hs, stored_int_size,
    stored_size, stored_size_size, stored_size_text]

theorem parse_link_line (start stop : Nat) (hstart : start < SIZE_MOD) (hstop : stop < SIZE_MOD)
    (t : Nat) (ts : List Nat) (ht : isspace t = false) (hnl : ∀ c ∈ t :: ts, c ≠ 10) :
    parse_command (bytes "LINK " ++ (format_decimal start ++ 32 :: (format_decimal stop ++ 32 :: t :: ts)))
      = some (primitive.link start stop (t :: ts)) := by
  have hs : sscanf (bytes "LINK " ++ (format_decimal start ++ 32 :: (format_decimal stop ++ 32 :: t :: ts)))
      "LINK %zu %zu %[^\n]" = [scanned.size start, scanned.size stop, scanned.text (t :: ts)] := by
    have e : sscanf (bytes "LINK " ++ (format_decimal start ++ 32 :: (format_decimal stop ++ 32 :: t :: ts)))
        "LINK %zu %zu %[^\n]"
        = sscanf_loop [directive.white, directive.conv_zu, directive.white, directive.conv_zu,
            directive.white, directive.conv_not_newline]
          (32 :: (format_decimal start ++ 32 :: (format_decimal stop ++ 32 :: t :: ts))) := rfl
    rw [e, white_zu_step _ start _ hstart
        (by intro c r h; simp only [List.cons.injEq] at h; rw [← h.1]; decide),
      white_zu_step _ stop _ hstop
        (by intro c r h; simp only [List.cons.injEq] at h; rw [← h.1]; decide),
      white_text_step t ts ht hnl]
  have f0 : sscanf (bytes "LINK " ++ (format_decimal start ++ 32 :: (format_decimal stop ++ 32 :: t :: ts)))
      "INSERT %zu %[^\n]" = [] := rfl
  have f1 : sscanf (bytes "LINK " ++ (format_decimal start ++ 32 :: (format_decimal stop ++ 32 :: t :: ts)))
      "DEL %zu %zu" = [] := rfl
  have f2 : sscanf (bytes "LINK " ++ (format_decimal start ++ 32 :: (format_decimal stop ++ 32 :: t :: ts)))
      "NEWLINE %zu" = [] := rfl
  have f3 : sscanf (bytes "LINK " ++ (format_decimal start ++ 32 :: (format_decimal stop ++ 32 :: t :: ts)))
      "HEADING %d %zu" = [] := rfl
  have f4 : sscanf (bytes "LINK " ++ (format_decimal start ++ 32 :: (format_decimal stop ++ 32 :: t :: ts)))
      "BOLD %zu %zu" = [] := rfl
  have f5 : sscanf (bytes "LINK " ++ (format_decimal start ++ 32 :: (format_decimal stop ++ 32 :: t :: ts)))
      "ITALIC %zu %zu" = [] := rfl
  have f6 : sscanf (bytes "LINK " ++ (format_decimal start ++ 32 :: (format_decimal stop ++ 32 :: t :: ts)))
      "BLOCKQUOTE %zu" = [] := rfl
  have f7 : sscanf (bytes "LINK " ++ (format_decimal start ++ 32 :: (format_decimal stop ++ 32 :: t :: ts)))
      "ORDERED_LIST %zu" = [] := rfl
  have f8 : sscanf (bytes "LINK " ++ (format_decimal start ++ 32 :: (format_decimal stop ++ 32 :: t :: ts)))
      "UNORDERED_LIST %zu" = [] := rfl
  have f9 : sscanf (bytes "LINK " ++ (format_decimal start ++ 32 :: (format_decimal stop ++ 32 :: t :: ts)))
      "CODE %zu %zu" = [] := rfl
  have f10 : sscanf (bytes "LINK " ++ (format_decimal start ++ 32 :: (format_decimal stop ++ 32 :: t :: ts)))
      "HORIZONTAL_RULE %zu" = [] := rfl
  simp only [parse_command, f0, f1, f2, f3, f4, f5, f6, f7, f8, f9, f10, hs, stored_int_size,
    stored_size, stored_size_size, stored_size_size_text, stored_size_text]

theorem parse_delete_trailing (pos len : Nat) (hpos : pos < SIZE_MOD) (hlen : len < SIZE_MOD)
    (tail : List Nat) :
    parse_command (bytes "DEL " ++ (format_decimal pos ++ 32 :: (format_decimal len ++ 32 :: tail)))
      = some (primitive.delete pos len) := by
  have hs : sscanf (bytes "DEL " ++ (format_decimal pos ++ 32 :: (format_decimal len ++ 32 :: tail)))
      "DEL %zu %zu" = [scanned.size pos, scanned.size len] := by
    have e : sscanf (bytes "DEL " ++ (format_decimal pos ++ 32 :: (format_decimal len ++ 32 :: tail)))
        "DEL %zu %zu"
        = sscanf_loop [directive.white, directive.conv_zu, directive.white, directive.conv_zu]
          (32 :: (format_decimal pos ++ 32 :: (format_decimal len ++ 32 :: tail))) := rfl
    rw [e, white_zu_step _ pos _ hpos
        (by intro c r h; simp only [List.cons.injEq] at h; rw [← h.1]; decide),
      white_zu_step _ len _ hlen
        (by intro c r h; simp only [List.cons.injEq] at h; rw [← h.1]; decide)]
    rfl
  have f0 : sscanf (bytes "DEL " ++ (format_decimal pos ++ 32 :: (format_decimal len ++ 32 :: tail)))
      "INSERT %zu %[^\n]" = [] := rfl
  simp only [parse_command, f0, hs, stored_size_size, stored_size_text]

theorem parse_insert_spaces (pos : Nat) (hpos : pos < SIZE_MOD) (t : Nat) (ts : List Nat)
    (ht : isspace t = false) (hnl : ∀ c ∈ t :: ts, c ≠ 10) :
    parse_command (bytes "INSERT " ++ (format_decimal pos ++ 32 :: 32 :: t :: ts))
      = some (primitive.insert pos (t :: ts)) := by
  have hs : sscanf (bytes "INSERT " ++ (format_decimal pos ++ 32 :: 32 :: t :: ts))
      "INSERT %zu %[^\n]" = [scanned.size pos, scanned.text (t :: ts)] := by
    have e : sscanf (bytes "INSERT " ++ (format_decimal pos ++ 32 :: 32 :: t :: ts))
        "INSERT %zu %[^\n]"
        = sscanf_loop [directive.white, directive.conv_zu, directive.white,
            directive.conv_not_newline]
          (32 :: (format_decimal pos ++ 32 :: 32 :: t :: ts)) := rfl
    have h2 : sscanf_loop [directive.white, directive.conv_not_newline] (32 :: 32 :: t :: ts)
        = sscanf_loop [directive.white, directive.conv_not_newline] (32 :: t :: ts) := rfl
    rw [e, white_zu_step _ pos _ hpos
        (by intro c r h; simp only [List.cons.injEq] at h; rw [← h.1]; decide),
      h2, white_text_step t ts ht hnl]
  simp only [parse_command, hs, stored_size_text]

/-- C29 (counterexample). The line `"DEL 1 2 xyz"`, a well-formed command
followed by extra text, is dispatched as `DEL 1 2`: on `"abcdef"` it enqueues
the delete and returns `SUCCESS`; and of `"INSERT 0  x"`, with two spaces
behind the position, only `"x"` is the text. -/
theorem C29_trailing_text_is_ignored :
    process_command abcdef_doc (bytes "DEL 1 2 xyz") 0
      = (SUCCESS, enqueue_delete abcdef_doc 1 2) ∧
    parse_command (bytes "INSERT 0  x") = some (primitive.insert 0 (bytes "x")) := by
  decide

/-- C29 (amended). `process_command` tries the twelve `sscanf` formats in the
order of the source and calls the primitive of the first one that stores all
its values; a line for which none does returns `UNKNOWN_COMMAND` and leaves
the document untouched.  Every line of one of the twelve forms, with decimal
arguments below `2^64` (a heading level below `2^31`) and a text that does
not start with white space, is dispatched with its arguments in the stated
order (`HEADING` is level then pos).  Text behind the last numeric argument
is ignored, and the white space in front of the `INSERT` text is skipped. -/
theorem C29_process_command_dispatch (doc : document) (command_str : List Nat)
    (client_version : Nat) :
    (parse_command command_str = none →
      process_command doc command_str client_version = (UNKNOWN_COMMAND, doc)) ∧
    (∀ p, parse_command command_str = some p →
      process_command doc command_str client_version = call doc client_version p) ∧
    (∀ (pos t : Nat) (ts : List Nat), pos < SIZE_MOD → isspace t = false →
      (∀ c ∈ t :: ts, c ≠ 10) →
      parse_command (bytes "INSERT " ++ (format_decimal pos ++ 32 :: t :: ts))
        = some (primitive.insert pos (t :: ts))) ∧
    (∀ pos len : Nat, pos < SIZE_MOD → len < SIZE_MOD →
      parse_command (bytes "DEL " ++ (format_decimal pos ++ 32 :: format_decimal len))
        = some (primitive.delete pos len)) ∧
    (∀ pos : Nat, pos < SIZE_MOD →
      parse_command (bytes "NEWLINE " ++ format_decimal pos) = some (primitive.newline pos)) ∧
    (∀ level pos : Nat, level < 2 ^ 31 → pos < SIZE_MOD →
      parse_command (bytes "HEADING " ++ (format_decimal level ++ 32 :: format_decimal pos))
        = some (primitive.heading (level : Int) pos)) ∧
    (∀ start stop : Nat, start < SIZE_MOD → stop < SIZE_MOD →
      parse_command (bytes "BOLD " ++ (format_decimal start ++ 32 :: format_decimal stop))
        = some (primitive.bold start stop)) ∧
    (∀ start stop : Nat, start < SIZE_MOD → stop < SIZE_MOD →
      parse_command (bytes "ITALIC " ++ (format_decimal start ++ 32 :: format_decimal stop))
        = some (primitive.italic start stop)) ∧
    (∀ pos : Nat, pos < SIZE_MOD →
      parse_command (bytes "BLOCKQUOTE " ++ format_decimal pos)
        = some (primitive.blockquote pos)) ∧
    (∀ pos : Nat, pos < SIZE_MOD →
      parse_command (bytes "ORDERED_LIST " ++ format_decimal pos)
        = some (primitive.ordered_list pos)) ∧
    (∀ pos : Nat, pos < SIZE_MOD →
      parse_command (bytes "UNORDERED_LIST " ++ format_decimal pos)
        = some (primitive.unordered_list pos)) ∧
    (∀ start stop : Nat, start < SIZE_MOD → stop < SIZE_MOD →
      parse_command (bytes "CODE " ++ (format_decimal start ++ 32 :: format_decimal stop))
        = some (primitive.code start stop)) ∧
    (∀ pos : Nat, pos < SIZE_MOD →
      parse_command (bytes "HORIZONTAL_RULE " ++ format_decimal pos)
        = some (primitive.horizontal_rule pos)) ∧
    (∀ (start stop t : Nat) (ts : List Nat), start < SIZE_MOD → stop < SIZE_MOD →
      isspace t = false → (∀ c ∈ t :: ts, c ≠ 10) →
      parse_command (bytes "LINK " ++
          (format_decimal start ++ 32 :: (format_decimal stop ++ 32 :: t :: ts)))
        = some (primitive.link start stop (t :: ts))) ∧
    parse_command (bytes "FOO 3") = none ∧
    parse_command (bytes "DEL 3") = none ∧
    parse_command (bytes "INSERT 3") = none ∧
    (∀ (pos len : Nat) (tail : List Nat), pos < SIZE_MOD → len < SIZE_MOD →
      parse_command (bytes "DEL " ++
          (format_decimal pos ++ 32 :: (format_decimal len ++ 32 :: tail)))
        = some (primitive.delete pos len)) ∧
    (∀ (pos t : Nat) (ts : List Nat), pos < SIZE_MOD → isspace t = false →
      (∀ c ∈ t :: ts, c ≠ 10) →
      parse_command (bytes "INSERT " ++ (format_decimal pos ++ 32 :: 32 :: t :: ts))
        = some (primitive.insert pos (t :: ts))) := by
  refine ⟨?_, ?_, ?_, ?_, ?_, ?_, ?_, ?_, ?_, ?_, ?_, ?_, ?_, ?_, by decide, by decide,
    by decide, ?_, ?_⟩
  · intro h
    simp only [process_command, h]
  · intro p h
    simp only [process_command, h]
  · intro pos t ts h1 h2 h3
    exact parse_insert_line pos h1 t ts h2 h3
  · intro pos len h1 h2
    exact parse_delete_line pos len h1 h2
  · intro pos h1
    exact parse_newline_line pos h1
  · intro level pos h1 h2
    exact parse_heading_line level pos h1 h2
  · intro start stop h1 h2
    exact parse_bold_line start stop h1 h2
  · intro start stop h1 h2
    exact parse_italic_line start stop h1 h2
  · intro pos h1
    exact parse_blockquote_line pos h1
  · intro pos h1
    exact parse_ordered_list_line pos h1
  · intro pos h1
    exact parse_unordered_list_line pos h1
  · intro start stop h1 h2
    exact parse_code_line start stop h1 h2
  · intro pos h1
    exact parse_horizontal_rule_line pos h1
  · intro start stop t ts h1 h2 h3 h4
    exact parse_link_line start stop h1 h2 t ts h3 h4
  · intro pos len tail h1 h2
    exact parse_delete_trailing pos len h1 h2 tail
  · intro pos t ts h1 h2 h3
    exact parse_insert_spaces pos h1 t ts h2 h3

/-! ## Appending at the end of the document -/

/-- The insert loop on the last chunk of the list, with the cursor at the end
of that chunk: the text is laid out behind the chunk's bytes, in new chunks
where the chunk fills up. -/
theorem apply_insert_loop_tail :
    ∀ (fuel : Nat) (before : List chunk) (c : chunk) (text : List Nat) (len : Nat),
      c.length < CHUNK_SIZE → text.length ≤ fuel →
      ∃ cs, apply_insert_loop fuel before [c] c.length text len
          = some (cs, len + text.length) ∧
        flatten_chunks cs = flatten_chunks before ++ c.data ++ text := by
  intro fuel
  induction fuel with
  | zero =>
    intro before c text len hc hf
    have ht : text = [] := List.eq_nil_of_length_eq_zero (by omega)
    subst ht
    exact ⟨before ++ [c], by simp [apply_insert_loop],
      by simp [flatten_chunks_append, flatten_chunks]⟩
  | succ f ih =>
    intro before c text len hc hf
    cases text with
    | nil =>
      exact ⟨before ++ [c], by simp [apply_insert_loop],
        by simp [flatten_chunks_append, flatten_chunks]⟩
    | cons t ts =>
      unfold apply_insert_loop
      simp only [List.tail_cons]
      generalize hk : (if (t :: ts).length < CHUNK_SIZE - c.length then (t :: ts).length
        else CHUNK_SIZE - c.length) = k
      have hk1 : 1 ≤ k := by
        rw [← hk]
        simp only [List.length_cons]
        split <;> omega
      have hk2 : k ≤ (t :: ts).length := by
        rw [← hk]
        split <;> omega
      have hk3 : c.length + k ≤ CHUNK_SIZE := by
        rw [← hk]
        split <;> omega
      have hc1 : (List.take c.length c.data ++ List.take k (t :: ts)
          ++ List.drop c.length c.data) = c.data ++ List.take k (t :: ts) := by
        simp [chunk.length]
      rw [hc1]
      have hl1 : (⟨c.data ++ List.take k (t :: ts)⟩ : chunk).length = c.length + k := by
        simp only [chunk.length, List.length_append, List.length_take]
        omega
      have hd : (List.drop k (t :: ts)).length ≤ f := by
        simp only [List.length_drop]
        simp only [List.length_cons] at hf hk2 ⊢
        omega
      split
      · obtain ⟨cs, h1, h2⟩ := ih (before ++ [⟨c.data ++ List.take k (t :: ts)⟩]) ⟨[]⟩
          (List.drop k (t :: ts)) (len + k) (by simp [chunk.length, CHUNK_SIZE]) hd
        simp only [chunk.length, List.length_nil] at h1
        refine ⟨cs, ?_, ?_⟩
        · rw [h1]
          simp only [List.length_drop, List.length_cons] at hk2 ⊢
          congr 2
          omega
        · rw [h2]
          simp only [flatten_chunks_append, flatten_chunks, List.append_nil, List.append_assoc,
            List.take_append_drop]
      · rename_i hfull
        obtain ⟨cs, h1, h2⟩ := ih before ⟨c.data ++ List.take k (t :: ts)⟩
          (List.drop k (t :: ts)) (len + k) (by rw [hl1]; rw [hl1] at hfull; omega) hd
        rw [hl1] at h1
        refine ⟨cs, ?_, ?_⟩
        · rw [h1]
          simp only [List.length_drop, List.length_cons] at hk2 ⊢
          congr 2
          omega
        · rw [h2]
          simp only [List.append_assoc, List.take_append_drop]

/-- C30. Append is concatenation: on a document whose `length` is the number of
bytes its chunks hold (any chunk layout) `apply_insert(doc, doc.length, text)`
returns, and the flattened text afterwards is the old flattened text followed
by `text`; `length` grows by the length of the text. -/
theorem C30_append_is_concatenation (doc : document) (text : List Nat)
    (hlen : doc.length = chunks_length doc.chunks) :
    ∃ d, apply_insert doc doc.length text = some d ∧
      markdown_flatten d = markdown_flatten doc ++ text ∧
      d.length = doc.length + text.length := by
  unfold apply_insert find_chunk markdown_flatten
  rcases hfc : find_chunk_loop doc.length [] doc.chunks 0 with ⟨b, r, off⟩
  obtain ⟨hsplit, hnil, hcons⟩ :=
    find_chunk_loop_spec doc.length doc.chunks [] 0 (by simp [chunks_length]) (Nat.zero_le _)
      b r off hfc
  simp only [List.nil_append] at hsplit hnil
  cases r with
  | nil =>
    obtain ⟨rfl, _⟩ := hnil rfl
    simp only [List.append_nil] at hsplit
    simp only [if_true]
    obtain ⟨cs, h1, h2⟩ := apply_insert_loop_tail (text.length + doc.chunks.length + 2) b ⟨[]⟩
      text doc.length (by simp [chunk.length, CHUNK_SIZE]) (by omega)
    simp only [chunk.length, List.length_nil] at h1
    rw [h1]
    refine ⟨_, rfl, ?_, rfl⟩
    simp only [h2, hsplit, List.append_nil]
  | cons c r1 =>
    exfalso
    obtain ⟨hp, hoc⟩ := hcons c r1 rfl
    have h1 : chunks_length doc.chunks = chunks_length b + chunks_length (c :: r1) := by
      rw [← hsplit, chunks_length_append]
    simp only [chunks_length] at h1
    omega

/-- Witness: 300 bytes appended to the document of three chunks. -/
theorem C30_append_is_concatenation_witness :
    three_chunk_doc.length = chunks_length three_chunk_doc.chunks ∧
    ∃ d, apply_insert three_chunk_doc three_chunk_doc.length (List.replicate 300 120) = some d ∧
      markdown_flatten d = markdown_flatten three_chunk_doc ++ List.replicate 300 120 ∧
      d.length = three_chunk_doc.length + (List.replicate 300 120).length :=
  ⟨by decide, C30_append_is_concatenation three_chunk_doc (List.replicate 300 120) (by decide)⟩

/-! ## Chunk count after an insert into the empty document, and after deleting
everything -/

/-- C31 (counterexample). Inserting 256 bytes at position 0 of the empty
document leaves two chunks: the full one and an empty one linked behind it. -/
theorem C31_full_text_leaves_two_chunks :
    (apply_insert markdown_init 0 (List.replicate 256 97)).map (fun d => d.chunks)
      = some [⟨List.replicate 256 97⟩, ⟨[]⟩] ∧
    (apply_insert markdown_init 0 (List.replicate 255 97)).map (fun d => d.chunks)
      = some [⟨List.replicate 255 97⟩] := by
  decide

/-- C31 (amended). For every text with `1 <= |text| <= 256`, `apply_insert` at
position 0 on the empty document returns; the chunk list is the one chunk
holding the text when `|text| <= 255`, and that chunk followed by an empty
chunk when `|text| == 256`. -/
theorem C31_insert_into_empty_document (text : List Nat)
    (h1 : 1 ≤ text.length) (h2 : text.length ≤ CHUNK_SIZE) :
    apply_insert markdown_init 0 text
      = some { version := 0, length := text.length,
               chunks := if text.length = CHUNK_SIZE then [⟨text⟩, ⟨[]⟩] else [⟨text⟩],
               pending := [] } := by
  cases text with
  | nil => simp at h1
  | cons t ts =>
    have hfc : find_chunk markdown_init 0 = ([], [], 0) := rfl
    have hcopy : (if (t :: ts).length < CHUNK_SIZE - 0 then (t :: ts).length
        else CHUNK_SIZE - 0) = (t :: ts).length := by
      split
      · rfl
      · omega
    unfold apply_insert
    rw [hfc]
    simp only [markdown_init, if_true]
    unfold apply_insert_loop
    simp only [chunk.length, List.length_nil, List.tail_cons, hcopy, List.take_zero,
      List.drop_zero, List.nil_append, List.append_nil, List.take_length, List.drop_length,
      apply_insert_loop_nil, Nat.zero_add]
    by_cases hfull : (t :: ts).length = CHUNK_SIZE
    · simp only [if_pos hfull]
      rfl
    · simp only [if_neg hfull]

/-- Witness: the text `"abc"`. -/
theorem C31_insert_into_empty_document_witness :
    1 ≤ [97, 98, 99].length ∧ [97, 98, 99].length ≤ CHUNK_SIZE ∧
    apply_insert markdown_init 0 [97, 98, 99]
      = some { version := 0, length := [97, 98, 99].length,
               chunks := if [97, 98, 99].length = CHUNK_SIZE then [⟨[97, 98, 99]⟩, ⟨[]⟩]
                 else [⟨[97, 98, 99]⟩],
               pending := [] } :=
  ⟨by decide, by decide, C31_insert_into_empty_document [97, 98, 99] (by decide) (by decide)⟩

/-- C33. The partition puts every edit in front of its list, so both lists come
out in reverse enqueue order.  Two inserts at position 1 of `"ab"`, `"X"`
enqueued before `"Y"`: the commit gives `"aYXb"`, the later text first.  Two
deletes on `"abcdef"`, `(0, 2)` enqueued before `(3, 1)`: the commit gives
`"cef"`, which is `(3, 1)` applied first; in enqueue order the result would be
`"cde"`. -/
theorem C33_commit_reverses_enqueue_order :
    markdown_insert (markdown_insert (text_doc "ab") 0 1 (bytes "X")).2 0 1 (bytes "Y")
      = (SUCCESS, two_inserts_doc) ∧
    markdown_delete (markdown_delete (text_doc "abcdef") 0 0 2).2 0 3 1
      = (SUCCESS, two_deletes_doc) ∧
    split_pending two_inserts_doc.pending [] []
      = ([], [⟨edit_type.EDIT_INSERT, 1, bytes "Y", 0⟩, ⟨edit_type.EDIT_INSERT, 1, bytes "X", 0⟩]) ∧
    (markdown_increment_version two_inserts_doc).map markdown_flatten = some (bytes "aYXb") ∧
    split_pending two_deletes_doc.pending [] []
      = ([⟨edit_type.EDIT_DELETE, 3, [], 1⟩, ⟨edit_type.EDIT_DELETE, 0, [], 2⟩], []) ∧
    (markdown_increment_version two_deletes_doc).map markdown_flatten = some (bytes "cef") ∧
    markdown_flatten (apply_delete (apply_delete (text_doc "abcdef") 0 2) 3 1) = bytes "cde" ∧
    markdown_flatten (apply_delete (apply_delete (text_doc "abcdef") 3 1) 0 2) = bytes "cef" := by
  decide

/-! ## Range primitives against a single pending delete -/

theorem build_deleted_ranges_loop_append (a b : List edit) (deleted : List range) :
    build_deleted_ranges_loop (a ++ b) deleted
      = build_deleted_ranges_loop b (build_deleted_ranges_loop a deleted) := by
  induction a generalizing deleted with
  | nil => rfl
  | cons e next ih =>
    simp only [List.cons_append, build_deleted_ranges_loop]
    split <;> exact ih _

theorem build_deleted_ranges_single (pre post : List edit) (a len : Nat) (txt : List Nat)
    (hpre : ∀ x ∈ pre, x.type ≠ edit_type.EDIT_DELETE)
    (hpost : ∀ x ∈ post, x.type ≠ edit_type.EDIT_DELETE) :
    build_deleted_ranges (pre ++ ⟨edit_type.EDIT_DELETE, a, txt, len⟩ :: post)
      = [⟨a, (a + len) % SIZE_MOD⟩] := by
  unfold build_deleted_ranges
  rw [build_deleted_ranges_loop_append, build_deleted_ranges_loop_no_delete pre hpre]
  simp only [build_deleted_ranges_loop, if_true]
  rw [build_deleted_ranges_loop_no_delete post hpost]

theorem snap_eq_spec_snap (a b x : Nat) : snap x ⟨a, b⟩ = spec_snap a b x := by
  unfold snap spec_snap
  simp only []
  split_ifs <;> omega

theorem spec_snap_le (a b x bound : Nat) (hx : x ≤ bound) (hb : b ≤ bound) :
    spec_snap a b x ≤ bound := by
  unfold spec_snap
  split_ifs <;> omega

/-- C34 (counterexample). On `"abcdef"` with the pending delete of `[1, 7)`,
which reaches past the end of the document, the range `[0, 5)` is not inside
the deleted range and its end snaps to 7: italic returns `INSERT_FAILED` and
enqueues nothing, link returns `INSERT_FAILED` after enqueueing only its
opening bracket. -/
theorem C34_snap_past_the_end_fails :
    spec_snap 1 7 0 = 0 ∧ spec_snap 1 7 5 = 7 ∧
    markdown_italic past_end_delete_doc 0 0 5 = (INSERT_FAILED, past_end_delete_doc) ∧
    markdown_link past_end_delete_doc 0 0 5 [117]
      = (INSERT_FAILED, enqueue_insert past_end_delete_doc 0 [91]) := by
  decide

/-- C34 (amended). For a pending list whose only delete covers `[a, b)` with
`b <= length`, and a range `[s, e)` with `s <= e <= length` that is not
wholly inside `[a, b)`, bold, italic, code and link called with the
document's own version return `SUCCESS` and enqueue their markers at `s'` and
`e'`, where an endpoint `x` with `a < x < b` is replaced by `a` if
`x - a <= b - x` and by `b` otherwise, and every other endpoint stays. -/
theorem C34_single_delete_snap (doc : document) (pre post : List edit) (a len : Nat)
    (txt : List Nat) (s e : Nat) (url : List Nat)
    (hpend : doc.pending = pre ++ ⟨edit_type.EDIT_DELETE, a, txt, len⟩ :: post)
    (hpre : ∀ x ∈ pre, x.type ≠ edit_type.EDIT_DELETE)
    (hpost : ∀ x ∈ post, x.type ≠ edit_type.EDIT_DELETE)
    (hb : a + len ≤ doc.length) (hL : doc.length < SIZE_MOD)
    (hse : s ≤ e) (hel : e ≤ doc.length) (hout : ¬ (a ≤ s ∧ e ≤ a + len)) :
    markdown_bold doc doc.version s e
      = (SUCCESS, enqueue_insert (enqueue_insert doc (spec_snap a (a + len) e) [42, 42])
          (spec_snap a (a + len) s) [42, 42]) ∧
    markdown_italic doc doc.version s e
      = (SUCCESS, enqueue_insert (enqueue_insert doc (spec_snap a (a + len) e) [42])
          (spec_snap a (a + len) s) [42]) ∧
    markdown_code doc doc.version s e
      = (SUCCESS, enqueue_insert (enqueue_insert doc (spec_snap a (a + len) e) [96])
          (spec_snap a (a + len) s) [96]) ∧
    markdown_link doc doc.version s e url
      = (SUCCESS, enqueue_insert (enqueue_insert doc (spec_snap a (a + len) s) [91])
          (spec_snap a (a + len) e) ([93, 40] ++ url ++ [41])) := by
  have hargs : ¬ (s > e ∨ e > doc.length) := by omega
  have hr : build_deleted_ranges doc.pending = [⟨a, a + len⟩] := by
    rw [hpend, build_deleted_ranges_single pre post a len txt hpre hpost,
      Nat.mod_eq_of_lt (by omega)]
  have hnot : is_fully_within_deleted s e (build_deleted_ranges doc.pending) = false := by
    rw [hr]
    simp only [is_fully_within_deleted]
    rw [if_neg (by simpa using hout)]
  have hadj : adjust_partially_deleted s e (build_deleted_ranges doc.pending)
      = (spec_snap a (a + len) s, spec_snap a (a + len) e) := by
    rw [hr]
    simp only [adjust_partially_deleted, snap_eq_spec_snap]
  have h1 : ¬ spec_snap a (a + len) e > doc.length := by
    have := spec_snap_le a (a + len) e doc.length hel hb
    omega
  have h2 : ¬ spec_snap a (a + len) s > doc.length := by
    have := spec_snap_le a (a + len) s doc.length (by omega) hb
    omega
  refine ⟨?_, ?_, ?_, ?_⟩
  · rw [markdown_bold_eq doc s e hargs, hnot, hadj]
    simp only [if_neg h1, if_neg h2]
    rfl
  · rw [markdown_italic_eq doc s e hargs, hnot, hadj]
    simp only [if_neg h1, if_neg h2]
    rfl
  · rw [markdown_code_eq doc s e hargs, hnot, hadj]
    simp only [if_neg h1, if_neg h2]
    rfl
  · rw [markdown_link_eq doc s e url hargs, hnot, hadj]
    simp only [if_neg h1, if_neg h2]
    rfl

/-- Witness: `"abcdef"` with the pending delete of `[0, 3)`, the range
`[1, 5)`: the start snaps to 0, the end stays. -/
theorem C34_single_delete_snap_witness :
    prefix_delete_doc.pending = [] ++ ⟨edit_type.EDIT_DELETE, 0, [], 3⟩ :: [] ∧
    0 + 3 ≤ prefix_delete_doc.length ∧ ¬ (0 ≤ 1 ∧ 5 ≤ 0 + 3) ∧
    markdown_bold prefix_delete_doc prefix_delete_doc.version 1 5
      = (SUCCESS, enqueue_insert (enqueue_insert prefix_delete_doc (spec_snap 0 (0 + 3) 5)
          [42, 42]) (spec_snap 0 (0 + 3) 1) [42, 42]) ∧
    spec_snap 0 (0 + 3) 1 = 0 ∧ spec_snap 0 (0 + 3) 5 = 5 :=
  ⟨by decide, by decide, by decide,
    (C34_single_delete_snap prefix_delete_doc [] [] 0 3 [] 1 5 [] (by decide) (by decide)
      (by decide) (by decide) (by decide) (by decide) (by decide) (by decide)).1,
    by decide, by decide⟩

/-! ## What an ordered-list call appends to the pending queue -/

theorem scan_list_number_pos (text : List Nat) :
    ∀ (fuel scan : Nat), 1 ≤ scan_list_number text fuel scan := by
  intro fuel
  induction fuel with
  | zero =>
    intro scan
    exact Nat.le_refl 1
  | succ f ih =>
    intro scan
    unfold scan_list_number
    split
    · simp only []
      split
      · omega
      · split
        · exact Nat.le_refl 1
        · exact ih _
    · exact Nat.le_refl 1

theorem renumber_loop_prefixes :
    ∀ (fuel renumber cursor : Nat) (doc : document), 1 ≤ renumber →
      ∃ added, (renumber_loop fuel renumber cursor doc).pending = doc.pending ++ added ∧
        ∀ e ∈ added, e.type = edit_type.EDIT_INSERT →
          ∃ n, 1 ≤ n ∧ n ≤ 9 ∧ e.text = format_decimal n ++ [46, 32] := by
  intro fuel
  induction fuel with
  | zero =>
    intro renumber cursor doc _
    exact ⟨[], by simp [renumber_loop], by simp⟩
  | succ f ih =>
    intro renumber cursor doc h1
    unfold renumber_loop
    split
    · rename_i hg
      simp only [MAX_LIST_ITEM_NUMBER] at hg
      simp only []
      generalize line_end (markdown_flatten doc) (doc.length - cursor) cursor = ls
      split
      · exact ⟨[], by simp, by simp⟩
      · split
        · exact ⟨[], by simp, by simp⟩
        · split
          · rw [markdown_delete_eq]
            by_cases hd : ls + 1 > doc.length ∨ LIST_PREFIX_LEN = 0
            · rw [if_pos hd]
              simp only [INVALID_CURSOR_POS]
              exact ⟨[], by simp, by simp⟩
            · rw [if_neg hd]
              simp only [SUCCESS, ne_eq, not_true_eq_false, if_false]
              rw [markdown_insert_eq]
              by_cases hi : ls + 1 > (enqueue_delete doc (ls + 1) LIST_PREFIX_LEN).length
              · rw [if_pos hi]
                simp only [INVALID_CURSOR_POS]
                refine ⟨[⟨edit_type.EDIT_DELETE, ls + 1, [], LIST_PREFIX_LEN⟩], by
                  simp [enqueue_delete], ?_⟩
                intro e he ht
                simp only [List.mem_singleton] at he
                subst he
                exact absurd ht (by simp)
              · rw [if_neg hi]
                simp only [SUCCESS, ne_eq, not_true_eq_false, if_false]
                obtain ⟨added, a1, a2⟩ := ih (renumber + 1)
                  (ls + 1 + (format_decimal renumber ++ [46, 32]).length)
                  (enqueue_insert (enqueue_delete doc (ls + 1) LIST_PREFIX_LEN) (ls + 1)
                    (format_decimal renumber ++ [46, 32])) (by omega)
                refine ⟨⟨edit_type.EDIT_DELETE, ls + 1, [], LIST_PREFIX_LEN⟩ ::
                  ⟨edit_type.EDIT_INSERT, ls + 1, format_decimal renumber ++ [46, 32], 0⟩ ::
                  added, ?_, ?_⟩
                · rw [a1]
                  simp [enqueue_insert, enqueue_delete]
                · intro e he ht
                  simp only [List.mem_cons] at he
                  rcases he with rfl | rfl | he
                  · exact absurd ht (by simp)
                  · exact ⟨renumber, h1, hg.1, rfl⟩
                  · exact a2 e he ht
          · exact ⟨[], by simp, by simp⟩
    · exact ⟨[], by simp, by simp⟩

/-! ## Single-position primitives against the pending deletes -/

/-- The position `adjust_single_position_if_deleted` returns: the start of a
range that contains `pos` when there is one, `pos` itself otherwise. -/
theorem adjust_single_spec (pos : Nat) (rs : List range) :
    ((∃ r ∈ rs, r.start ≤ pos ∧ pos < r.stop) →
      ∃ r ∈ rs, r.start ≤ pos ∧ pos < r.stop ∧
        adjust_single_position_if_deleted pos rs = r.start) ∧
    ((∀ r ∈ rs, ¬ (r.start ≤ pos ∧ pos < r.stop)) →
      adjust_single_position_if_deleted pos rs = pos) := by
  induction rs with
  | nil =>
    refine ⟨?_, fun _ => rfl⟩
    rintro ⟨r, hr, _⟩
    simp at hr
  | cons x next ih =>
    by_cases hx : pos ≥ x.start ∧ pos < x.stop
    · refine ⟨fun _ => ⟨x, by simp, hx.1, hx.2, ?_⟩, ?_⟩
      · simp only [adjust_single_position_if_deleted, if_pos hx]
      · intro h
        exact absurd ⟨hx.1, hx.2⟩ (h x (by simp))
    · have hstep : adjust_single_position_if_deleted pos (x :: next)
          = adjust_single_position_if_deleted pos next := by
        simp only [adjust_single_position_if_deleted, if_neg hx]
      rw [hstep]
      refine ⟨?_, ?_⟩
      · rintro ⟨r, hr, h1, h2⟩
        rcases List.mem_cons.mp hr with rfl | hr
        · exact absurd ⟨h1, h2⟩ hx
        · obtain ⟨r2, hr2, a1, a2, a3⟩ := ih.1 ⟨r, hr, h1, h2⟩
          exact ⟨r2, by simp [hr2], a1, a2, a3⟩
      · intro h
        exact ih.2 (fun r hr => h r (by simp [hr]))

/-- An accepted ordered-list call either rejects the position and enqueues
nothing, or appends its prefix as an insert at the adjusted position, in
front of the edits of the renumbering. -/
theorem markdown_ordered_list_enqueues (doc : document) (pos : Nat) (h : pos ≤ doc.length) :
    markdown_ordered_list doc doc.version pos = (INVALID_CURSOR_POS, doc) ∨
    ∃ text more d, markdown_ordered_list doc doc.version pos = (SUCCESS, d) ∧
      d.pending = doc.pending ++
        ⟨edit_type.EDIT_INSERT,
          adjust_single_position_if_deleted pos (build_deleted_ranges doc.pending), text, 0⟩
        :: more := by
  unfold markdown_ordered_list
  rw [if_neg (Nat.not_lt.mpr h), if_neg (by simp)]
  simp only []
  split
  · left; rfl
  · split
    · left; rfl
    · right
      simp only [adjusted_insert_ok doc pos _ h]
      rw [if_neg (by simp [SUCCESS])]
      generalize hpre : (if needs_preceding_newline doc
          (adjust_single_position_if_deleted pos (build_deleted_ranges doc.pending)) = true
        then 10 :: (format_decimal (scan_list_number (markdown_flatten doc)
            (line_begin (markdown_flatten doc)
              (adjust_single_position_if_deleted pos (build_deleted_ranges doc.pending)))
            (line_begin (markdown_flatten doc)
              (adjust_single_position_if_deleted pos (build_deleted_ranges doc.pending))))
            ++ [46, 32])
        else format_decimal (scan_list_number (markdown_flatten doc)
            (line_begin (markdown_flatten doc)
              (adjust_single_position_if_deleted pos (build_deleted_ranges doc.pending)))
            (line_begin (markdown_flatten doc)
              (adjust_single_position_if_deleted pos (build_deleted_ranges doc.pending))))
            ++ [46, 32]) = pre
      obtain ⟨added, a1, _⟩ := renumber_loop_prefixes (MAX_LIST_ITEM_NUMBER + 1)
        (scan_list_number (markdown_flatten doc)
            (line_begin (markdown_flatten doc)
              (adjust_single_position_if_deleted pos (build_deleted_ranges doc.pending)))
            (line_begin (markdown_flatten doc)
              (adjust_single_position_if_deleted pos (build_deleted_ranges doc.pending))) + 1)
        (adjust_single_position_if_deleted pos (build_deleted_ranges doc.pending) + pre.length)
        (enqueue_insert doc
          (adjust_single_position_if_deleted pos (build_deleted_ranges doc.pending)) pre)
        (by omega)
      refine ⟨pre, added, _, rfl, ?_⟩
      rw [a1]
      simp [enqueue_insert]

/-- While no pending delete reaches `2^64` (`pos + len` of each is below it), the
six single-position primitives, called with a valid position, a heading
level from 1 to 3 and the document's own version, enqueue at the position
`p` that is never greater than `pos`, is the start of a pending delete that
contains `pos` when there is one, and is `pos` itself when there is none;
pending inserts play no part.  newline, heading, blockquote, unordered_list
and horizontal_rule enqueue exactly one insert, at `p`; ordered_list either
rejects the position and enqueues nothing, or enqueues its prefix at `p` in
front of the edits of the renumbering. -/
theorem single_position_snaps_to_delete_start (doc : document) (pos : Nat) (level : Int)
    (hpos : pos ≤ doc.length) (hlevel : 1 ≤ level ∧ level ≤ 3)
    (hwrap : ∀ e ∈ doc.pending, e.type = edit_type.EDIT_DELETE →
      e.pos + e.del_len < SIZE_MOD) :
    ∃ p, p = adjust_single_position_if_deleted pos (build_deleted_ranges doc.pending) ∧
      p ≤ pos ∧
      ((∃ e ∈ doc.pending, e.type = edit_type.EDIT_DELETE ∧
          e.pos ≤ pos ∧ pos < e.pos + e.del_len) →
        ∃ e ∈ doc.pending, e.type = edit_type.EDIT_DELETE ∧
          e.pos ≤ pos ∧ pos < e.pos + e.del_len ∧ p = e.pos) ∧
      ((∀ e ∈ doc.pending, e.type = edit_type.EDIT_DELETE →
          ¬ (e.pos ≤ pos ∧ pos < e.pos + e.del_len)) → p = pos) ∧
      markdown_newline doc doc.version pos = (SUCCESS, enqueue_insert doc p [10]) ∧
      (∃ text, markdown_heading doc doc.version level pos
        = (SUCCESS, enqueue_insert doc p text)) ∧
      (∃ text, markdown_blockquote doc doc.version pos
        = (SUCCESS, enqueue_insert doc p text)) ∧
      (∃ text, markdown_unordered_list doc doc.version pos
        = (SUCCESS, enqueue_insert doc p text)) ∧
      (∃ text, markdown_horizontal_rule doc doc.version pos
        = (SUCCESS, enqueue_insert doc p text)) ∧
      (markdown_ordered_list doc doc.version pos = (INVALID_CURSOR_POS, doc) ∨
        ∃ text more d, markdown_ordered_list doc doc.version pos = (SUCCESS, d) ∧
          d.pending = doc.pending ++ ⟨edit_type.EDIT_INSERT, p, text, 0⟩ :: more) := by
  obtain ⟨s1, s2⟩ := adjust_single_spec pos (build_deleted_ranges doc.pending)
  refine ⟨_, rfl, adjust_single_le pos _, ?_, ?_,
    markdown_newline_eq doc pos hpos, ⟨_, markdown_heading_eq doc level pos ?_⟩,
    ⟨_, markdown_blockquote_eq doc pos hpos⟩, ⟨_, markdown_unordered_list_eq doc pos hpos⟩,
    ⟨_, markdown_horizontal_rule_eq doc pos hpos⟩, markdown_ordered_list_enqueues doc pos hpos⟩
  · rintro ⟨e, he, ht, h1, h2⟩
    obtain ⟨r, hr, _, _, a3⟩ := s1 ⟨⟨e.pos, (e.pos + e.del_len) % SIZE_MOD⟩,
      (build_deleted_ranges_mem _ doc.pending).mpr ⟨e, he, ht, rfl⟩, h1,
      by rw [Nat.mod_eq_of_lt (hwrap e he ht)]; exact h2⟩
    obtain ⟨e2, he2, ht2, rfl⟩ := (build_deleted_ranges_mem r doc.pending).mp hr
    rename_i b1 b2
    refine ⟨e2, he2, ht2, b1, ?_, a3⟩
    have hb := b2
    simp only [Nat.mod_eq_of_lt (hwrap e2 he2 ht2)] at hb
    exact hb
  · intro h
    apply s2
    intro r hr
    obtain ⟨e, he, ht, rfl⟩ := (build_deleted_ranges_mem r doc.pending).mp hr
    simp only [Nat.mod_eq_of_lt (hwrap e he ht)]
    exact h e he ht
  · simp only [MAX_HEADING_LEVEL]
    omega

/-- Witness: `"abcdef"` with the pending delete of `[0, 3)`, `pos = 2`: the
newline is enqueued at 0. -/
theorem single_position_snaps_to_delete_start_witness :
    (2 : Nat) ≤ prefix_delete_doc.length ∧ ((1 : Int) ≤ 2 ∧ (2 : Int) ≤ 3) ∧
    (∀ e ∈ prefix_delete_doc.pending, e.type = edit_type.EDIT_DELETE →
      e.pos + e.del_len < SIZE_MOD) ∧
    (∃ p, p = adjust_single_position_if_deleted 2
        (build_deleted_ranges prefix_delete_doc.pending) ∧
      p ≤ 2 ∧
      markdown_newline prefix_delete_doc prefix_delete_doc.version 2
        = (SUCCESS, enqueue_insert prefix_delete_doc p [10])) ∧
    markdown_newline prefix_delete_doc prefix_delete_doc.version 2
      = (SUCCESS, enqueue_insert prefix_delete_doc 0 [10]) := by
  refine ⟨by decide, by decide, by decide, ?_, by decide⟩
  obtain ⟨p, h1, h2, _, _, h6, _⟩ :=
    single_position_snaps_to_delete_start prefix_delete_doc 2 2 (by decide) (by decide)
      (by decide)
  exact ⟨p, h1, h2, h6⟩

/-- C35 (evaluation at the failing input).  After
`markdown_delete(doc, 0, 1, 18446744073709551615)` on `"abcdef"` the pending
delete covers `[1, 1 + (2^64 - 1))`, which contains position 2; the end of
its range wraps to 0 in `size_t`, so position 2 lies in no range the code
builds and is not moved: newline, heading, blockquote, unordered_list and
horizontal_rule enqueue at 2, not at the start 1, and ordered_list puts its
prefix at 2.  With the pending delete of `[1, 7)`, which does not wrap, the
same calls enqueue at 1. -/
theorem C35_wrapped_delete_range_does_not_snap :
    markdown_delete abcdef_doc 0 1 18446744073709551615 = (SUCCESS, wrapped_delete_doc) ∧
    (1 ≤ 2 ∧ 2 < 1 + 18446744073709551615) ∧
    build_deleted_ranges wrapped_delete_doc.pending = [⟨1, 0⟩] ∧
    adjust_single_position_if_deleted 2 (build_deleted_ranges wrapped_delete_doc.pending) = 2 ∧
    markdown_newline wrapped_delete_doc 0 2
      = (SUCCESS, enqueue_insert wrapped_delete_doc 2 (bytes "\n")) ∧
    markdown_heading wrapped_delete_doc 0 1 2
      = (SUCCESS, enqueue_insert wrapped_delete_doc 2 (bytes "\n# ")) ∧
    markdown_blockquote wrapped_delete_doc 0 2
      = (SUCCESS, enqueue_insert wrapped_delete_doc 2 (bytes "\n> ")) ∧
    markdown_unordered_list wrapped_delete_doc 0 2
      = (SUCCESS, enqueue_insert wrapped_delete_doc 2 (bytes "\n- ")) ∧
    markdown_horizontal_rule wrapped_delete_doc 0 2
      = (SUCCESS, enqueue_insert wrapped_delete_doc 2 (bytes "\n---\n")) ∧
    markdown_ordered_list wrapped_delete_doc 0 2
      = (SUCCESS, enqueue_insert wrapped_delete_doc 2 (bytes "\n1. ")) ∧
    markdown_delete abcdef_doc 0 1 6 = (SUCCESS, past_end_delete_doc) ∧
    build_deleted_ranges past_end_delete_doc.pending = [⟨1, 7⟩] ∧
    markdown_newline past_end_delete_doc 0 2
      = (SUCCESS, enqueue_insert past_end_delete_doc 1 (bytes "\n")) ∧
    markdown_heading past_end_delete_doc 0 1 2
      = (SUCCESS, enqueue_insert past_end_delete_doc 1 (bytes "\n# ")) := by
  decide

/-! ## What `find_chunk` returns -/

/-- The result of `find_chunk` on a document whose `length` is the number of
bytes in its chunks: for `pos < length` the split at the chunk that holds
byte `pos`, for `pos >= length` the null pointer. -/
theorem find_chunk_spec (doc : document) (pos : Nat)
    (hlen : doc.length = chunks_length doc.chunks) :
    (pos < doc.length → ∃ before c next,
      find_chunk doc pos = (before, c :: next, pos - chunks_length before) ∧
      doc.chunks = before ++ c :: next ∧ chunks_length before ≤ pos ∧
      pos - chunks_length before < c.length) ∧
    (doc.length ≤ pos → find_chunk doc pos = (doc.chunks, [], 0)) := by
  unfold find_chunk
  rcases hfc : find_chunk_loop pos [] doc.chunks 0 with ⟨b, r, off⟩
  obtain ⟨hsplit, hnil, hcons⟩ :=
    find_chunk_loop_spec pos doc.chunks [] 0 (by simp [chunks_length]) (Nat.zero_le _) b r off hfc
  simp only [List.nil_append] at hsplit hnil
  cases r with
  | nil =>
    obtain ⟨rfl, hle⟩ := hnil rfl
    simp only [List.append_nil] at hsplit
    subst hsplit
    refine ⟨?_, fun _ => rfl⟩
    intro hp
    omega
  | cons c r1 =>
    obtain ⟨hp, hoc⟩ := hcons c r1 rfl
    have h1 : chunks_length doc.chunks = chunks_length b + (c.length + chunks_length r1) := by
      rw [← hsplit, chunks_length_append]
      rfl
    refine ⟨?_, ?_⟩
    · intro _
      refine ⟨b, c, r1, ?_, hsplit.symm, by omega, by omega⟩
      have : off = pos - chunks_length b := by omega
      rw [this]
    · intro hge
      omega

/-- C36 (counterexample). On the document `"abc"` `find_chunk(doc, 3)`, with
`pos == length`, returns the null pointer, not the tail chunk. -/
theorem C36_find_chunk_at_length_is_null :
    abc_doc.length = 3 ∧ abc_doc.tail = some ⟨[97, 98, 99]⟩ ∧
    find_chunk abc_doc 3 = ([⟨[97, 98, 99]⟩], [], 0) := by
  decide

/-- C36 (amended). On a document whose `length` is the number of bytes in its
chunks: for `pos < length` `find_chunk` returns the chunk whose cumulative
byte range contains `pos`, with `local_offset` equal to `pos` minus the bytes
in the chunks before it, so that `local_offset < chunk.length` and
`chunk.data[local_offset]` is byte `pos` of the flattened text; for
`pos >= length` it returns the null pointer, on an empty and on a non-empty
document alike. -/
theorem C36_find_chunk (doc : document) (pos : Nat)
    (hlen : doc.length = chunks_length doc.chunks) :
    (pos < doc.length → ∃ before c next,
      find_chunk doc pos = (before, c :: next, pos - chunks_length before) ∧
      doc.chunks = before ++ c :: next ∧ chunks_length before ≤ pos ∧
      pos - chunks_length before < c.length ∧
      c.data[pos - chunks_length before]? = (markdown_flatten doc)[pos]?) ∧
    (doc.length ≤ pos → find_chunk doc pos = (doc.chunks, [], 0)) := by
  obtain ⟨h1, h2⟩ := find_chunk_spec doc pos hlen
  refine ⟨?_, h2⟩
  intro hp
  obtain ⟨before, c, next, a1, a2, a3, a4⟩ := h1 hp
  refine ⟨before, c, next, a1, a2, a3, a4, ?_⟩
  simp only [chunk.length] at a4
  have hb : chunks_length before = (flatten_chunks before).length := chunks_length_eq before
  unfold markdown_flatten
  rw [a2, flatten_chunks_append, flatten_chunks]
  rw [List.getElem?_append_right (by omega), ← hb, List.getElem?_append_left a4]

/-- Witness: byte 4 of `"abc" "de" "f"` is in the second chunk. -/
theorem C36_find_chunk_witness :
    three_chunk_doc.length = chunks_length three_chunk_doc.chunks ∧
    ((4 : Nat) < three_chunk_doc.length → ∃ before c next,
      find_chunk three_chunk_doc 4 = (before, c :: next, 4 - chunks_length before) ∧
      three_chunk_doc.chunks = before ++ c :: next ∧ chunks_length before ≤ 4 ∧
      4 - chunks_length before < c.length ∧
      c.data[4 - chunks_length before]? = (markdown_flatten three_chunk_doc)[4]?) ∧
    find_chunk three_chunk_doc 4 = ([⟨[97, 98, 99]⟩], [⟨[100, 101]⟩, ⟨[102]⟩], 1) :=
  ⟨by decide, (C36_find_chunk three_chunk_doc 4 (by decide)).1, by decide⟩

/-! ## The snap keeps a range ordered -/

theorem snap_mono (r : range) (x y : Nat) (h : x ≤ y) : snap x r ≤ snap y r := by
  unfold snap
  split_ifs <;> omega

theorem adjust_partially_mono :
    ∀ (rs : List range) (s e : Nat), s ≤ e →
      (adjust_partially_deleted s e rs).1 ≤ (adjust_partially_deleted s e rs).2 := by
  intro rs
  induction rs with
  | nil =>
    intro s e h
    exact h
  | cons r next ih =>
    intro s e h
    simp only [adjust_partially_deleted]
    exact ih _ _ (snap_mono r s e h)

/-- C37. For every list of deleted ranges (also one with a range whose end lies
before its start, which never snaps) and every `s <= e`, the endpoints
adjusted by `adjust_partially_deleted` satisfy `s' <= e'`; and whenever bold,
italic, code or link returns `SUCCESS`, the two markers it enqueued sit at
positions `s' <= e'`, the opening marker at `s'` and the closing one at
`e'`. -/
theorem C37_adjusted_range_stays_ordered (rs : List range) (s e : Nat) (hse : s ≤ e) :
    (adjust_partially_deleted s e rs).1 ≤ (adjust_partially_deleted s e rs).2 ∧
    ∀ (doc : document) (url : List Nat) (d : document),
      (markdown_bold doc doc.version s e = (SUCCESS, d) → ∃ s1 e1, s1 ≤ e1 ∧
        d = enqueue_insert (enqueue_insert doc e1 [42, 42]) s1 [42, 42]) ∧
      (markdown_italic doc doc.version s e = (SUCCESS, d) → ∃ s1 e1, s1 ≤ e1 ∧
        d = enqueue_insert (enqueue_insert doc e1 [42]) s1 [42]) ∧
      (markdown_code doc doc.version s e = (SUCCESS, d) → ∃ s1 e1, s1 ≤ e1 ∧
        d = enqueue_insert (enqueue_insert doc e1 [96]) s1 [96]) ∧
      (markdown_link doc doc.version s e url = (SUCCESS, d) → ∃ s1 e1, s1 ≤ e1 ∧
        d = enqueue_insert (enqueue_insert doc s1 [91]) e1 ([93, 40] ++ url ++ [41])) := by
  refine ⟨adjust_partially_mono rs s e hse, ?_⟩
  intro doc url d
  have hm := adjust_partially_mono (build_deleted_ranges doc.pending) s e hse
  by_cases hargs : s > e ∨ e > doc.length
  · have r1 := (call_rejects doc doc.version (primitive.bold s e)).1 hargs
    have r2 := (call_rejects doc doc.version (primitive.italic s e)).1 hargs
    have r3 := (call_rejects doc doc.version (primitive.code s e)).1 hargs
    have r4 := (call_rejects doc doc.version (primitive.link s e url)).1 hargs
    simp only [call] at r1 r2 r3 r4
    rw [r1, r2, r3, r4]
    simp [INVALID_CURSOR_POS, SUCCESS]
  · rw [markdown_bold_eq doc s e hargs, markdown_italic_eq doc s e hargs,
      markdown_code_eq doc s e hargs, markdown_link_eq doc s e url hargs]
    refine ⟨?_, ?_, ?_, ?_⟩
    · intro h
      split_ifs at h <;>
        simp only [Prod.mk.injEq, SUCCESS, DELETED_POSITION, INSERT_FAILED] at h
      all_goals first
        | exact absurd h.1 (by decide)
        | exact ⟨_, _, hm, h.2.symm⟩
    · intro h
      split_ifs at h <;>
        simp only [Prod.mk.injEq, SUCCESS, DELETED_POSITION, INSERT_FAILED] at h
      all_goals first
        | exact absurd h.1 (by decide)
        | exact ⟨_, _, hm, h.2.symm⟩
    · intro h
      split_ifs at h <;>
        simp only [Prod.mk.injEq, SUCCESS, DELETED_POSITION, INSERT_FAILED] at h
      all_goals first
        | exact absurd h.1 (by decide)
        | exact ⟨_, _, hm, h.2.symm⟩
    · intro h
      split_ifs at h <;>
        simp only [Prod.mk.injEq, SUCCESS, DELETED_POSITION, INSERT_FAILED] at h
      all_goals first
        | exact absurd h.1 (by decide)
        | exact ⟨_, _, hm, h.2.symm⟩

/-- Witness: the range `[0, 5)` of `"abcdef"` against the pending delete of
`[1, 7)`. -/
theorem C37_adjusted_range_stays_ordered_witness :
    (0 : Nat) ≤ 5 ∧
    (adjust_partially_deleted 0 5 [⟨1, 7⟩]).1 ≤ (adjust_partially_deleted 0 5 [⟨1, 7⟩]).2 :=
  ⟨by decide, (C37_adjusted_range_stays_ordered [⟨1, 7⟩] 0 5 (by decide)).1⟩

/-! ## The pending queue of the server document -/

/-- C39. Delete clamping, on a document whose `length` is the number of bytes in
its chunks: `markdown_delete` with the document's own version accepts every
`len >= 1` with `pos <= length`; `apply_delete(doc, pos, len)` with
`pos + len > length` leaves exactly the bytes in front of `pos`; with
`pos >= length` it leaves the document as it is; and the commit of a single
pending delete at `pos == length` changes no text and sets the version to
`(version + 1) mod 2^64`. -/
theorem C39_delete_is_clamped (doc : document) (pos len : Nat)
    (hlen : doc.length = chunks_length doc.chunks) :
    (pos ≤ doc.length → 1 ≤ len →
      markdown_delete doc doc.version pos len = (SUCCESS, enqueue_delete doc pos len)) ∧
    (pos + len > doc.length →
      markdown_flatten (apply_delete doc pos len) = (markdown_flatten doc).take pos ∧
      (apply_delete doc pos len).length = min pos doc.length) ∧
    (pos ≥ doc.length → apply_delete doc pos len = doc) ∧
    (doc.pending = [] →
      markdown_increment_version (enqueue_delete doc doc.length len)
        = some { doc with version := (doc.version + 1) % SIZE_MOD }) := by
  have hfl : (markdown_flatten doc).length = doc.length := by rw [flatten_length, hlen]
  have hnull : ∀ p, doc.length ≤ p → apply_delete doc p len = doc := by
    intro p hp
    unfold apply_delete
    rw [(find_chunk_spec doc p hlen).2 hp]
    simp [apply_delete_loop]
  refine ⟨?_, ?_, hnull pos, ?_⟩
  · intro hp hl
    rw [markdown_delete_eq, if_neg (by omega)]
  · intro hp
    obtain ⟨a1, a2, _⟩ := apply_delete_spec doc pos len
    refine ⟨?_, ?_⟩
    · rw [a1, List.drop_eq_nil_of_le (by omega)]
      simp
    · rw [a2, hfl]
      omega
  · intro hp
    have hsp : split_pending (enqueue_delete doc doc.length len).pending [] []
        = ([⟨edit_type.EDIT_DELETE, doc.length, [], len⟩], []) := by
      simp [enqueue_delete, hp, split_pending]
    have hd : apply_delete (enqueue_delete doc doc.length len) doc.length len
        = enqueue_delete doc doc.length len :=
      by
        have := hnull doc.length (Nat.le_refl _)
        unfold apply_delete at this ⊢
        have hfc : find_chunk (enqueue_delete doc doc.length len) doc.length
            = find_chunk doc doc.length := rfl
        rw [hfc]
        rw [(find_chunk_spec doc doc.length hlen).2 (Nat.le_refl _)]
        simp [apply_delete_loop, enqueue_delete]
    unfold markdown_increment_version
    rw [hsp]
    simp only [apply_deletes, hd, sort_inserts, apply_inserts]
    simp [enqueue_delete, hp]

/-- Witness: `"abc"`, the delete of 5 bytes at position 1. -/
theorem C39_delete_is_clamped_witness :
    abc_doc.length = chunks_length abc_doc.chunks ∧
    markdown_delete abc_doc abc_doc.version 1 5 = (SUCCESS, enqueue_delete abc_doc 1 5) ∧
    markdown_flatten (apply_delete abc_doc 1 5) = [97] :=
  ⟨by decide, (C39_delete_is_clamped abc_doc 1 5 (by decide)).1 (by decide) (by decide),
    by decide⟩

/-- The insert loop when the text fits the free space of the chunk the
cursor is in: one iteration, the text lands at `offset` of that chunk; the
chunks in front and behind are as before, except that an empty chunk is
linked behind a chunk that became full as the last one. -/
theorem apply_insert_loop_fits_chunks (fuel : Nat) (before : List chunk) (c : chunk)
    (next : List chunk) (offset : Nat) (text : List Nat) (len : Nat)
    (hfit : text.length ≤ CHUNK_SIZE - c.length) :
    ∃ tail, apply_insert_loop (fuel + 1) before (c :: next) offset text len
        = some (before ++ (⟨c.data.take offset ++ text ++ c.data.drop offset⟩ : chunk) :: tail,
            len + text.length) ∧
      (tail = next ∨ (next = [] ∧ tail = [⟨[]⟩])) := by
  cases text with
  | nil =>
    refine ⟨next, ?_, Or.inl rfl⟩
    simp [apply_insert_loop]
  | cons t ts =>
    have hcopy : (if (t :: ts).length < CHUNK_SIZE - c.length then (t :: ts).length
        else CHUNK_SIZE - c.length) = (t :: ts).length := by
      split
      · rfl
      · omega
    unfold apply_insert_loop
    simp only [hcopy, List.take_length, List.drop_length, List.tail_cons,
      apply_insert_loop_nil]
    by_cases hfull : (⟨c.data.take offset ++ (t :: ts) ++ c.data.drop offset⟩ : chunk).length
        = CHUNK_SIZE
    · rw [if_pos hfull]
      cases next with
      | nil => exact ⟨[⟨[]⟩], by simp, Or.inr ⟨rfl, rfl⟩⟩
      | cons n ns => exact ⟨n :: ns, by simp, Or.inl rfl⟩
    · rw [if_neg hfull]
      exact ⟨next, rfl, Or.inl rfl⟩

/-- C40. On a document whose `length` is the number of bytes in its chunks, for
`pos < length`: `find_chunk` returns the chunk that contains `pos`, and for
every text that fits the free space of that chunk `apply_insert` returns, the
flattened text is `old[0, pos) + text + old[pos, length)`, the text is put
into that chunk at the local offset, and the chunks in front of it and
behind it are the same as before (an empty chunk is linked behind it when it
became full as the last chunk). -/
theorem C40_insert_that_fits_the_chunk (doc : document) (pos : Nat) (text : List Nat)
    (hlen : doc.length = chunks_length doc.chunks) (hpos : pos < doc.length) :
    ∃ before c next off, find_chunk doc pos = (before, c :: next, off) ∧
      doc.chunks = before ++ c :: next ∧
      (text.length ≤ CHUNK_SIZE - c.length →
        ∃ d tail, apply_insert doc pos text = some d ∧
          markdown_flatten d
            = (markdown_flatten doc).take pos ++ text ++ (markdown_flatten doc).drop pos ∧
          d.length = doc.length + text.length ∧
          d.chunks = before ++ (⟨c.data.take off ++ text ++ c.data.drop off⟩ : chunk) :: tail ∧
          (tail = next ∨ (next = [] ∧ tail = [⟨[]⟩]))) := by
  obtain ⟨before, c, next, a1, a2, a3, a4⟩ := (find_chunk_spec doc pos hlen).1 hpos
  refine ⟨before, c, next, pos - chunks_length before, a1, a2, ?_⟩
  intro hfit
  obtain ⟨tail, h1, h2⟩ := apply_insert_loop_fits_chunks (text.length + doc.chunks.length + 1)
    before c next (pos - chunks_length before) text doc.length hfit
  have hd : apply_insert doc pos text
      = some { doc with
          chunks := before ++ (⟨c.data.take (pos - chunks_length before) ++ text
            ++ c.data.drop (pos - chunks_length before)⟩ : chunk) :: tail,
          length := doc.length + text.length } := by
    unfold apply_insert
    rw [a1]
    simp only []
    have hfuel : text.length + doc.chunks.length + 2
        = (text.length + doc.chunks.length + 1) + 1 := rfl
    rw [hfuel, h1]
  refine ⟨_, tail, hd, ?_, rfl, rfl, h2⟩
  have htail : flatten_chunks tail = flatten_chunks next := by
    rcases h2 with rfl | ⟨rfl, rfl⟩
    · rfl
    · simp [flatten_chunks]
  have hb : chunks_length before = (flatten_chunks before).length := chunks_length_eq before
  simp only [chunk.length] at a4
  unfold markdown_flatten
  simp only [flatten_chunks_append, flatten_chunks, htail]
  rw [a2, flatten_chunks_append, flatten_chunks]
  have e1 : pos = (flatten_chunks before).length + (pos - chunks_length before) := by omega
  generalize pos - chunks_length before = off at a4 e1 ⊢
  rw [e1, List.take_append, List.drop_append, List.take_append_of_le_length (by omega),
    List.drop_append_of_le_length (by omega)]
  simp

/-- Witness: `"X"` inserted at position 4 of `"abc" "de" "f"`. -/
theorem C40_insert_that_fits_the_chunk_witness :
    three_chunk_doc.length = chunks_length three_chunk_doc.chunks ∧
    (4 : Nat) < three_chunk_doc.length ∧
    (∃ before c next off, find_chunk three_chunk_doc 4 = (before, c :: next, off) ∧
      three_chunk_doc.chunks = before ++ c :: next ∧
      ([88].length ≤ CHUNK_SIZE - c.length →
        ∃ d tail, apply_insert three_chunk_doc 4 [88] = some d ∧
          markdown_flatten d
            = (markdown_flatten three_chunk_doc).take 4 ++ [88]
              ++ (markdown_flatten three_chunk_doc).drop 4 ∧
          d.length = three_chunk_doc.length + [88].length ∧
          d.chunks = before ++ (⟨c.data.take off ++ [88] ++ c.data.drop off⟩ : chunk) :: tail ∧
          (tail = next ∨ (next = [] ∧ tail = [⟨[]⟩])))) ∧
    (apply_insert three_chunk_doc 4 [88]).map (fun d => d.chunks)
      = some [⟨[97, 98, 99]⟩, ⟨[100, 88, 101]⟩, ⟨[102]⟩] :=
  ⟨by decide, by decide, C40_insert_that_fits_the_chunk three_chunk_doc 4 [88] (by decide)
    (by decide), by decide⟩

/-! ## Further properties of the server loop and of ordered lists -/

/-- A queued command of role `"read"` is never dispatched: the document is
left exactly as it is, and while the line fits the buffer (user name and
command together at most 229 bytes) the line logged is
`EDIT <user> <command> Reject UNAUTHORISED` in full. -/
theorem read_role_is_not_dispatched (doc : document) (cmd : queued_command)
    (hr : cmd.role = bytes "read") :
    process_queued doc cmd = some (log_branch.unauthorised, doc) ∧
    (cmd.username.length + cmd.command_str.length ≤ 229 →
      log_line cmd.username cmd.command_str log_branch.unauthorised
        = some (bytes "EDIT " ++ cmd.username ++ [32] ++ cmd.command_str
            ++ bytes " Reject UNAUTHORISED")) := by
  refine ⟨?_, ?_⟩
  · unfold process_queued
    rw [if_pos hr]
  · intro hlen
    have h20 : (bytes " Reject UNAUTHORISED").length = 20 := by decide
    have h5 : (bytes "EDIT ").length = 5 := by decide
    have hsplit : bytes "EDIT " ++ cmd.username ++ [32] ++ cmd.command_str ++ [32]
        ++ bytes "Reject UNAUTHORISED"
        = bytes "EDIT " ++ cmd.username ++ [32] ++ cmd.command_str
          ++ bytes " Reject UNAUTHORISED" := by
      have : bytes " Reject UNAUTHORISED" = [32] ++ bytes "Reject UNAUTHORISED" := by decide
      rw [this]
      simp only [List.append_assoc]
    simp only [log_line, format_log_line, snprintf, hsplit, LINE_LEN]
    rw [List.take_of_length_le]
    simp only [List.length_append, h20, h5, List.length_singleton]
    omega

/-- Witness: carol's `INSERT 0 x` on `"abc"`. -/
theorem read_role_is_not_dispatched_witness :
    (queued_by "carol" "read" "INSERT 0 x" 0 1 0).role = bytes "read" ∧
    process_queued abc_doc (queued_by "carol" "read" "INSERT 0 x" 0 1 0)
      = some (log_branch.unauthorised, abc_doc) :=
  ⟨by decide,
    (read_role_is_not_dispatched abc_doc (queued_by "carol" "read" "INSERT 0 x" 0 1 0)
      (by decide)).1⟩

/-- Every prefix an ordered-list call enqueues carries a number from 1 to 9:
whatever the document, the version argument and the position, the edits the
call appends to the pending queue are deletes and inserts whose text is
`"n. "` or `"\nn. "` with `1 <= n <= 9`. -/
theorem ordered_list_numbers_in_range (doc : document) (version pos : Nat) :
    ∃ added, (markdown_ordered_list doc version pos).2.pending = doc.pending ++ added ∧
      ∀ e ∈ added, e.type = edit_type.EDIT_INSERT →
        ∃ n, 1 ≤ n ∧ n ≤ 9 ∧
          (e.text = format_decimal n ++ [46, 32] ∨
            e.text = 10 :: (format_decimal n ++ [46, 32])) := by
  unfold markdown_ordered_list
  split
  · exact ⟨[], by simp, by simp⟩
  · split
    · exact ⟨[], by simp, by simp⟩
    · rename_i hv
      have hv2 : version = doc.version := by
        by_contra hc
        exact hv hc
      subst hv2
      simp only []
      generalize adjust_single_position_if_deleted pos (build_deleted_ranges doc.pending) = p
      have hn1 := scan_list_number_pos (markdown_flatten doc)
        (line_begin (markdown_flatten doc) p) (line_begin (markdown_flatten doc) p)
      generalize scan_list_number (markdown_flatten doc)
        (line_begin (markdown_flatten doc) p) (line_begin (markdown_flatten doc) p) = number
        at hn1 ⊢
      split
      · exact ⟨[], by simp, by simp⟩
      · split
        · exact ⟨[], by simp, by simp⟩
        · rename_i hn9
          simp only [MAX_LIST_ITEM_NUMBER, not_lt] at hn9
          generalize hpre : (if needs_preceding_newline doc p = true
            then 10 :: (format_decimal number ++ [46, 32])
            else format_decimal number ++ [46, 32]) = pre
          have hpre2 : pre = format_decimal number ++ [46, 32] ∨
              pre = 10 :: (format_decimal number ++ [46, 32]) := by
            rw [← hpre]
            split
            · right; rfl
            · left; rfl
          rw [markdown_insert_eq]
          by_cases hi : p > doc.length
          · rw [if_pos hi]
            simp only [INVALID_CURSOR_POS]
            exact ⟨[], by simp, by simp⟩
          · rw [if_neg hi]
            simp only [SUCCESS, ne_eq, not_true_eq_false, if_false]
            obtain ⟨added, a1, a2⟩ := renumber_loop_prefixes (MAX_LIST_ITEM_NUMBER + 1)
              (number + 1) (p + pre.length) (enqueue_insert doc p pre) (by omega)
            refine ⟨⟨edit_type.EDIT_INSERT, p, pre, 0⟩ :: added, ?_, ?_⟩
            · rw [a1]
              simp [enqueue_insert]
            · intro e he ht
              simp only [List.mem_cons] at he
              rcases he with rfl | he
              · exact ⟨number, hn1, hn9, hpre2⟩
              · obtain ⟨n, b1, b2, b3⟩ := a2 e he ht
                exact ⟨n, b1, b2, Or.inl b3⟩

end Markdown
